import Mathlib

/-!
HoaLibrary-Light : the meter (peak tracking, 2D sectors, 3D hemisphere clipping).

A shallow embedding of `Sources/Meter.hpp`, of the functions of
`Sources/Math.hpp` and of `Scope<Hoa3d, T>::getElevation` (`Sources/Scope.hpp`),
over an arbitrary linearly ordered field `K` with a floor function (exact
arithmetic in place of `float`/`double`; the rationals make every definition
executable, the reals are the intended reading).

* `ulong` values are natural numbers, with `% ULONG_RANGE` where the code can wrap.
* C arrays are lists; `a[i]` is `List.getD`, `a[i] = v` is `List.set`.
* `while`/`for` loops whose bounds move are recursive functions on the loop
  variables, with the decreasing quantity given in `termination_by`.
* The loops of `Math::wrap_twopi` are also given in the arithmetic of `double`
  (`wrapUpT`, `wrapDownT` with the rounding `roundDouble`), where they need not
  end: there a bound on the number of iterations is an argument.
-/

namespace Hoa

/-- Constants of `Defs.hpp` (not among the sources): `HOA_2PI`, of which only
positivity is used. -/
structure Defs (K : Type) [LinearOrderedField K] where
  HOA_2PI : K
  HOA_2PI_pos : 0 < HOA_2PI

/-- Number of values of the type `ulong` (64-bit `unsigned long`). -/
def ULONG_RANGE : Nat := 2 ^ 64

section Math

variable {K : Type} [LinearOrderedField K]

/-- First loop of `Math::wrap_twopi`: `while(new_value < 0.) new_value += HOA_2PI;`. -/
def wrapUp [FloorRing K] (c : Defs K) (new_value : K) : K :=
  if new_value < 0 then wrapUp c (new_value + c.HOA_2PI) else new_value
termination_by (⌈-new_value / c.HOA_2PI⌉).toNat
decreasing_by
  rename_i h
  have hp := c.HOA_2PI_pos
  have e : -(new_value + c.HOA_2PI) / c.HOA_2PI = -new_value / c.HOA_2PI - 1 := by
    field_simp
    ring
  rw [e, Int.ceil_sub_one]
  have : 0 < ⌈-new_value / c.HOA_2PI⌉ := Int.ceil_pos.mpr (div_pos (by linarith) hp)
  omega

/-- Second loop of `Math::wrap_twopi`: `while(new_value >= HOA_2PI) new_value -= HOA_2PI;`. -/
def wrapDown [FloorRing K] (c : Defs K) (new_value : K) : K :=
  if c.HOA_2PI ≤ new_value then wrapDown c (new_value - c.HOA_2PI) else new_value
termination_by (⌊new_value / c.HOA_2PI⌋).toNat
decreasing_by
  rename_i h
  have hp := c.HOA_2PI_pos
  have e : (new_value - c.HOA_2PI) / c.HOA_2PI = new_value / c.HOA_2PI - 1 := by
    field_simp
  rw [e, Int.floor_sub_one]
  have : 0 < ⌊new_value / c.HOA_2PI⌋ := Int.floor_pos.mpr ((one_le_div hp).mpr h)
  omega

/-- `Math::wrap_twopi` (Math.hpp, lines 42-54). -/
def wrap_twopi [FloorRing K] (c : Defs K) (value : K) : K :=
  wrapDown c (wrapUp c value)

end Math

/-! ## The 2D meter -/

/-- `Planewave<Hoa2d, T>` as `computeRendering` uses it: the channel's index and
an azimuth (`getIndex`, `getAzimuth`). -/
structure Planewave (K : Type) where
  index : Nat
  azimuth : K

/-- State of `Meter<Hoa2d, T>`. The first two fields are what the base class
`Planewave<Hoa2d, T>::Processor` (Planewaves.hpp, not among the sources) holds and
the meter reads: the channels' azimuths (`getPlanewaveAzimuth(i)`, their number
being `getNumberOfPlanewaves()`) and the rotation (`getPlanewavesRotation()`). -/
structure Meter2d (K : Type) where
  planewaves_azimuth : List K
  planewaves_rotation : K
  m_ramp : Nat
  m_vector_size : Nat
  m_channels_peaks : List K
  m_channels_azimuth_mapped : List K
  m_channels_azimuth_width : List K
  m_over_leds : List Nat

section Meter2d

variable {K : Type} [LinearOrderedField K]

/-- `getNumberOfPlanewaves()`. -/
def Meter2d.getNumberOfPlanewaves (m : Meter2d K) : Nat :=
  m.planewaves_azimuth.length

/-- `getPlanewaveAzimuth(index)`. -/
def Meter2d.getPlanewaveAzimuth (m : Meter2d K) (index : Nat) : K :=
  m.planewaves_azimuth.getD index 0

/-- The arrays the constructor allocates have `getNumberOfPlanewaves()` cells. -/
def Meter2d.WellFormed (m : Meter2d K) : Prop :=
  m.m_channels_peaks.length = m.getNumberOfPlanewaves ∧
  m.m_channels_azimuth_mapped.length = m.getNumberOfPlanewaves ∧
  m.m_channels_azimuth_width.length = m.getNumberOfPlanewaves ∧
  m.m_over_leds.length = m.getNumberOfPlanewaves

/-- `setVectorSize` (Meter.hpp, lines 53-57). -/
def Meter2d.setVectorSize (m : Meter2d K) (vectorSize : Nat) : Meter2d K :=
  { m with m_vector_size := vectorSize, m_ramp := 0 }

/-- `getVectorSize` (Meter.hpp, lines 59-62). -/
def Meter2d.getVectorSize (m : Meter2d K) : Nat :=
  m.m_vector_size

/-- `getPlanewaveAzimuthMapped` (Meter.hpp, lines 114-117). -/
def Meter2d.getPlanewaveAzimuthMapped (m : Meter2d K) (index : Nat) : K :=
  m.m_channels_azimuth_mapped.getD index 0

/-- `getPlanewaveWidth` (Meter.hpp, lines 119-122). -/
def Meter2d.getPlanewaveWidth (m : Meter2d K) (index : Nat) : K :=
  m.m_channels_azimuth_width.getD index 0

/-- `getPlanewaveOverLed` (Meter.hpp, lines 136-139): the counter read as a `bool`. -/
def Meter2d.getPlanewaveOverLed (m : Meter2d K) (index : Nat) : Bool :=
  m.m_over_leds.getD index 0 != 0

/-- The vector `channels` built by the loop of lines 74-77: channel `i` with the
azimuth `wrap_twopi(getPlanewaveAzimuth(i) + getPlanewavesRotation())`. -/
def Meter2d.buildChannels [FloorRing K] (c : Defs K) (m : Meter2d K) : List (Planewave K) :=
  (List.range m.getNumberOfPlanewaves).map
    (fun i => ⟨i, wrap_twopi c (m.getPlanewaveAzimuth i + m.planewaves_rotation)⟩)

/-- Modelled from the spec: `std::sort(channels.begin(), channels.end(),
Planewave<Hoa2d, T>::sort_azimuth)`; the comparator is in Planewaves.hpp, which is
not among the sources. The spec has the channels sorted by normalized azimuth,
ties keeping the original index order (a stable ascending sort). -/
def sortChannels (channels : List (Planewave K)) : List (Planewave K) :=
  channels.insertionSort (fun a b => a.azimuth ≤ b.azimuth)

/-- `channels[i].getAzimuth()`. -/
def channelAzimuth (channels : List (Planewave K)) (i : Nat) : K :=
  (channels.getD i ⟨0, 0⟩).azimuth

/-- `channels[i].getIndex()`. -/
def channelIndex (channels : List (Planewave K)) (i : Nat) : Nat :=
  (channels.getD i ⟨0, 0⟩).index

/-- The two stores that end each of the three blocks of `computeRendering`
(lines 85-86, 95-96, 105-106): the width, then the mapped azimuth, which reads the
width back from the array. -/
def Meter2d.storeSector [FloorRing K] (c : Defs K) (m : Meter2d K) (index : Nat)
    (current_angle previous_portion next_portion : K) : Meter2d K :=
  let width := m.m_channels_azimuth_width.set index ((previous_portion + next_portion) * 0.5)
  let mapped := m.m_channels_azimuth_mapped.set index
    (wrap_twopi c ((current_angle - previous_portion * 0.5) + width.getD index 0 * 0.5))
  { m with m_channels_azimuth_width := width, m_channels_azimuth_mapped := mapped }

/-- Block of lines 79-87: the first channel of the sorted vector. -/
def Meter2d.renderFirst [FloorRing K] (c : Defs K) (channels : List (Planewave K))
    (m : Meter2d K) : Meter2d K :=
  let current_angle := channelAzimuth channels 0
  let previous_angle := channelAzimuth channels (channels.length - 1)
  let next_angle := channelAzimuth channels 1
  let previous_portion := (c.HOA_2PI - previous_angle) + current_angle
  let next_portion := next_angle - current_angle
  m.storeSector c (channelIndex channels 0) current_angle previous_portion next_portion

/-- Body of the loop of lines 88-97, for the position `i` of the sorted vector. -/
def Meter2d.renderMiddle [FloorRing K] (c : Defs K) (channels : List (Planewave K))
    (m : Meter2d K) (i : Nat) : Meter2d K :=
  let current_angle := channelAzimuth channels i
  let previous_angle := channelAzimuth channels (i - 1)
  let next_angle := channelAzimuth channels (i + 1)
  let previous_portion := current_angle - previous_angle
  let next_portion := next_angle - current_angle
  m.storeSector c (channelIndex channels i) current_angle previous_portion next_portion

/-- Block of lines 98-107: the last channel of the sorted vector. -/
def Meter2d.renderLast [FloorRing K] (c : Defs K) (channels : List (Planewave K))
    (m : Meter2d K) : Meter2d K :=
  let index := channels.length - 1
  let current_angle := channelAzimuth channels index
  let previous_angle := channelAzimuth channels (index - 1)
  let next_angle := channelAzimuth channels 0
  let previous_portion := current_angle - previous_angle
  let next_portion := (c.HOA_2PI - current_angle) + next_angle
  m.storeSector c (channelIndex channels index) current_angle previous_portion next_portion

/-- `Meter<Hoa2d, T>::computeRendering` (Meter.hpp, lines 64-112). The loop
`for(i = 1; i < channels.size() - 1; i++)` runs over `1, ..., size - 2`. -/
def Meter2d.computeRendering [FloorRing K] (c : Defs K) (m : Meter2d K) : Meter2d K :=
  if m.getNumberOfPlanewaves = 1 then
    { m with
      m_channels_azimuth_width := m.m_channels_azimuth_width.set 0 c.HOA_2PI
      m_channels_azimuth_mapped := m.m_channels_azimuth_mapped.set 0 0 }
  else
    let channels := sortChannels (m.buildChannels c)
    let m1 := m.renderFirst c channels
    let m2 := (List.range' 1 (channels.length - 1 - 1)).foldl (Meter2d.renderMiddle c channels) m1
    m2.renderLast c channels

/-- `tick` (Meter.hpp, lines 141-154). -/
def Meter2d.tick (m : Meter2d K) (time : Nat) : Meter2d K :=
  let leds := (List.range m.getNumberOfPlanewaves).foldl
    (fun leds i =>
      if m.m_channels_peaks.getD i 0 > 1 then leds.set i time
      else if leds.getD i 0 ≠ 0 then leds.set i (leds.getD i 0 - 1)
      else leds)
    m.m_over_leds
  { m with m_over_leds := leds }

/-- The loop of the first branch of `process` (lines 161-164): every peak is
replaced by the magnitude of the channel's sample. -/
def resetPeaks (numberOfPlanewaves : Nat) (peaks inputs : List K) : List K :=
  (List.range numberOfPlanewaves).foldl (fun pk i => pk.set i |inputs.getD i 0|) peaks

/-- The loop of the second branch of `process` (lines 168-175): a peak is
replaced only by a larger magnitude. -/
def holdPeaks (numberOfPlanewaves : Nat) (peaks inputs : List K) : List K :=
  (List.range numberOfPlanewaves).foldl
    (fun pk i => if |inputs.getD i 0| > pk.getD i 0 then pk.set i |inputs.getD i 0| else pk)
    peaks

/-- `process` (Meter.hpp, lines 156-177). `m_ramp++ == m_vector_size` compares the
value the counter had on entry and then increments it. -/
def Meter2d.process (m : Meter2d K) (inputs : List K) : Meter2d K :=
  let ramp := m.m_ramp
  let m1 : Meter2d K := { m with m_ramp := (m.m_ramp + 1) % ULONG_RANGE }
  if ramp = m1.m_vector_size then
    { m1 with
      m_ramp := 0
      m_channels_peaks := resetPeaks m1.getNumberOfPlanewaves m1.m_channels_peaks inputs }
  else
    { m1 with
      m_channels_peaks := holdPeaks m1.getNumberOfPlanewaves m1.m_channels_peaks inputs }

end Meter2d

/-! ## The 3D meter -/

/-- `Voronoi<Hoa3d, T>::Point` as `filterPath` uses it: the three coordinates. -/
structure Point (K : Type) where
  x : K
  y : K
  z : K

/-- `Meter<Hoa3d, T>::Path`. -/
abbrev Path (K : Type) := List (Point K)

/-- State of `Meter<Hoa3d, T>`: the number of channels of the base class
`Planewave<Hoa3d, T>::Processor`, the tracker's counters and arrays, and one top
and one bottom path per channel. -/
structure Meter3d (K : Type) where
  numberOfPlanewaves : Nat
  m_ramp : Nat
  m_vector_size : Nat
  m_channels_peaks : List K
  m_over_leds : List Nat
  m_top : List (Path K)
  m_bottom : List (Path K)

section Meter3d

variable {K : Type} [LinearOrderedField K]

/-- Modelled from the spec: `Point::operator-` of Voronoi.hpp (not among the
sources), the coordinatewise difference used by the linear interpolation. -/
instance : Sub (Point K) := ⟨fun a b => ⟨a.x - b.x, a.y - b.y, a.z - b.z⟩⟩

/-- Modelled from the spec: `Point::operator+` of Voronoi.hpp (not among the
sources), the coordinatewise sum used by the linear interpolation. -/
instance : Add (Point K) := ⟨fun a b => ⟨a.x + b.x, a.y + b.y, a.z + b.z⟩⟩

/-- Modelled from the spec: `Point::operator*` of Voronoi.hpp (not among the
sources), the product of a point by a scalar weight. -/
instance : HMul (Point K) K (Point K) := ⟨fun a t => ⟨a.x * t, a.y * t, a.z * t⟩⟩

/-- Modelled from the spec: `Point::length` of Voronoi.hpp (not among the sources),
the Euclidean length; the square root is a parameter. -/
def Point.length (sqrt : K → K) (p : Point K) : K :=
  sqrt (p.x * p.x + p.y * p.y + p.z * p.z)

/-- Modelled from the spec: `Point::normalize` of Voronoi.hpp (not among the
sources), which the spec describes as renormalizing to unit length: every
coordinate is divided by the length. -/
def Point.normalize (sqrt : K → K) (p : Point K) : Point K :=
  p * (1 / p.length sqrt)

/-- The assignment `temp.z = 0.;`. -/
def Point.setZ0 (p : Point K) : Point K :=
  { p with z := 0 }

/-- Element access `path[i]`. -/
def vertex (path : Path K) (i : Nat) : Point K :=
  path.getD i ⟨0, 0, 0⟩

/-- The validity scan of the top branch (lines 198-205): some vertex has `z > 0`. -/
def validTop (path : Path K) : Bool :=
  path.any (fun q => decide (q.z > 0))

/-- The validity scan of the bottom branch (lines 276-283): some vertex has `z < 0`. -/
def validBottom (path : Path K) : Bool :=
  path.any (fun q => decide (q.z < 0))

/-- The crossing point of the top branch (for instance lines 219-222):
`dist = a.z / (a.z - b.z); temp = (b - a) * dist + a; temp.z = 0.; temp.normalize();`
with `a` the neighbour and `b` the vertex `path[i]`. -/
def crossTop (sqrt : K → K) (a b : Point K) : Point K :=
  let dist := a.z / (a.z - b.z)
  (((b - a) * dist + a).setZ0).normalize sqrt

/-- The crossing point of the bottom branch (for instance lines 297-300):
`dist = b.z / (b.z - a.z); temp = (a - b) * dist + b; temp.z = 0.; temp.normalize();`
with `a` the neighbour and `b` the vertex `path[i]`. -/
def crossBottom (sqrt : K → K) (a b : Point K) : Point K :=
  let dist := b.z / (b.z - a.z)
  (((a - b) * dist + b).setZ0).normalize sqrt

/-- The insertion loop of the top branch (lines 212-256), from the loop state
`(path, size, i)`. -/
def insertTop (sqrt : K → K) (path : Path K) (size i : Nat) : Path K :=
  if i < size then
    let p := if i ≠ 0 then i - 1 else size - 1
    let n := if i = size - 1 then 0 else i + 1
    if (vertex path i).z < 0 ∧ (vertex path p).z ≥ 0 ∧ (vertex path n).z ≥ 0 then
      let temp1 := crossTop sqrt (vertex path p) (vertex path i)
      let path1 := path.set i (crossTop sqrt (vertex path n) (vertex path i))
      insertTop sqrt (path1.insertIdx i temp1) (size + 1) (i + 3)
    else if (vertex path i).z < 0 ∧ (vertex path p).z ≥ 0 then
      let temp := crossTop sqrt (vertex path p) (vertex path i)
      insertTop sqrt (path.insertIdx i temp) (size + 1) (i + 2)
    else if (vertex path i).z < 0 ∧ (vertex path n).z ≥ 0 then
      let temp := crossTop sqrt (vertex path n) (vertex path i)
      insertTop sqrt (path.insertIdx n temp) (size + 1) (i + 2)
    else
      insertTop sqrt path size (i + 1)
  else path
termination_by size - i
decreasing_by all_goals omega

/-- The pruning loop of the top branch (lines 257-271), from the loop state
`(path, size, i)`. -/
def pruneTop (path : Path K) (size i : Nat) : Path K :=
  if i < size then
    let p := if i ≠ 0 then i - 1 else size - 1
    let n := if i = size - 1 then 0 else i + 1
    if (vertex path i).z ≤ 0 ∧ (vertex path p).z ≤ 0 ∧ (vertex path n).z ≤ 0 then
      pruneTop (path.eraseIdx i) (size - 1) i
    else
      pruneTop path size (i + 1)
  else path
termination_by size - i
decreasing_by all_goals omega

/-- The insertion loop of the bottom branch (lines 290-334), from the loop state
`(path, size, i)`. -/
def insertBottom (sqrt : K → K) (path : Path K) (size i : Nat) : Path K :=
  if i < size then
    let p := if i ≠ 0 then i - 1 else size - 1
    let n := if i = size - 1 then 0 else i + 1
    if (vertex path i).z > 0 ∧ (vertex path p).z ≤ 0 ∧ (vertex path n).z ≤ 0 then
      let temp := crossBottom sqrt (vertex path p) (vertex path i)
      let path1 := path.set i (crossBottom sqrt (vertex path n) (vertex path i))
      insertBottom sqrt (path1.insertIdx i temp) (size + 1) (i + 3)
    else if (vertex path i).z > 0 ∧ (vertex path p).z ≤ 0 then
      let temp := crossBottom sqrt (vertex path p) (vertex path i)
      insertBottom sqrt (path.insertIdx i temp) (size + 1) (i + 2)
    else if (vertex path i).z > 0 ∧ (vertex path n).z ≤ 0 then
      let temp := crossBottom sqrt (vertex path n) (vertex path i)
      insertBottom sqrt (path.insertIdx n temp) (size + 1) (i + 2)
    else
      insertBottom sqrt path size (i + 1)
  else path
termination_by size - i
decreasing_by all_goals omega

/-- The pruning loop of the bottom branch (lines 335-349), from the loop state
`(path, size, i)`. -/
def pruneBottom (path : Path K) (size i : Nat) : Path K :=
  if i < size then
    let p := if i ≠ 0 then i - 1 else size - 1
    let n := if i = size - 1 then 0 else i + 1
    if (vertex path i).z ≥ 0 ∧ (vertex path p).z ≥ 0 ∧ (vertex path n).z ≥ 0 then
      pruneBottom (path.eraseIdx i) (size - 1) i
    else
      pruneBottom path size (i + 1)
  else path
termination_by size - i
decreasing_by all_goals omega

/-- `Meter<Hoa3d, T>::filterPath` (Meter.hpp, lines 194-352); the path is
modified in place in the code and returned here. -/
def filterPath (sqrt : K → K) (path : Path K) (top : Bool) : Path K :=
  if top then
    if !validTop path || decide (path.length < 3) then []
    else
      let path1 := insertTop sqrt path path.length 0
      pruneTop path1 path1.length 0
  else
    if !validBottom path || decide (path.length < 3) then []
    else
      let path1 := insertBottom sqrt path path.length 0
      pruneBottom path1 path1.length 0

/-- `Meter<Hoa3d, T>::setVectorSize` (Meter.hpp, lines 383-387). -/
def Meter3d.setVectorSize (m : Meter3d K) (vectorSize : Nat) : Meter3d K :=
  { m with m_vector_size := vectorSize, m_ramp := 0 }

/-- `Meter<Hoa3d, T>::process` (Meter.hpp, lines 426-447), the same text as the
2D `process`. -/
def Meter3d.process (m : Meter3d K) (inputs : List K) : Meter3d K :=
  let ramp := m.m_ramp
  let m1 : Meter3d K := { m with m_ramp := (m.m_ramp + 1) % ULONG_RANGE }
  if ramp = m1.m_vector_size then
    { m1 with
      m_ramp := 0
      m_channels_peaks := resetPeaks m1.numberOfPlanewaves m1.m_channels_peaks inputs }
  else
    { m1 with
      m_channels_peaks := holdPeaks m1.numberOfPlanewaves m1.m_channels_peaks inputs }

end Meter3d

section SectorAux

variable {K : Type} [LinearOrderedField K]

/-- Gap to the predecessor that `computeRendering` uses at position `j` of the
sorted vector `channels` of `n` channels (`previous_portion` of the three blocks). -/
def previousPortion (c : Defs K) (channels : List (Planewave K)) (n j : Nat) : K :=
  if j = 0 then (c.HOA_2PI - channelAzimuth channels (n - 1)) + channelAzimuth channels 0
  else channelAzimuth channels j - channelAzimuth channels (j - 1)

/-- Gap to the successor that `computeRendering` uses at position `j` of the
sorted vector `channels` of `n` channels (`next_portion` of the three blocks). -/
def nextPortion (c : Defs K) (channels : List (Planewave K)) (n j : Nat) : K :=
  if j = n - 1 then (c.HOA_2PI - channelAzimuth channels j) + channelAzimuth channels 0
  else channelAzimuth channels (j + 1) - channelAzimuth channels j

/-- The store made for position `j`, whichever of the three blocks makes it. -/
def Meter2d.renderAt [FloorRing K] (c : Defs K) (channels : List (Planewave K))
    (m : Meter2d K) (j : Nat) : Meter2d K :=
  m.storeSector c (channelIndex channels j) (channelAzimuth channels j)
    (previousPortion c channels channels.length j) (nextPortion c channels channels.length j)

end SectorAux

section Examples

/-- A rational value standing for `HOA_2PI`, to run the definitions on. -/
def exampleDefs : Defs ℚ := ⟨6, by norm_num⟩

/-- A 2D meter of three channels at the azimuths `1`, `5`, `3`, rotated by `2`,
with a window of `2`. -/
def exampleMeter : Meter2d ℚ :=
  { planewaves_azimuth := [1, 5, 3]
    planewaves_rotation := 2
    m_ramp := 0
    m_vector_size := 2
    m_channels_peaks := [0, 0, 0]
    m_channels_azimuth_mapped := [0, 0, 0]
    m_channels_azimuth_width := [0, 0, 0]
    m_over_leds := [0, 0, 0] }

/-- A 2D meter of one channel at the azimuth `4`, rotated by `1`. -/
def exampleSingle : Meter2d ℚ :=
  { planewaves_azimuth := [4]
    planewaves_rotation := 1
    m_ramp := 0
    m_vector_size := 0
    m_channels_peaks := [0]
    m_channels_azimuth_mapped := [5]
    m_channels_azimuth_width := [5]
    m_over_leds := [0] }

end Examples

section TrackerAux

variable {K : Type} [LinearOrderedField K]

/-- A sequence of `process` calls on the 2D meter, one per vector of samples. -/
def Meter2d.processAll (m : Meter2d K) (calls : List (List K)) : Meter2d K :=
  calls.foldl Meter2d.process m

/-- A sequence of `process` calls on the 3D meter, one per vector of samples. -/
def Meter3d.processAll (m : Meter3d K) (calls : List (List K)) : Meter3d K :=
  calls.foldl Meter3d.process m

/-- The arrays the 3D constructor allocates have `getNumberOfPlanewaves()` cells. -/
def Meter3d.WellFormed (m : Meter3d K) : Prop :=
  m.m_channels_peaks.length = m.numberOfPlanewaves ∧
  m.m_over_leds.length = m.numberOfPlanewaves ∧
  m.m_top.length = m.numberOfPlanewaves ∧
  m.m_bottom.length = m.numberOfPlanewaves

end TrackerAux

section TrackerExamples

/-- A 2D meter of two channels whose stored peaks are `3`. -/
def exampleLoud : Meter2d ℚ :=
  { planewaves_azimuth := [0, 3]
    planewaves_rotation := 0
    m_ramp := 0
    m_vector_size := 0
    m_channels_peaks := [3, 3]
    m_channels_azimuth_mapped := [0, 0]
    m_channels_azimuth_width := [0, 0]
    m_over_leds := [0, 0] }

/-- A 3D meter of two channels whose stored peaks are `3`. -/
def exampleLoud3d : Meter3d ℚ :=
  { numberOfPlanewaves := 2
    m_ramp := 0
    m_vector_size := 0
    m_channels_peaks := [3, 3]
    m_over_leds := [0, 0]
    m_top := [[], []]
    m_bottom := [[], []] }

end TrackerExamples

section ClipAux

variable {α : Type}

/-- The insertion loop common to the two branches of `filterPath`: `W` tells the
vertices on the wrong side of the target hemisphere (`z < 0` for the top, `z > 0`
for the bottom), `cross a b` is the point inserted between the neighbour `a` and
the vertex `b`, `d` the value of an access out of range. -/
def insertGen (W : α → Bool) (cross : α → α → α) (d : α) (path : List α) (size i : Nat) :
    List α :=
  if i < size then
    let p := if i ≠ 0 then i - 1 else size - 1
    let n := if i = size - 1 then 0 else i + 1
    if W (path.getD i d) = true ∧ W (path.getD p d) = false ∧ W (path.getD n d) = false then
      let temp1 := cross (path.getD p d) (path.getD i d)
      let path1 := path.set i (cross (path.getD n d) (path.getD i d))
      insertGen W cross d (path1.insertIdx i temp1) (size + 1) (i + 3)
    else if W (path.getD i d) = true ∧ W (path.getD p d) = false then
      insertGen W cross d (path.insertIdx i (cross (path.getD p d) (path.getD i d)))
        (size + 1) (i + 2)
    else if W (path.getD i d) = true ∧ W (path.getD n d) = false then
      insertGen W cross d (path.insertIdx n (cross (path.getD n d) (path.getD i d)))
        (size + 1) (i + 2)
    else
      insertGen W cross d path size (i + 1)
  else path
termination_by size - i
decreasing_by all_goals omega

/-- The pruning loop common to the two branches of `filterPath`: `R` tells the
vertices strictly inside the target hemisphere (`z > 0` for the top, `z < 0` for
the bottom). -/
def pruneGen (R : α → Bool) (d : α) (path : List α) (size i : Nat) : List α :=
  if i < size then
    let p := if i ≠ 0 then i - 1 else size - 1
    let n := if i = size - 1 then 0 else i + 1
    if R (path.getD i d) = false ∧ R (path.getD p d) = false ∧ R (path.getD n d) = false then
      pruneGen R d (path.eraseIdx i) (size - 1) i
    else
      pruneGen R d path size (i + 1)
  else path
termination_by size - i
decreasing_by all_goals omega

/-- Index of the cyclic predecessor in a path of `size` vertices (`p` in the code). -/
def cyclicPrev (size i : Nat) : Nat := if i ≠ 0 then i - 1 else size - 1

/-- Index of the cyclic successor in a path of `size` vertices (`n` in the code). -/
def cyclicNext (size i : Nat) : Nat := if i = size - 1 then 0 else i + 1

/-- No vertex on the wrong side (`W`) at the index `j` has a neighbour strictly
inside (`R`) the target hemisphere. -/
def GoodAt (W R : α → Bool) (d : α) (path : List α) (j : Nat) : Prop :=
  W (path.getD j d) = true →
    R (path.getD (cyclicPrev path.length j) d) = false ∧
    R (path.getD (cyclicNext path.length j) d) = false

end ClipAux

section UnitLength

variable {K : Type} [LinearOrderedField K]

/-- The point has unit Euclidean length (its squared length is `1`). -/
def Point.unitLength (p : Point K) : Prop :=
  p.x * p.x + p.y * p.y + p.z * p.z = 1

end UnitLength

/-! ## `Math.hpp`: clipping and coordinate conversions

The functions of `<cmath>` the code calls (`cos`, `sin`, `atan2`, `asin`,
`sqrt`, `log10`) and the constants `HOA_PI2`, `HOA_EPSILON` of `Defs.hpp` are
parameters of the definitions that use them. -/

section MathFunctions

variable {K : Type} [LinearOrderedField K]

/-- `Math::abscissa` (Math.hpp, lines 84-87). -/
def Math.abscissa (cos : K → K) (HOA_PI2 : K) (radius azimuth elevation : K) : K :=
  radius * cos (azimuth + HOA_PI2) * cos elevation

/-- `Math::ordinate` (Math.hpp, lines 97-100). -/
def Math.ordinate (cos sin : K → K) (HOA_PI2 : K) (radius azimuth elevation : K) : K :=
  radius * sin (azimuth + HOA_PI2) * cos elevation

/-- `Math::height` (Math.hpp, lines 110-113); the azimuth is not used. -/
def Math.height (sin : K → K) (radius _azimuth elevation : K) : K :=
  radius * sin elevation

/-- `Math::radius` (Math.hpp, lines 123-126). -/
def Math.radius (sqrt : K → K) (x y z : K) : K :=
  sqrt (x * x + y * y + z * z)

/-- `Math::azimuth` (Math.hpp, lines 136-141); `z` is not used. -/
def Math.azimuth (atan2 : K → K → K) (HOA_PI2 : K) (x y _z : K) : K :=
  if x = 0 ∧ y = 0 then 0 else atan2 y x - HOA_PI2

/-- `Math::elevation` (Math.hpp, lines 151-156). -/
def Math.elevation (asin sqrt : K → K) (x y z : K) : K :=
  if z = 0 then 0 else asin (z / sqrt (x * x + y * y + z * z))

end MathFunctions

/-! ## Construction, the remaining accessors and the 3D rendering -/

section Construction

variable {K : Type} [LinearOrderedField K]

/-- `Meter<Hoa2d, T>::Meter` (Meter.hpp, lines 29-43). The base class
`Planewave<Hoa2d, T>::Processor(numberOfPlanewaves)` is not among the sources: the
azimuth it gives the channel `i` and the rotation are the parameters `azimuthOf`
and `rotation`. The constructor is `noexcept` and tests nothing; it zeroes the
peaks and the hold counters and leaves the two geometry arrays uninitialized
(`uninitMapped`, `uninitWidth` stand for what the memory holds). -/
def Meter2d.construct (numberOfPlanewaves : Nat) (azimuthOf : Nat → K) (rotation : K)
    (uninitMapped uninitWidth : Nat → K) : Meter2d K :=
  { planewaves_azimuth := (List.range numberOfPlanewaves).map azimuthOf
    planewaves_rotation := rotation
    m_ramp := 0
    m_vector_size := 0
    m_channels_peaks := (List.range numberOfPlanewaves).map (fun _ => 0)
    m_channels_azimuth_mapped := (List.range numberOfPlanewaves).map uninitMapped
    m_channels_azimuth_width := (List.range numberOfPlanewaves).map uninitWidth
    m_over_leds := (List.range numberOfPlanewaves).map (fun _ => 0) }

/-- `Meter<Hoa3d, T>::Meter` (Meter.hpp, lines 355-368): `noexcept`, no test; the
peaks and the hold counters are zeroed, the paths of `new Path[n]` are empty. -/
def Meter3d.construct (numberOfPlanewaves : Nat) : Meter3d K :=
  { numberOfPlanewaves := numberOfPlanewaves
    m_ramp := 0
    m_vector_size := 0
    m_channels_peaks := (List.range numberOfPlanewaves).map (fun _ => 0)
    m_over_leds := (List.range numberOfPlanewaves).map (fun _ => 0)
    m_top := (List.range numberOfPlanewaves).map (fun _ => [])
    m_bottom := (List.range numberOfPlanewaves).map (fun _ => []) }

/-- `Meter<Hoa2d, T>::getPlanewaveEnergy` (Meter.hpp, lines 124-134). -/
def Meter2d.getPlanewaveEnergy (log10 : K → K) (m : Meter2d K) (index : Nat) : K :=
  if m.m_channels_peaks.getD index 0 > 0 then 20 * log10 (m.m_channels_peaks.getD index 0)
  else -90

/-- `Meter<Hoa3d, T>::getVectorSize` (Meter.hpp, lines 389-392). -/
def Meter3d.getVectorSize (m : Meter3d K) : Nat :=
  m.m_vector_size

/-- `Meter<Hoa3d, T>::getPlanewaveEnergy` (Meter.hpp, lines 394-404). -/
def Meter3d.getPlanewaveEnergy (log10 : K → K) (m : Meter3d K) (index : Nat) : K :=
  if m.m_channels_peaks.getD index 0 > 0 then 20 * log10 (m.m_channels_peaks.getD index 0)
  else -90

/-- `Meter<Hoa3d, T>::getPlanewaveOverLed` (Meter.hpp, lines 406-409). -/
def Meter3d.getPlanewaveOverLed (m : Meter3d K) (index : Nat) : Bool :=
  m.m_over_leds.getD index 0 != 0

/-- `Meter<Hoa3d, T>::getPlanewavePath` (Meter.hpp, lines 496-506). -/
def Meter3d.getPlanewavePath (m : Meter3d K) (index : Nat) (top : Bool) : Path K :=
  if top then m.m_top.getD index [] else m.m_bottom.getD index []

/-- The loop of `tick` (Meter.hpp, lines 143-153 and 413-423) over the hold
counters, the peaks being read only. -/
def tickLeds (numberOfPlanewaves : Nat) (peaks : List K) (leds : List Nat) (time : Nat) :
    List Nat :=
  (List.range numberOfPlanewaves).foldl
    (fun leds i =>
      if peaks.getD i 0 > 1 then leds.set i time
      else if leds.getD i 0 ≠ 0 then leds.set i (leds.getD i 0 - 1)
      else leds)
    leds

/-- `Meter<Hoa3d, T>::tick` (Meter.hpp, lines 411-424). -/
def Meter3d.tick (m : Meter3d K) (time : Nat) : Meter3d K :=
  { m with m_over_leds := tickLeds m.numberOfPlanewaves m.m_channels_peaks m.m_over_leds time }

/-- What `Meter<Hoa3d, T>::computeRendering` takes from outside `Meter.hpp`:
`cos`, `sin`, `sqrt` of `<cmath>`; the constants `HOA_PI2`, `HOA_EPSILON` of
`Defs.hpp`; the Cartesian direction of the channel `i` held by the base class
(`getPlanewaveAbscissa(i)`, `getPlanewaveOrdinate(i)`, `getPlanewaveHeight(i)`);
and the tessellation of `Voronoi.hpp`, as the function from the sites added, in
order, to the boundary polygon (`bounds`) of each site after `compute()`. None of
these files is among the sources. -/
structure Extern3d (K : Type) where
  cos : K → K
  sin : K → K
  sqrt : K → K
  HOA_PI2 : K
  HOA_EPSILON : K
  direction : Nat → Point K
  voronoi : List (Point K) → List (Path K)

/-- The sites of the first tessellation (lines 453-457): the channels. -/
def Meter3d.bottomSites (e : Extern3d K) (m : Meter3d K) : List (Point K) :=
  (List.range m.numberOfPlanewaves).map e.direction

/-- The site added by the iteration `i` of the loop of lines 478-482. -/
def Meter3d.virtualSite (c : Defs K) (e : Extern3d K) (m : Meter3d K) (i : Nat) : Point K :=
  let az := (i : K) / (m.numberOfPlanewaves : K) * c.HOA_2PI
  ⟨Math.abscissa e.cos e.HOA_PI2 1 az (-e.HOA_PI2 + e.HOA_EPSILON),
   Math.ordinate e.cos e.sin e.HOA_PI2 1 az (-e.HOA_PI2 + e.HOA_EPSILON),
   Math.height e.sin 1 az (e.HOA_PI2 + e.HOA_EPSILON)⟩

/-- The sites of the second tessellation (lines 472-482): the channels, then one
site per iteration of the loop over the channel indices. -/
def Meter3d.topSites (c : Defs K) (e : Extern3d K) (m : Meter3d K) : List (Point K) :=
  (List.range m.numberOfPlanewaves).map e.direction ++
    (List.range m.numberOfPlanewaves).map (m.virtualSite c e)

/-- `Meter<Hoa3d, T>::computeRendering` (Meter.hpp, lines 449-494): each channel's
bottom path is the filtered boundary of its cell in the first tessellation, its
top path the filtered boundary of its cell in the second. -/
def Meter3d.computeRendering (c : Defs K) (e : Extern3d K) (m : Meter3d K) : Meter3d K :=
  let bottom := e.voronoi (m.bottomSites e)
  let m_bottom := (List.range m.numberOfPlanewaves).foldl
    (fun paths i => paths.set i (filterPath e.sqrt (bottom.getD i []) false)) m.m_bottom
  let top := e.voronoi (m.topSites c e)
  let m_top := (List.range m.numberOfPlanewaves).foldl
    (fun paths i => paths.set i (filterPath e.sqrt (top.getD i []) true)) m.m_top
  { m with m_bottom := m_bottom, m_top := m_top }

end Construction

section Calls

variable {K : Type} [LinearOrderedField K]

/-- A call of one of the four mutating methods of a meter. -/
inductive Call (K : Type) where
  | setVectorSize (vectorSize : Nat)
  | process (inputs : List K)
  | tick (time : Nat)
  | computeRendering

/-- The effect of a call on the 2D meter. -/
def Meter2d.call [FloorRing K] (c : Defs K) (m : Meter2d K) : Call K → Meter2d K
  | .setVectorSize n => m.setVectorSize n
  | .process inputs => m.process inputs
  | .tick time => m.tick time
  | .computeRendering => m.computeRendering c

/-- The effect of a sequence of calls on the 2D meter. -/
def Meter2d.calls [FloorRing K] (c : Defs K) (m : Meter2d K) (l : List (Call K)) : Meter2d K :=
  l.foldl (Meter2d.call c) m

/-- The effect of a call on the 3D meter. -/
def Meter3d.call (c : Defs K) (e : Extern3d K) (m : Meter3d K) : Call K → Meter3d K
  | .setVectorSize n => m.setVectorSize n
  | .process inputs => m.process inputs
  | .tick time => m.tick time
  | .computeRendering => m.computeRendering c e

/-- The effect of a sequence of calls on the 3D meter. -/
def Meter3d.calls (c : Defs K) (e : Extern3d K) (m : Meter3d K) (l : List (Call K)) :
    Meter3d K :=
  l.foldl (Meter3d.call c e) m

end Calls

section TrackerExamples2

end TrackerExamples2

section CallAux

/-- The call is a `tick`. -/
def Call.isTick {K : Type} : Call K → Bool
  | .tick _ => true
  | _ => false

end CallAux

/-! ## `Math::factorial` and the rows of the 3D scope -/

section Factorial

variable {K : Type} [LinearOrderedField K]

/-- The loop `while(--n > 0) result *= n;` of `Math::factorial` (Math.hpp, lines
169-170), from the loop state `(n, result)`: `n` is decremented, the decremented
value is tested, and the body multiplies the result by it. -/
def factorialLoop (n : Int) (result : K) : K :=
  if n - 1 > 0 then factorialLoop (n - 1) (result * ((n - 1 : Int) : K)) else result
termination_by (n - 1).toNat
decreasing_by omega

/-- `Math::factorial` (Math.hpp, lines 164-173): `long double result = n;
if(n == 0) return 1; while(--n > 0) result *= n; return result;`. The `long`
argument is an integer (no decrement wraps for `n ≥ 0`), the `long double` result
a value of `K`. -/
def Math.factorial (n : Int) : K :=
  if n = 0 then 1 else factorialLoop n ((n : Int) : K)

/-- Number of values of the type `unsigned int` (32 bits). -/
def UINT_RANGE : Nat := 2 ^ 32

/-- `Scope<Hoa3d, T>::getElevation` (Scope.hpp, lines 250-254) on a scope of
`m_number_of_rows` rows: `assert(rowIndex < m_number_of_rows); return
(double)rowIndex * HOA_PI / (double)(m_number_of_rows - 1) - HOA_PI2;`. The result
`none` is the failed assertion; `m_number_of_rows - 1` is a subtraction of
`unsigned int`; `HOA_PI` and `HOA_PI2` are constants of `Defs.hpp`. -/
def Scope3d.getElevation (HOA_PI HOA_PI2 : K) (m_number_of_rows rowIndex : Nat) : Option K :=
  if rowIndex < m_number_of_rows then
    some ((rowIndex : K) * HOA_PI
      / (((m_number_of_rows + UINT_RANGE - 1) % UINT_RANGE : Nat) : K) - HOA_PI2)
  else none

end Factorial

section RenderingExamples

/-- Rational stand-ins for what the 3D `computeRendering` takes from outside
`Meter.hpp`, to run the lists of sites on: two opposite channel directions, and a
tessellation that gives every site an empty boundary. The number of sites handed
to the tessellation does not depend on any of them. -/
def exampleExtern3d : Extern3d ℚ :=
  { cos := fun _ => 1
    sin := fun _ => 0
    sqrt := fun x => x
    HOA_PI2 := 3 / 2
    HOA_EPSILON := 1 / 1000
    direction := fun i => if i = 0 then ⟨1, 0, 0⟩ else ⟨-1, 0, 0⟩
    voronoi := fun sites => sites.map (fun _ => []) }

end RenderingExamples

section CrossingExamples

end CrossingExamples

section GapAux

variable {K : Type} [LinearOrderedField K]

/-- The normalized azimuth the loop of lines 74-77 of `computeRendering` gives the
channel `i`: `wrap_twopi(getPlanewaveAzimuth(i) + getPlanewavesRotation())`. -/
def Meter2d.normalizedAzimuth [FloorRing K] (c : Defs K) (m : Meter2d K) (i : Nat) : K :=
  wrap_twopi c (m.getPlanewaveAzimuth i + m.planewaves_rotation)

end GapAux

/-! ## The loops of `filterPath`, iteration by iteration -/

section LoopSteps

variable {α : Type}

/-- The state of a loop of `filterPath`: the path and the variables `size`, `i`. -/
structure LoopState (α : Type) where
  path : List α
  size : Nat
  i : Nat

/-- One iteration of the insertion loop (lines 213-255 and 291-333), with `W`,
`cross` and `d` as in `insertGen`; `none` when the test `i < size` fails. -/
def insertStep (W : α → Bool) (cross : α → α → α) (d : α) (s : LoopState α) :
    Option (LoopState α) :=
  if s.i < s.size then
    let p := if s.i ≠ 0 then s.i - 1 else s.size - 1
    let n := if s.i = s.size - 1 then 0 else s.i + 1
    if W (s.path.getD s.i d) = true ∧ W (s.path.getD p d) = false ∧
        W (s.path.getD n d) = false then
      let temp1 := cross (s.path.getD p d) (s.path.getD s.i d)
      let path1 := s.path.set s.i (cross (s.path.getD n d) (s.path.getD s.i d))
      some ⟨path1.insertIdx s.i temp1, s.size + 1, s.i + 3⟩
    else if W (s.path.getD s.i d) = true ∧ W (s.path.getD p d) = false then
      some ⟨s.path.insertIdx s.i (cross (s.path.getD p d) (s.path.getD s.i d)),
        s.size + 1, s.i + 2⟩
    else if W (s.path.getD s.i d) = true ∧ W (s.path.getD n d) = false then
      some ⟨s.path.insertIdx n (cross (s.path.getD n d) (s.path.getD s.i d)),
        s.size + 1, s.i + 2⟩
    else
      some ⟨s.path, s.size, s.i + 1⟩
  else none

/-- One iteration of the pruning loop (lines 258-270 and 336-348), with `R` and
`d` as in `pruneGen`; `none` when the test `i < size` fails. -/
def pruneStep (R : α → Bool) (d : α) (s : LoopState α) : Option (LoopState α) :=
  if s.i < s.size then
    let p := if s.i ≠ 0 then s.i - 1 else s.size - 1
    let n := if s.i = s.size - 1 then 0 else s.i + 1
    if R (s.path.getD s.i d) = false ∧ R (s.path.getD p d) = false ∧
        R (s.path.getD n d) = false then
      some ⟨s.path.eraseIdx s.i, s.size - 1, s.i⟩
    else
      some ⟨s.path, s.size, s.i + 1⟩
  else none

/-- A loop run for at most `fuel` iterations: the state in which the loop test
fails, `none` if it has not failed yet after `fuel` iterations. -/
def runLoop (step : LoopState α → Option (LoopState α)) : Nat → LoopState α →
    Option (LoopState α)
  | 0, s => if (step s).isNone then some s else none
  | fuel + 1, s =>
    match step s with
    | none => some s
    | some s1 => runLoop step fuel s1

/-- The vertices `path[i]` examined by the first `fuel` iterations of a loop, in
the order of the iterations. -/
def examined (step : LoopState α → Option (LoopState α)) (d : α) : Nat → LoopState α → List α
  | 0, _ => []
  | fuel + 1, s =>
    match step s with
    | none => []
    | some s1 => s.path.getD s.i d :: examined step d fuel s1

end LoopSteps

section LoopExamples

/-- A path of four vertices whose second vertex alone is below the plane `z = 0`. -/
def exampleDip : Path ℚ := [⟨1, 0, 1⟩, ⟨0, 1, -1⟩, ⟨-1, 0, 1⟩, ⟨0, -1, 1⟩]

end LoopExamples

/-! ## The clipped path of the specification -/

section ClipSpec

variable {α : Type}

/-- The clipping of a closed path as the specification words it, for the
hemisphere whose strict inside is `R`: every vertex strictly inside is kept, in
its order, and every maximal cyclic run of consecutive vertices that are not
inside is replaced by two points, the crossing of the edge entering the run
followed by the crossing of the edge leaving it. Vertex by vertex: a vertex of a
run gives the entering crossing when it is the first of its run (its predecessor
is inside), then the leaving crossing when it is the last of its run (its
successor is inside), and nothing else. `cross a b` is the crossing of the edge
between the inside vertex `a` and the vertex `b` of the run. -/
def clipSpec (R : α → Bool) (cross : α → α → α) (d : α) (path : List α) : List α :=
  (List.range path.length).flatMap (fun j =>
    if R (path.getD j d) = true then [path.getD j d]
    else
      (if R (path.getD (cyclicPrev path.length j) d) = true
        then [cross (path.getD (cyclicPrev path.length j) d) (path.getD j d)] else []) ++
      (if R (path.getD (cyclicNext path.length j) d) = true
        then [cross (path.getD (cyclicNext path.length j) d) (path.getD j d)] else []))

/-- What the insertion loop leaves in the place of the vertex `j` of the path it
starts from (the crossing that the last vertex inserts at the index `0` apart). -/
def insertBlock (W : α → Bool) (cross : α → α → α) (d : α) (P : List α) (j : Nat) : List α :=
  if W (P.getD j d) = true ∧ W (P.getD (cyclicPrev P.length j) d) = false ∧
      W (P.getD (cyclicNext P.length j) d) = false then
    [cross (P.getD (cyclicPrev P.length j) d) (P.getD j d),
      cross (P.getD (cyclicNext P.length j) d) (P.getD j d)]
  else if W (P.getD j d) = true ∧ W (P.getD (cyclicPrev P.length j) d) = false then
    [cross (P.getD (cyclicPrev P.length j) d) (P.getD j d), P.getD j d]
  else if W (P.getD j d) = true ∧ W (P.getD (cyclicNext P.length j) d) = false then
    (if j = P.length - 1 then [P.getD j d]
      else [P.getD j d, cross (P.getD (cyclicNext P.length j) d) (P.getD j d)])
  else [P.getD j d]

/-- What the insertion loop leaves in the place of the vertices before `j`. -/
def insertBlocks (W : α → Bool) (cross : α → α → α) (d : α) (P : List α) (j : Nat) : List α :=
  (List.range j).flatMap (insertBlock W cross d P)

/-- The crossing that the iteration at the last vertex inserts at the index `0`
(`path.insert(path.begin()+n, temp)` with `n = 0`), if it does. -/
def insertFront (W : α → Bool) (cross : α → α → α) (d : α) (P : List α) : List α :=
  if W (P.getD (P.length - 1) d) = true ∧
      W (P.getD (cyclicPrev P.length (P.length - 1)) d) = true ∧ W (P.getD 0 d) = false then
    [cross (P.getD 0 d) (P.getD (P.length - 1) d)]
  else []

/-- In the list `l` between the elements `a` and `b`, every element that is
neither on the wrong side (`W`) nor strictly inside (`R`) has a neighbour strictly
inside. -/
def BoundaryOk (W R : α → Bool) (a : α) : List α → α → Prop
  | [], _ => True
  | [x], b => (W x = false → R x = false → R a = true ∨ R b = true)
  | x :: y :: l, b =>
    (W x = false → R x = false → R a = true ∨ R y = true) ∧ BoundaryOk W R x (y :: l) b

/-- The element at the index `j` that is neither on the wrong side nor strictly
inside has a cyclic neighbour strictly inside. -/
def KeepAt (W R : α → Bool) (d : α) (path : List α) (j : Nat) : Prop :=
  W (path.getD j d) = false → R (path.getD j d) = false →
    R (path.getD (cyclicPrev path.length j) d) = true ∨
    R (path.getD (cyclicNext path.length j) d) = true

end ClipSpec

section Mirror

variable {K : Type} [LinearOrderedField K]

/-- The mirror image of a point in the plane `z = 0`: the `z`-coordinate is
negated. -/
def Point.mirror (p : Point K) : Point K :=
  ⟨p.x, p.y, -p.z⟩

end Mirror

section Rotation

variable {K : Type} [LinearOrderedField K]

/-- The 2D meter with the rotation offset `r` in place of its own. The offset is
held by the base class `Planewave<Hoa2d, T>::Processor` (Planewaves.hpp, not among
the sources), of which the meter reads `getPlanewavesRotation()` only. -/
def Meter2d.withRotation (m : Meter2d K) (r : K) : Meter2d K :=
  { m with planewaves_rotation := r }

end Rotation

/-! ## The arithmetic of `T = double` -/

section MachineArithmetic

/-- Rounding of a rational number to the nearest integer, ties to the even one. -/
def roundNearestEven (q : ℚ) : ℤ :=
  if q - ⌊q⌋ < 1 / 2 then ⌊q⌋
  else if 1 / 2 < q - ⌊q⌋ then ⌊q⌋ + 1
  else if ⌊q⌋ % 2 = 0 then ⌊q⌋ else ⌊q⌋ + 1

/-- The `double` nearest to the rational number `q` (IEEE 754 binary64: 53
significant bits, rounding to nearest, ties to even), for `q` in the range of the
normal numbers: with `2 ^ e ≤ |q| < 2 ^ (e + 1)`, where `e = Int.log 2 |q|`, the
`double`s around `q` are the multiples of `2 ^ (e - 52)`. Overflow and subnormal
numbers are left out. -/
def roundDouble (q : ℚ) : ℚ :=
  if q = 0 then 0
  else (roundNearestEven (q / (2 : ℚ) ^ (Int.log 2 |q| - 52)) : ℚ)
    * (2 : ℚ) ^ (Int.log 2 |q| - 52)

/-- The constants of `Defs.hpp` (not among the sources) in the type `double`:
`(T)HOA_2PI` is the `double` nearest to `2π`, `7074237752028440 / 2 ^ 50`
(`0x401921FB54442D18`). -/
def doubleDefs : Defs ℚ := ⟨7074237752028440 / 2 ^ 50, by norm_num⟩

variable {K : Type} [LinearOrderedField K]

/-- First loop of `Math::wrap_twopi`, `while(new_value < 0.) new_value += HOA_2PI;`,
in the arithmetic of the type `T`: `rnd` rounds the exact sum to a value of `T`
(the identity in exact arithmetic). `fuel` bounds the number of iterations: the
result is `none` when the loop condition still holds after `fuel` iterations. -/
def wrapUpT (rnd : K → K) (c : Defs K) : Nat → K → Option K
  | 0, new_value => if new_value < 0 then none else some new_value
  | fuel + 1, new_value =>
    if new_value < 0 then wrapUpT rnd c fuel (rnd (new_value + c.HOA_2PI)) else some new_value

/-- Second loop of `Math::wrap_twopi`,
`while(new_value >= HOA_2PI) new_value -= HOA_2PI;`, in the arithmetic of the type
`T`, with the rounding `rnd` and the bound `fuel` as in `wrapUpT`. -/
def wrapDownT (rnd : K → K) (c : Defs K) : Nat → K → Option K
  | 0, new_value => if c.HOA_2PI ≤ new_value then none else some new_value
  | fuel + 1, new_value =>
    if c.HOA_2PI ≤ new_value then wrapDownT rnd c fuel (rnd (new_value - c.HOA_2PI))
    else some new_value

/-- `Math::wrap_twopi` (Math.hpp, lines 42-54) in the arithmetic of the type `T`:
the second loop runs on the result of the first; `none` when one of the loops has
not come to its end within `fuel` iterations. -/
def wrap_twopiT (rnd : K → K) (c : Defs K) (fuel : Nat) (value : K) : Option K :=
  (wrapUpT rnd c fuel value).bind (wrapDownT rnd c fuel)

end MachineArithmetic

/-! # Properties -/

section WrapLemmas

variable {K : Type} [LinearOrderedField K] [FloorRing K]

theorem wrapUp_of_neg (c : Defs K) (v : K) (h : v < 0) :
    wrapUp c v = wrapUp c (v + c.HOA_2PI) := by
  rw [wrapUp, if_pos h]

theorem wrapUp_of_nonneg (c : Defs K) (v : K) (h : 0 ≤ v) : wrapUp c v = v := by
  rw [wrapUp, if_neg (not_lt.mpr h)]

theorem wrapDown_of_ge (c : Defs K) (v : K) (h : c.HOA_2PI ≤ v) :
    wrapDown c v = wrapDown c (v - c.HOA_2PI) := by
  rw [wrapDown, if_pos h]

theorem wrapDown_of_lt (c : Defs K) (v : K) (h : v < c.HOA_2PI) : wrapDown c v = v := by
  rw [wrapDown, if_neg (not_le.mpr h)]

theorem wrapUp_spec (c : Defs K) (v : K) :
    0 ≤ wrapUp c v ∧ ∃ k : ℤ, wrapUp c v = v + c.HOA_2PI * k := by
  induction v using wrapUp.induct c with
  | case1 x hx ih =>
    rw [wrapUp_of_neg c x hx]
    obtain ⟨h0, k, hk⟩ := ih
    refine ⟨h0, k + 1, ?_⟩
    rw [hk]
    push_cast
    ring
  | case2 x hx =>
    rw [wrapUp_of_nonneg c x (not_lt.mp hx)]
    exact ⟨not_lt.mp hx, 0, by simp⟩

theorem wrapDown_spec (c : Defs K) (v : K) :
    wrapDown c v < c.HOA_2PI ∧ (0 ≤ v → 0 ≤ wrapDown c v) ∧
      ∃ k : ℤ, wrapDown c v = v + c.HOA_2PI * k := by
  induction v using wrapDown.induct c with
  | case1 x hx ih =>
    rw [wrapDown_of_ge c x hx]
    obtain ⟨h0, h1, k, hk⟩ := ih
    refine ⟨h0, fun _ => h1 (by linarith), k - 1, ?_⟩
    rw [hk]
    push_cast
    ring
  | case2 x hx =>
    rw [wrapDown_of_lt c x (not_le.mp hx)]
    exact ⟨not_le.mp hx, fun h => h, 0, by simp⟩

theorem wrap_twopi_nonneg (c : Defs K) (v : K) : 0 ≤ wrap_twopi c v :=
  (wrapDown_spec c (wrapUp c v)).2.1 (wrapUp_spec c v).1

theorem wrap_twopi_lt (c : Defs K) (v : K) : wrap_twopi c v < c.HOA_2PI :=
  (wrapDown_spec c (wrapUp c v)).1

theorem wrap_twopi_eq_add (c : Defs K) (v : K) :
    ∃ k : ℤ, wrap_twopi c v = v + c.HOA_2PI * k := by
  obtain ⟨_, k1, h1⟩ := wrapUp_spec c v
  obtain ⟨_, _, k2, h2⟩ := wrapDown_spec c (wrapUp c v)
  refine ⟨k1 + k2, ?_⟩
  unfold wrap_twopi
  rw [h2, h1]
  push_cast
  ring

/-- The value of `wrap_twopi` is determined by its range and its class modulo
`HOA_2PI`. -/
theorem wrap_twopi_unique (c : Defs K) (v y : K) (k : ℤ) (h0 : 0 ≤ y) (h1 : y < c.HOA_2PI)
    (hk : y = v + c.HOA_2PI * k) : wrap_twopi c v = y := by
  obtain ⟨j, hj⟩ := wrap_twopi_eq_add c v
  have hp := c.HOA_2PI_pos
  have a0 := wrap_twopi_nonneg c v
  have a1 := wrap_twopi_lt c v
  have hd : wrap_twopi c v - y = c.HOA_2PI * ((j - k : ℤ) : K) := by
    rw [hj, hk]; push_cast; ring
  have hlt : c.HOA_2PI * ((j - k : ℤ) : K) < c.HOA_2PI * 1 := by rw [← hd]; linarith
  have hgt : c.HOA_2PI * (-1) < c.HOA_2PI * ((j - k : ℤ) : K) := by rw [← hd]; linarith
  have h2 : ((j - k : ℤ) : K) < 1 := lt_of_mul_lt_mul_left hlt hp.le
  have h3 : (-1 : K) < ((j - k : ℤ) : K) := lt_of_mul_lt_mul_left hgt hp.le
  have h4 : j - k < 1 := by exact_mod_cast h2
  have h5 : -1 < j - k := by exact_mod_cast h3
  have h6 : j - k = 0 := by omega
  rw [h6] at hd
  simp at hd
  linarith

end WrapLemmas

section ListLemmas

variable {α : Type}

theorem getD_set_self (l : List α) (i : Nat) (a d : α) (h : i < l.length) :
    (l.set i a).getD i d = a := by
  rw [List.getD_eq_getElem _ _ (by simpa using h)]
  simp

theorem getD_set_ne (l : List α) (i j : Nat) (a d : α) (h : i ≠ j) :
    (l.set i a).getD j d = l.getD j d := by
  simp [List.getD_eq_getElem?_getD, List.getElem?_set_ne h]

theorem range_split (n : Nat) (h : 2 ≤ n) :
    List.range n = 0 :: (List.range' 1 (n - 1 - 1) ++ [n - 1]) := by
  obtain ⟨k, rfl⟩ : ∃ k, n = k + 2 := ⟨n - 2, by omega⟩
  apply List.ext_getElem
  · simp
  · intro i h1 h2
    simp at h1
    rcases i with _ | i
    · simp
    · simp only [List.getElem_range, List.getElem_cons_succ]
      by_cases hi : i < k
      · rw [List.getElem_append_left (by simpa using hi)]
        simp
        omega
      · rw [List.getElem_append_right (by simpa using hi)]
        simp
        omega

end ListLemmas

section SectorLemmas

variable {K : Type} [LinearOrderedField K] [FloorRing K]

omit [FloorRing K] in
theorem half_eq : (0.5 : K) = 1 / 2 := by norm_num

theorem renderFirst_eq (c : Defs K) (ch : List (Planewave K)) (m : Meter2d K)
    (h : 2 ≤ ch.length) : m.renderFirst c ch = m.renderAt c ch 0 := by
  have h1 : ¬ (0 = ch.length - 1) := by omega
  simp [Meter2d.renderFirst, Meter2d.renderAt, previousPortion, nextPortion, h1]

theorem renderMiddle_eq (c : Defs K) (ch : List (Planewave K)) (m : Meter2d K) (i : Nat)
    (h0 : 1 ≤ i) (h1 : i + 1 < ch.length) : m.renderMiddle c ch i = m.renderAt c ch i := by
  have e0 : ¬ (i = 0) := by omega
  have e1 : ¬ (i = ch.length - 1) := by omega
  simp [Meter2d.renderMiddle, Meter2d.renderAt, previousPortion, nextPortion, e0, e1]

theorem renderLast_eq (c : Defs K) (ch : List (Planewave K)) (m : Meter2d K)
    (h : 2 ≤ ch.length) : m.renderLast c ch = m.renderAt c ch (ch.length - 1) := by
  have e0 : ¬ (ch.length - 1 = 0) := by omega
  simp [Meter2d.renderLast, Meter2d.renderAt, previousPortion, nextPortion, e0]

theorem foldl_congr_mem {β γ : Type} (f g : β → γ → β) (l : List γ) (b : β)
    (h : ∀ x ∈ l, ∀ b, f b x = g b x) : l.foldl f b = l.foldl g b := by
  induction l generalizing b with
  | nil => rfl
  | cons a l ih =>
    simp only [List.foldl_cons]
    rw [h a (List.mem_cons_self _ _) b]
    exact ih _ (fun x hx b => h x (List.mem_cons_of_mem _ hx) b)

omit [FloorRing K] in
theorem length_sortChannels (l : List (Planewave K)) : (sortChannels l).length = l.length := by
  simp [sortChannels, List.length_insertionSort]

theorem length_buildChannels (c : Defs K) (m : Meter2d K) :
    (m.buildChannels c).length = m.getNumberOfPlanewaves := by
  simp [Meter2d.buildChannels]

theorem computeRendering_eq_foldl (c : Defs K) (m : Meter2d K)
    (h : 2 ≤ m.getNumberOfPlanewaves) :
    m.computeRendering c =
      (List.range m.getNumberOfPlanewaves).foldl
        (Meter2d.renderAt c (sortChannels (m.buildChannels c))) m := by
  have hl : (sortChannels (m.buildChannels c)).length = m.getNumberOfPlanewaves := by
    rw [length_sortChannels, length_buildChannels]
  have h1 : ¬ (m.getNumberOfPlanewaves = 1) := by omega
  rw [range_split _ h]
  simp only [Meter2d.computeRendering, h1, if_false, List.foldl_cons, List.foldl_append,
    List.foldl_nil]
  rw [renderLast_eq c _ _ (by omega), renderFirst_eq c _ _ (by omega), hl]
  congr 1
  apply foldl_congr_mem
  intro x hx b
  rw [List.mem_range'_1] at hx
  exact renderMiddle_eq c _ b x (by omega) (by omega)

end SectorLemmas

section SectorFold

variable {K : Type} [LinearOrderedField K] [FloorRing K]

/-- Width stored for position `j`. -/
theorem storeSector_width (c : Defs K) (m : Meter2d K) (i : Nat) (cur pp np : K) :
    (m.storeSector c i cur pp np).m_channels_azimuth_width =
      m.m_channels_azimuth_width.set i ((pp + np) * 0.5) := rfl

theorem storeSector_mapped (c : Defs K) (m : Meter2d K) (i : Nat) (cur pp np : K) :
    (m.storeSector c i cur pp np).m_channels_azimuth_mapped =
      m.m_channels_azimuth_mapped.set i (wrap_twopi c ((cur - pp * 0.5) +
        (m.m_channels_azimuth_width.set i ((pp + np) * 0.5)).getD i 0 * 0.5)) := rfl

theorem foldl_renderAt (c : Defs K) (ch : List (Planewave K)) (js : List Nat) :
    ∀ m : Meter2d K,
      (∀ j ∈ js, channelIndex ch j < m.m_channels_azimuth_width.length) →
      (∀ j ∈ js, channelIndex ch j < m.m_channels_azimuth_mapped.length) →
      (js.map (channelIndex ch)).Nodup →
      let r := js.foldl (Meter2d.renderAt c ch) m
      r.m_channels_azimuth_width.length = m.m_channels_azimuth_width.length ∧
      r.m_channels_azimuth_mapped.length = m.m_channels_azimuth_mapped.length ∧
      r.m_channels_peaks = m.m_channels_peaks ∧ r.m_over_leds = m.m_over_leds ∧
      r.m_ramp = m.m_ramp ∧ r.m_vector_size = m.m_vector_size ∧
      r.planewaves_azimuth = m.planewaves_azimuth ∧
      r.planewaves_rotation = m.planewaves_rotation ∧
      (∀ i, i ∉ js.map (channelIndex ch) →
        r.m_channels_azimuth_width.getD i 0 = m.m_channels_azimuth_width.getD i 0 ∧
        r.m_channels_azimuth_mapped.getD i 0 = m.m_channels_azimuth_mapped.getD i 0) ∧
      (∀ j ∈ js,
        r.m_channels_azimuth_width.getD (channelIndex ch j) 0 =
          (previousPortion c ch ch.length j + nextPortion c ch ch.length j) * 0.5 ∧
        r.m_channels_azimuth_mapped.getD (channelIndex ch j) 0 =
          wrap_twopi c ((channelAzimuth ch j - previousPortion c ch ch.length j * 0.5) +
            (previousPortion c ch ch.length j + nextPortion c ch ch.length j) * 0.5 * 0.5)) := by
  induction js with
  | nil => intro m _ _ _; simp
  | cons j0 js ih =>
    intro m hw hm hnd
    simp only [List.map_cons, List.nodup_cons] at hnd
    have hw0 := hw j0 (List.mem_cons_self _ _)
    have hm0 := hm j0 (List.mem_cons_self _ _)
    have key := ih (m.renderAt c ch j0)
      (fun j hj => by
        simpa [Meter2d.renderAt, storeSector_width] using hw j (List.mem_cons_of_mem _ hj))
      (fun j hj => by
        simpa [Meter2d.renderAt, storeSector_mapped] using hm j (List.mem_cons_of_mem _ hj))
      hnd.2
    simp only [List.foldl_cons]
    obtain ⟨k1, k2, k3, k4, k5, k6, k7, k8, k9, k10⟩ := key
    refine ⟨?_, ?_, ?_, ?_, ?_, ?_, ?_, ?_, ?_, ?_⟩
    · rw [k1]; simp [Meter2d.renderAt, storeSector_width]
    · rw [k2]; simp [Meter2d.renderAt, storeSector_mapped]
    · rw [k3]; rfl
    · rw [k4]; rfl
    · rw [k5]; rfl
    · rw [k6]; rfl
    · rw [k7]; rfl
    · rw [k8]; rfl
    · intro i hi
      simp only [List.map_cons, List.mem_cons, not_or] at hi
      obtain ⟨a, b⟩ := k9 i hi.2
      rw [a, b]
      constructor
      · simp only [Meter2d.renderAt, storeSector_width]
        exact getD_set_ne _ _ _ _ _ (fun e => hi.1 e.symm)
      · simp only [Meter2d.renderAt, storeSector_mapped]
        exact getD_set_ne _ _ _ _ _ (fun e => hi.1 e.symm)
    · intro j hj
      rcases List.mem_cons.mp hj with rfl | hj
      · obtain ⟨a, b⟩ := k9 (channelIndex ch j) hnd.1
        rw [a, b]
        constructor
        · simp only [Meter2d.renderAt, storeSector_width]
          exact getD_set_self _ _ _ _ hw0
        · simp only [Meter2d.renderAt, storeSector_mapped]
          rw [getD_set_self _ _ _ _ hm0, getD_set_self _ _ _ _ hw0]
      · exact k10 j hj

end SectorFold

section SortedChannels

variable {K : Type} [LinearOrderedField K] [FloorRing K]

omit [FloorRing K] in
theorem channelIndex_eq (ch : List (Planewave K)) (j : Nat) (h : j < ch.length) :
    channelIndex ch j = ch[j].index := by
  unfold channelIndex
  rw [List.getD_eq_getElem _ _ h]

omit [FloorRing K] in
theorem channelAzimuth_eq (ch : List (Planewave K)) (j : Nat) (h : j < ch.length) :
    channelAzimuth ch j = ch[j].azimuth := by
  unfold channelAzimuth
  rw [List.getD_eq_getElem _ _ h]

omit [FloorRing K] in
theorem sortChannels_perm (l : List (Planewave K)) : (sortChannels l).Perm l :=
  List.perm_insertionSort _ l

omit [FloorRing K] in
theorem sortChannels_sorted (l : List (Planewave K)) :
    (sortChannels l).Sorted (fun a b => a.azimuth ≤ b.azimuth) := by
  haveI : IsTotal (Planewave K) (fun a b => a.azimuth ≤ b.azimuth) :=
    ⟨fun a b => le_total a.azimuth b.azimuth⟩
  haveI : IsTrans (Planewave K) (fun a b => a.azimuth ≤ b.azimuth) :=
    ⟨fun a b c hab hbc => le_trans hab hbc⟩
  exact List.sorted_insertionSort _ l

theorem buildChannels_index (c : Defs K) (m : Meter2d K) :
    (m.buildChannels c).map Planewave.index = List.range m.getNumberOfPlanewaves := by
  simp [Meter2d.buildChannels, Function.comp_def]

theorem sorted_index_perm (c : Defs K) (m : Meter2d K) :
    ((sortChannels (m.buildChannels c)).map Planewave.index).Perm
      (List.range m.getNumberOfPlanewaves) := by
  rw [← buildChannels_index c m]
  exact (sortChannels_perm _).map _

theorem length_sorted (c : Defs K) (m : Meter2d K) :
    (sortChannels (m.buildChannels c)).length = m.getNumberOfPlanewaves := by
  rw [length_sortChannels, length_buildChannels]

omit [FloorRing K] in
theorem map_channelIndex (ch : List (Planewave K)) :
    (List.range ch.length).map (channelIndex ch) = ch.map Planewave.index := by
  apply List.ext_getElem
  · simp
  · intro i h1 h2
    simp at h1
    simp only [List.getElem_map, List.getElem_range]
    exact channelIndex_eq ch i h1

omit [FloorRing K] in
theorem channel_mem (ch : List (Planewave K)) (j : Nat) (h : j < ch.length) :
    (⟨channelIndex ch j, channelAzimuth ch j⟩ : Planewave K) ∈ ch := by
  rw [channelIndex_eq _ _ h, channelAzimuth_eq _ _ h]
  exact List.getElem_mem h

theorem mem_buildChannels (c : Defs K) (m : Meter2d K) (p : Planewave K) :
    p ∈ m.buildChannels c ↔ p.index < m.getNumberOfPlanewaves ∧
      p.azimuth = wrap_twopi c (m.getPlanewaveAzimuth p.index + m.planewaves_rotation) := by
  simp only [Meter2d.buildChannels, List.mem_map, List.mem_range]
  constructor
  · rintro ⟨i, hi, rfl⟩
    exact ⟨hi, rfl⟩
  · rintro ⟨h1, h2⟩
    refine ⟨p.index, h1, ?_⟩
    cases p
    simp only [Planewave.mk.injEq, true_and]
    exact h2.symm

theorem sorted_channel_facts (c : Defs K) (m : Meter2d K) (j : Nat)
    (h : j < m.getNumberOfPlanewaves) :
    channelIndex (sortChannels (m.buildChannels c)) j < m.getNumberOfPlanewaves ∧
    channelAzimuth (sortChannels (m.buildChannels c)) j =
      wrap_twopi c (m.getPlanewaveAzimuth (channelIndex (sortChannels (m.buildChannels c)) j)
        + m.planewaves_rotation) := by
  have hm := channel_mem (sortChannels (m.buildChannels c)) j (by rw [length_sorted]; exact h)
  have := (mem_buildChannels c m _).mp ((sortChannels_perm _).mem_iff.mp hm)
  exact this

theorem sorted_azimuth_range (c : Defs K) (m : Meter2d K) (j : Nat)
    (h : j < m.getNumberOfPlanewaves) :
    0 ≤ channelAzimuth (sortChannels (m.buildChannels c)) j ∧
    channelAzimuth (sortChannels (m.buildChannels c)) j < c.HOA_2PI := by
  rw [(sorted_channel_facts c m j h).2]
  exact ⟨wrap_twopi_nonneg c _, wrap_twopi_lt c _⟩

theorem sorted_azimuth_mono (c : Defs K) (m : Meter2d K) (i j : Nat) (hij : i ≤ j)
    (h : j < m.getNumberOfPlanewaves) :
    channelAzimuth (sortChannels (m.buildChannels c)) i ≤
      channelAzimuth (sortChannels (m.buildChannels c)) j := by
  rcases Nat.eq_or_lt_of_le hij with rfl | hlt
  · exact le_refl _
  · have hs := sortChannels_sorted (m.buildChannels c)
    have hj : j < (sortChannels (m.buildChannels c)).length := by rw [length_sorted]; exact h
    have hi : i < (sortChannels (m.buildChannels c)).length := by omega
    have := List.pairwise_iff_getElem.mp hs i j hi hj hlt
    rw [channelAzimuth_eq _ _ hi, channelAzimuth_eq _ _ hj]
    exact this

/-- Every channel index occupies a position of the sorted vector. -/
theorem position_of_index (c : Defs K) (m : Meter2d K) (i : Nat)
    (h : i < m.getNumberOfPlanewaves) :
    ∃ j, j < m.getNumberOfPlanewaves ∧ channelIndex (sortChannels (m.buildChannels c)) j = i := by
  have hi : i ∈ (sortChannels (m.buildChannels c)).map Planewave.index :=
    (sorted_index_perm c m).mem_iff.mpr (List.mem_range.mpr h)
  obtain ⟨p, hp, rfl⟩ := List.mem_map.mp hi
  obtain ⟨j, hj, rfl⟩ := List.getElem_of_mem hp
  refine ⟨j, by rw [← length_sorted c m]; exact hj, ?_⟩
  exact channelIndex_eq _ j hj

/-- What `computeRendering` leaves in the two arrays for the channel at position
`j` of the sorted vector, for two channels or more. -/
theorem computeRendering_at (c : Defs K) (m : Meter2d K) (hwf : m.WellFormed)
    (h : 2 ≤ m.getNumberOfPlanewaves) (j : Nat) (hj : j < m.getNumberOfPlanewaves) :
    let ch := sortChannels (m.buildChannels c)
    let n := m.getNumberOfPlanewaves
    (m.computeRendering c).getPlanewaveWidth (channelIndex ch j) =
      (previousPortion c ch n j + nextPortion c ch n j) * 0.5 ∧
    (m.computeRendering c).getPlanewaveAzimuthMapped (channelIndex ch j) =
      wrap_twopi c ((channelAzimuth ch j - previousPortion c ch n j * 0.5) +
        (previousPortion c ch n j + nextPortion c ch n j) * 0.5 * 0.5) := by
  intro ch n
  rw [computeRendering_eq_foldl c m h]
  obtain ⟨_, hM, hW, _⟩ := hwf
  have key := foldl_renderAt c ch (List.range n) m
    (fun j hj => by rw [hW]; exact (sorted_channel_facts c m j (List.mem_range.mp hj)).1)
    (fun j hj => by rw [hM]; exact (sorted_channel_facts c m j (List.mem_range.mp hj)).1)
    (by
      have e : (List.range n).map (channelIndex ch) = ch.map Planewave.index := by
        rw [← map_channelIndex ch, length_sorted]
      rw [e]
      exact (sorted_index_perm c m).nodup_iff.mpr (List.nodup_range _))
  have := key.2.2.2.2.2.2.2.2.2 j (List.mem_range.mpr hj)
  rw [length_sorted] at this
  exact this

end SortedChannels

section SectorSums

variable {K : Type} [LinearOrderedField K] [FloorRing K]

omit [FloorRing K] in
theorem sum_previous (a : Nat → K) (T L : K) (k : Nat) :
    ((List.range (k + 1)).map
      (fun j => if j = 0 then (T - L) + a 0 else a j - a (j - 1))).sum = T - L + a k := by
  induction k with
  | zero => simp [show List.range 1 = [0] from rfl]
  | succ k ih =>
    rw [List.range_succ, List.map_append, List.sum_append, ih]
    simp

omit [FloorRing K] in
theorem sum_next (a : Nat → K) (T : K) (N k : Nat) (hk : k ≤ N) :
    ((List.range k).map
      (fun j => if j = N then (T - a j) + a 0 else a (j + 1) - a j)).sum = a k - a 0 := by
  induction k with
  | zero => simp
  | succ k ih =>
    rw [List.range_succ, List.map_append, List.sum_append, ih (by omega)]
    have : ¬ (k = N) := by omega
    simp [this]

omit [FloorRing K] in
theorem sum_portions (c : Defs K) (ch : List (Planewave K)) (n : Nat) (hn : 1 ≤ n) :
    ((List.range n).map
      (fun j => (previousPortion c ch n j + nextPortion c ch n j) * 0.5)).sum = c.HOA_2PI := by
  obtain ⟨k, rfl⟩ : ∃ k, n = k + 1 := ⟨n - 1, by omega⟩
  rw [List.sum_map_mul_right, List.sum_map_add]
  have h1 := sum_previous (channelAzimuth ch) c.HOA_2PI (channelAzimuth ch k) k
  have h2 := sum_next (channelAzimuth ch) c.HOA_2PI k k (le_refl _)
  have e1 : ((List.range (k + 1)).map (fun j => previousPortion c ch (k + 1) j)).sum =
      c.HOA_2PI - channelAzimuth ch k + channelAzimuth ch k := by
    rw [← h1]
    simp [previousPortion]
  have e2 : ((List.range (k + 1)).map (fun j => nextPortion c ch (k + 1) j)).sum =
      (channelAzimuth ch k - channelAzimuth ch 0) +
        ((c.HOA_2PI - channelAzimuth ch k) + channelAzimuth ch 0) := by
    rw [List.range_succ, List.map_append, List.sum_append, ← h2]
    simp [nextPortion]
  rw [e1, e2, half_eq]
  ring

/-- C1: for every 2D layout with at least one channel and every rotation offset,
after `computeRendering` the widths `getPlanewaveWidth(i)` summed over all the
channel indices equal `HOA_2PI` exactly. -/
theorem widths_sum_eq_twopi (c : Defs K) (m : Meter2d K) (hwf : m.WellFormed)
    (h : 1 ≤ m.getNumberOfPlanewaves) :
    ((List.range m.getNumberOfPlanewaves).map
      (m.computeRendering c).getPlanewaveWidth).sum = c.HOA_2PI := by
  rcases Nat.eq_or_lt_of_le h with h1 | h2
  · have hW : 0 < m.m_channels_azimuth_width.length := by rw [hwf.2.2.1]; omega
    rw [← h1, show List.range 1 = [0] from rfl]
    simp only [Meter2d.computeRendering, ← h1, if_true, Meter2d.getPlanewaveWidth,
      List.map_cons, List.map_nil, List.sum_cons, List.sum_nil, add_zero]
    exact getD_set_self _ _ _ _ hW
  · have h2 : 2 ≤ m.getNumberOfPlanewaves := h2
    have hperm := sorted_index_perm c m
    have e : (List.range m.getNumberOfPlanewaves).map (m.computeRendering c).getPlanewaveWidth =
        ((List.range m.getNumberOfPlanewaves).map id).map
          (m.computeRendering c).getPlanewaveWidth := by simp
    have hs : ((List.range m.getNumberOfPlanewaves).map
        (m.computeRendering c).getPlanewaveWidth).sum =
        (((sortChannels (m.buildChannels c)).map Planewave.index).map
          (m.computeRendering c).getPlanewaveWidth).sum :=
      ((hperm.map _).sum_eq).symm
    rw [hs, ← map_channelIndex, length_sorted, List.map_map]
    rw [← sum_portions c (sortChannels (m.buildChannels c)) m.getNumberOfPlanewaves h]
    congr 1
    apply List.map_congr_left
    intro j hj
    exact (computeRendering_at c m hwf h2 j (List.mem_range.mp hj)).1

end SectorSums

section SectorGeometry

variable {K : Type} [LinearOrderedField K] [FloorRing K]

theorem portions_nonneg (c : Defs K) (m : Meter2d K) (j : Nat)
    (hj : j < m.getNumberOfPlanewaves) :
    0 ≤ previousPortion c (sortChannels (m.buildChannels c)) m.getNumberOfPlanewaves j ∧
    0 ≤ nextPortion c (sortChannels (m.buildChannels c)) m.getNumberOfPlanewaves j := by
  have r0 := sorted_azimuth_range c m 0 (by omega)
  have rl := sorted_azimuth_range c m (m.getNumberOfPlanewaves - 1) (by omega)
  have rj := sorted_azimuth_range c m j hj
  constructor
  · unfold previousPortion
    split
    · linarith
    · have := sorted_azimuth_mono c m (j - 1) j (by omega) hj
      linarith
  · unfold nextPortion
    split
    · linarith
    · have := sorted_azimuth_mono c m j (j + 1) (by omega) (by omega)
      linarith

/-- C2: for every 2D layout with at least one channel, after `computeRendering`
the circular distance between the mapped center of a channel and the channel's
normalized azimuth (azimuth plus rotation, wrapped into `[0, HOA_2PI)`) is at most
half the channel's width: some integer `k` has
`|center - azimuth + HOA_2PI * k| ≤ width / 2`. -/
theorem center_within_sector (c : Defs K) (m : Meter2d K) (hwf : m.WellFormed)
    (h : 1 ≤ m.getNumberOfPlanewaves) (i : Nat) (hi : i < m.getNumberOfPlanewaves) :
    ∃ k : ℤ,
      |(m.computeRendering c).getPlanewaveAzimuthMapped i
          - wrap_twopi c (m.getPlanewaveAzimuth i + m.planewaves_rotation)
          + c.HOA_2PI * k|
        ≤ (m.computeRendering c).getPlanewaveWidth i / 2 := by
  have hp := c.HOA_2PI_pos
  rcases Nat.eq_or_lt_of_le h with h1 | h2
  · have hi0 : i = 0 := by omega
    subst hi0
    have hW : 0 < m.m_channels_azimuth_width.length := by rw [hwf.2.2.1]; omega
    have hM : 0 < m.m_channels_azimuth_mapped.length := by rw [hwf.2.1]; omega
    have eW : (m.computeRendering c).getPlanewaveWidth 0 = c.HOA_2PI := by
      simp only [Meter2d.computeRendering, ← h1, if_true, Meter2d.getPlanewaveWidth]
      exact getD_set_self _ _ _ _ hW
    have eM : (m.computeRendering c).getPlanewaveAzimuthMapped 0 = 0 := by
      simp only [Meter2d.computeRendering, ← h1, if_true, Meter2d.getPlanewaveAzimuthMapped]
      exact getD_set_self _ _ _ _ hM
    rw [eW, eM]
    have a0 := wrap_twopi_nonneg c (m.getPlanewaveAzimuth 0 + m.planewaves_rotation)
    have a1 := wrap_twopi_lt c (m.getPlanewaveAzimuth 0 + m.planewaves_rotation)
    by_cases hc : wrap_twopi c (m.getPlanewaveAzimuth 0 + m.planewaves_rotation)
        ≤ c.HOA_2PI / 2
    · refine ⟨0, ?_⟩
      rw [abs_le]
      constructor <;> simp <;> linarith
    · refine ⟨1, ?_⟩
      rw [abs_le]
      push_neg at hc
      constructor <;> simp <;> linarith
  · have h2 : 2 ≤ m.getNumberOfPlanewaves := h2
    obtain ⟨j, hj, rfl⟩ := position_of_index c m i hi
    obtain ⟨eW, eM⟩ := computeRendering_at c m hwf h2 j hj
    obtain ⟨_, eA⟩ := sorted_channel_facts c m j hj
    obtain ⟨p0, n0⟩ := portions_nonneg c m j hj
    rw [eW, eM, ← eA]
    obtain ⟨k0, hk0⟩ := wrap_twopi_eq_add c
      ((channelAzimuth (sortChannels (m.buildChannels c)) j -
        previousPortion c (sortChannels (m.buildChannels c)) m.getNumberOfPlanewaves j * 0.5) +
        (previousPortion c (sortChannels (m.buildChannels c)) m.getNumberOfPlanewaves j +
          nextPortion c (sortChannels (m.buildChannels c)) m.getNumberOfPlanewaves j)
            * 0.5 * 0.5)
    refine ⟨-k0, ?_⟩
    rw [hk0, half_eq, abs_le]
    push_cast
    constructor <;> linarith

/-- C3: for every 2D layout with at least two channels, after `computeRendering`
the sectors tile the circle: for the channel at each position `j` of the ascending
vector and its successor (the first channel for the last position), the upper
edge `center + width / 2` of the former and the lower edge `center - width / 2` of
the latter are equal modulo `HOA_2PI`, and this edge is, modulo `HOA_2PI`, the
midpoint of the two azimuths (the successor's taken one turn further at the
seam). -/
theorem sectors_tile_circle (c : Defs K) (m : Meter2d K) (hwf : m.WellFormed)
    (h : 2 ≤ m.getNumberOfPlanewaves) (j : Nat) (hj : j < m.getNumberOfPlanewaves) :
    let ch := sortChannels (m.buildChannels c)
    let s := if j + 1 = m.getNumberOfPlanewaves then 0 else j + 1
    let r := m.computeRendering c
    let upper := r.getPlanewaveAzimuthMapped (channelIndex ch j)
      + r.getPlanewaveWidth (channelIndex ch j) / 2
    let lower := r.getPlanewaveAzimuthMapped (channelIndex ch s)
      - r.getPlanewaveWidth (channelIndex ch s) / 2
    let successor := if j + 1 = m.getNumberOfPlanewaves then channelAzimuth ch s + c.HOA_2PI
      else channelAzimuth ch s
    channelAzimuth ch j ≤ successor ∧
    (∃ k : ℤ, upper - lower = c.HOA_2PI * k) ∧
    (∃ k : ℤ, upper - (channelAzimuth ch j + successor) / 2 = c.HOA_2PI * k) := by
  intro ch s r upper lower successor
  have hs : s < m.getNumberOfPlanewaves := by
    simp only [s]; split <;> omega
  obtain ⟨eWj, eMj⟩ := computeRendering_at c m hwf h j hj
  obtain ⟨eWs, eMs⟩ := computeRendering_at c m hwf h s hs
  obtain ⟨kj, hkj⟩ := wrap_twopi_eq_add c
    ((channelAzimuth ch j - previousPortion c ch m.getNumberOfPlanewaves j * 0.5) +
      (previousPortion c ch m.getNumberOfPlanewaves j +
        nextPortion c ch m.getNumberOfPlanewaves j) * 0.5 * 0.5)
  obtain ⟨ks, hks⟩ := wrap_twopi_eq_add c
    ((channelAzimuth ch s - previousPortion c ch m.getNumberOfPlanewaves s * 0.5) +
      (previousPortion c ch m.getNumberOfPlanewaves s +
        nextPortion c ch m.getNumberOfPlanewaves s) * 0.5 * 0.5)
  have rs := sorted_azimuth_range c m s hs
  have rj := sorted_azimuth_range c m j hj
  have hU : upper = channelAzimuth ch j + nextPortion c ch m.getNumberOfPlanewaves j / 2
      + c.HOA_2PI * kj := by
    simp only [upper, r]
    rw [eMj, eWj, hkj, half_eq]
    ring
  have hL : lower = channelAzimuth ch s - previousPortion c ch m.getNumberOfPlanewaves s / 2
      + c.HOA_2PI * ks := by
    simp only [lower, r]
    rw [eMs, eWs, hks, half_eq]
    ring
  have hn : nextPortion c ch m.getNumberOfPlanewaves j = successor - channelAzimuth ch j ∧
      previousPortion c ch m.getNumberOfPlanewaves s = successor - channelAzimuth ch j ∧
      (successor = channelAzimuth ch s + c.HOA_2PI ∨ successor = channelAzimuth ch s) ∧
      channelAzimuth ch j ≤ successor := by
    by_cases hlast : j + 1 = m.getNumberOfPlanewaves
    · have es : s = 0 := by simp [s, hlast]
      have ej : j = m.getNumberOfPlanewaves - 1 := by omega
      rw [es] at rs
      simp only [successor, hlast, if_true, es, previousPortion, nextPortion, ← ej]
      refine ⟨by ring, by ring, Or.inl trivial, ?_⟩
      linarith [c.HOA_2PI_pos, rs.1, rj.2]
    · have es : s = j + 1 := by simp [s, hlast]
      have e0 : ¬ (j + 1 = 0) := by omega
      have e1 : ¬ (j = m.getNumberOfPlanewaves - 1) := by omega
      simp only [successor, hlast, if_false, es, previousPortion, nextPortion, e0, e1,
        Nat.add_sub_cancel]
      exact ⟨trivial, trivial, Or.inr trivial,
        sorted_azimuth_mono c m j (j + 1) (by omega) (by omega)⟩
  obtain ⟨hn1, hn2, hn3, hn4⟩ := hn
  refine ⟨hn4, ?_, ⟨kj, ?_⟩⟩
  · rw [hU, hL, hn1, hn2]
    rcases hn3 with e | e
    · exact ⟨kj - ks + 1, by rw [e]; push_cast; ring⟩
    · exact ⟨kj - ks, by rw [e]; push_cast; ring⟩
  · rw [hU, hn1]
    ring

/-- C4: for a 2D layout of exactly one channel, whatever its azimuth and the
rotation offset, `computeRendering` sets the channel's width to `HOA_2PI` and its
mapped center to `0`. -/
theorem single_channel_sector (c : Defs K) (m : Meter2d K) (hwf : m.WellFormed)
    (h : m.getNumberOfPlanewaves = 1) :
    (m.computeRendering c).getPlanewaveWidth 0 = c.HOA_2PI ∧
    (m.computeRendering c).getPlanewaveAzimuthMapped 0 = 0 := by
  have hW : 0 < m.m_channels_azimuth_width.length := by rw [hwf.2.2.1]; omega
  have hM : 0 < m.m_channels_azimuth_mapped.length := by rw [hwf.2.1]; omega
  simp only [Meter2d.computeRendering, h, if_true, Meter2d.getPlanewaveWidth,
    Meter2d.getPlanewaveAzimuthMapped]
  exact ⟨getD_set_self _ _ _ _ hW, getD_set_self _ _ _ _ hM⟩

end SectorGeometry

section SectorWitnesses

theorem exampleMeter_wellFormed : exampleMeter.WellFormed := by
  simp [Meter2d.WellFormed, exampleMeter, Meter2d.getNumberOfPlanewaves]

theorem exampleSingle_wellFormed : exampleSingle.WellFormed := by
  simp [Meter2d.WellFormed, exampleSingle, Meter2d.getNumberOfPlanewaves]

/-- Witness of C1 on the three-channel example. -/
theorem widths_sum_eq_twopi_witness :
    exampleMeter.WellFormed ∧ 1 ≤ exampleMeter.getNumberOfPlanewaves ∧
    ((List.range exampleMeter.getNumberOfPlanewaves).map
      (exampleMeter.computeRendering exampleDefs).getPlanewaveWidth).sum = 6 :=
  ⟨exampleMeter_wellFormed, by decide,
    widths_sum_eq_twopi exampleDefs exampleMeter exampleMeter_wellFormed (by decide)⟩

/-- Witness of C2 on the three-channel example, channel `1`. -/
theorem center_within_sector_witness :
    exampleMeter.WellFormed ∧ 1 ≤ exampleMeter.getNumberOfPlanewaves ∧
    1 < exampleMeter.getNumberOfPlanewaves ∧
    ∃ k : ℤ,
      |(exampleMeter.computeRendering exampleDefs).getPlanewaveAzimuthMapped 1
          - wrap_twopi exampleDefs
              (exampleMeter.getPlanewaveAzimuth 1 + exampleMeter.planewaves_rotation)
          + exampleDefs.HOA_2PI * k|
        ≤ (exampleMeter.computeRendering exampleDefs).getPlanewaveWidth 1 / 2 :=
  ⟨exampleMeter_wellFormed, by decide, by decide,
    center_within_sector exampleDefs exampleMeter exampleMeter_wellFormed (by decide) 1
      (by decide)⟩

/-- Witness of C3 on the three-channel example, at the seam (last position). -/
theorem sectors_tile_circle_witness :
    exampleMeter.WellFormed ∧ 2 ≤ exampleMeter.getNumberOfPlanewaves ∧
    2 < exampleMeter.getNumberOfPlanewaves ∧
    (let ch := sortChannels (exampleMeter.buildChannels exampleDefs)
     let s := if 2 + 1 = exampleMeter.getNumberOfPlanewaves then 0 else 2 + 1
     let r := exampleMeter.computeRendering exampleDefs
     let upper := r.getPlanewaveAzimuthMapped (channelIndex ch 2)
       + r.getPlanewaveWidth (channelIndex ch 2) / 2
     let lower := r.getPlanewaveAzimuthMapped (channelIndex ch s)
       - r.getPlanewaveWidth (channelIndex ch s) / 2
     let successor := if 2 + 1 = exampleMeter.getNumberOfPlanewaves
       then channelAzimuth ch s + exampleDefs.HOA_2PI else channelAzimuth ch s
     channelAzimuth ch 2 ≤ successor ∧
     (∃ k : ℤ, upper - lower = exampleDefs.HOA_2PI * k) ∧
     (∃ k : ℤ, upper - (channelAzimuth ch 2 + successor) / 2 = exampleDefs.HOA_2PI * k)) :=
  ⟨exampleMeter_wellFormed, by decide, by decide,
    sectors_tile_circle exampleDefs exampleMeter exampleMeter_wellFormed (by decide) 2
      (by decide)⟩

/-- Witness of C4 on the one-channel example. -/
theorem single_channel_sector_witness :
    exampleSingle.WellFormed ∧ exampleSingle.getNumberOfPlanewaves = 1 ∧
    (exampleSingle.computeRendering exampleDefs).getPlanewaveWidth 0 = 6 ∧
    (exampleSingle.computeRendering exampleDefs).getPlanewaveAzimuthMapped 0 = 0 :=
  ⟨exampleSingle_wellFormed, by decide,
    single_channel_sector exampleDefs exampleSingle exampleSingle_wellFormed (by decide)⟩

end SectorWitnesses

section TrackerLemmas

variable {K : Type} [LinearOrderedField K]

/-- A loop `for(i = 0; i < n; i++)` whose body touches only the cell `i` of an
array leaves in each cell below `n` the body's value for it. -/
theorem foldl_range_cells {α : Type} (d : α) (f : List α → Nat → List α) (g : Nat → α → α)
    (hf : ∀ (l : List α) (i : Nat), i < l.length →
      (f l i).length = l.length ∧ (f l i).getD i d = g i (l.getD i d) ∧
        ∀ j, j ≠ i → (f l i).getD j d = l.getD j d)
    (l : List α) (n : Nat) (hn : n ≤ l.length) :
    ((List.range n).foldl f l).length = l.length ∧
    ∀ j, ((List.range n).foldl f l).getD j d = if j < n then g j (l.getD j d) else l.getD j d := by
  induction n with
  | zero => simp
  | succ n ih =>
    obtain ⟨h1, h2⟩ := ih (by omega)
    rw [List.range_succ, List.foldl_append]
    simp only [List.foldl_cons, List.foldl_nil]
    obtain ⟨a, b, e⟩ := hf ((List.range n).foldl f l) n (by omega)
    refine ⟨by rw [a, h1], fun j => ?_⟩
    by_cases hj : j = n
    · subst hj
      rw [b, h2]
      simp
    · rw [e j hj, h2]
      by_cases hlt : j < n
      · simp [hlt, Nat.lt_succ_of_lt hlt]
      · have : ¬ (j < n + 1) := by omega
        simp [hlt, this]

theorem resetPeaks_spec (n : Nat) (peaks inputs : List K) (hn : n ≤ peaks.length) :
    (resetPeaks n peaks inputs).length = peaks.length ∧
    ∀ j, (resetPeaks n peaks inputs).getD j 0 =
      if j < n then |inputs.getD j 0| else peaks.getD j 0 := by
  refine foldl_range_cells 0 _ (fun i _ => |inputs.getD i 0|) ?_ peaks n hn
  intro l i hi
  exact ⟨by simp, getD_set_self _ _ _ _ hi, fun j hj => getD_set_ne _ _ _ _ _ (Ne.symm hj)⟩

theorem holdPeaks_spec (n : Nat) (peaks inputs : List K) (hn : n ≤ peaks.length) :
    (holdPeaks n peaks inputs).length = peaks.length ∧
    ∀ j, (holdPeaks n peaks inputs).getD j 0 =
      if j < n then max (peaks.getD j 0) |inputs.getD j 0| else peaks.getD j 0 := by
  refine foldl_range_cells 0 _ (fun i p => max p |inputs.getD i 0|) ?_ peaks n hn
  intro l i hi
  by_cases h : |inputs.getD i 0| > l.getD i 0
  · rw [if_pos h]
    refine ⟨by simp, ?_, fun j hj => getD_set_ne _ _ _ _ _ (Ne.symm hj)⟩
    rw [getD_set_self _ _ _ _ hi]
    exact (max_eq_right (le_of_lt h)).symm
  · rw [if_neg h]
    exact ⟨rfl, (max_eq_left (not_lt.mp h)).symm, fun j _ => rfl⟩

end TrackerLemmas

section ProcessLemmas

variable {K : Type} [LinearOrderedField K]

theorem process_reset (m : Meter2d K) (inputs : List K) (h : m.m_ramp = m.m_vector_size) :
    m.process inputs =
      { m with
        m_ramp := 0
        m_channels_peaks := resetPeaks m.getNumberOfPlanewaves m.m_channels_peaks inputs } := by
  simp [Meter2d.process, h, Meter2d.getNumberOfPlanewaves]

theorem process_hold (m : Meter2d K) (inputs : List K) (h : m.m_ramp ≠ m.m_vector_size) :
    m.process inputs =
      { m with
        m_ramp := (m.m_ramp + 1) % ULONG_RANGE
        m_channels_peaks := holdPeaks m.getNumberOfPlanewaves m.m_channels_peaks inputs } := by
  simp [Meter2d.process, h, Meter2d.getNumberOfPlanewaves]

theorem process_frame (m : Meter2d K) (inputs : List K) (hwf : m.WellFormed) :
    (m.process inputs).WellFormed ∧
    (m.process inputs).getNumberOfPlanewaves = m.getNumberOfPlanewaves ∧
    (m.process inputs).m_vector_size = m.m_vector_size := by
  obtain ⟨h1, h2, h3, h4⟩ := hwf
  by_cases h : m.m_ramp = m.m_vector_size
  · rw [process_reset m inputs h]
    refine ⟨⟨?_, h2, h3, h4⟩, rfl, rfl⟩
    exact (resetPeaks_spec _ _ inputs (le_of_eq h1.symm)).1.trans h1
  · rw [process_hold m inputs h]
    refine ⟨⟨?_, h2, h3, h4⟩, rfl, rfl⟩
    exact (holdPeaks_spec _ _ inputs (le_of_eq h1.symm)).1.trans h1

theorem processAll_append (m : Meter2d K) (a b : List (List K)) :
    m.processAll (a ++ b) = (m.processAll a).processAll b := by
  simp [Meter2d.processAll, List.foldl_append]

theorem processAll_frame (m : Meter2d K) (calls : List (List K)) (hwf : m.WellFormed) :
    (m.processAll calls).WellFormed ∧
    (m.processAll calls).getNumberOfPlanewaves = m.getNumberOfPlanewaves ∧
    (m.processAll calls).m_vector_size = m.m_vector_size := by
  induction calls generalizing m with
  | nil => exact ⟨hwf, rfl, rfl⟩
  | cons x xs ih =>
    obtain ⟨a, b, c⟩ := process_frame m x hwf
    obtain ⟨a1, b1, c1⟩ := ih (m.process x) a
    exact ⟨a1, b1.trans b, c1.trans c⟩

theorem process_vector_size (m : Meter2d K) (inputs : List K) :
    (m.process inputs).m_vector_size = m.m_vector_size := by
  by_cases h : m.m_ramp = m.m_vector_size
  · rw [process_reset m inputs h]
  · rw [process_hold m inputs h]

theorem processAll_vector_size (m : Meter2d K) (calls : List (List K)) :
    (m.processAll calls).m_vector_size = m.m_vector_size := by
  induction calls generalizing m with
  | nil => rfl
  | cons x xs ih => exact (ih (m.process x)).trans (process_vector_size m x)

theorem processAll_singleton (m : Meter2d K) (x : List K) :
    m.processAll [x] = m.process x := rfl

/-- While fewer calls than the window have been made since `setVectorSize`, the
ramp counts the calls. -/
theorem ramp_counts_calls (m : Meter2d K) (calls : List (List K))
    (h0 : m.m_ramp = 0) (hv : m.m_vector_size < ULONG_RANGE)
    (hk : calls.length ≤ m.m_vector_size) :
    (m.processAll calls).m_ramp = calls.length := by
  induction calls using List.reverseRecOn with
  | nil => simpa [Meter2d.processAll] using h0
  | append_singleton xs x ih =>
    rw [List.length_append, List.length_singleton] at hk
    have hr := ih (by omega)
    rw [processAll_append, processAll_singleton]
    have hne : (m.processAll xs).m_ramp ≠ (m.processAll xs).m_vector_size := by
      rw [hr, processAll_vector_size]
      omega
    rw [process_hold _ x hne]
    simp only [hr, List.length_append, List.length_singleton]
    exact Nat.mod_eq_of_lt (by omega)

theorem processAll_take_succ (m : Meter2d K) (calls : List (List K)) (k : Nat)
    (hk : k < calls.length) :
    m.processAll (calls.take (k + 1)) = (m.processAll (calls.take k)).process (calls.getD k []) := by
  rw [List.take_succ, processAll_append, List.getD_eq_getElem _ _ hk]
  simp [List.getElem?_eq_getElem hk, processAll_singleton]

end ProcessLemmas

section WindowClaims

variable {K : Type} [LinearOrderedField K]

/-- C9, as stated, fails: after `setVectorSize(1)` the first `process` call is not
the hard reset. On a meter whose stored peaks are `3`, the samples `1, 1` leave
the peaks at `3` (max-hold) and the ramp at `1`; the second call is the reset. -/
theorem first_call_after_setVectorSize_one_holds :
    ((exampleLoud.setVectorSize 1).process [1, 1]).m_channels_peaks = [3, 3] ∧
    ((exampleLoud.setVectorSize 1).process [1, 1]).m_ramp = 1 ∧
    ((exampleLoud.setVectorSize 1).process [1, 1]).m_channels_peaks.getD 0 0 ≠ |(1 : ℚ)| ∧
    (((exampleLoud.setVectorSize 1).process [1, 1]).process [1, 1]).m_channels_peaks = [1, 1] ∧
    (((exampleLoud.setVectorSize 1).process [1, 1]).process [1, 1]).m_ramp = 0 := by
  have e1 : (exampleLoud.setVectorSize 1).process [1, 1] =
      { exampleLoud with m_ramp := 1, m_vector_size := 1 } := by
    norm_num [Meter2d.process, Meter2d.setVectorSize, exampleLoud, holdPeaks, resetPeaks,
      Meter2d.getNumberOfPlanewaves, List.range_succ, ULONG_RANGE]
  rw [e1]
  norm_num [Meter2d.process, exampleLoud, holdPeaks, resetPeaks,
      Meter2d.getNumberOfPlanewaves, List.range_succ, ULONG_RANGE]

/-- C9, amended: after `setVectorSize(n)` (any `ulong` value `n`), in any following
sequence of `process` calls the calls `1 … n` are max-hold calls, each finding the
ramp at the number of calls already made, below the window, and storing
`max(storedPeak, |sample|)` in every channel; the call `n + 1` is the hard reset:
it finds the ramp, compared before it is incremented, equal to the window `n`,
replaces every channel's stored peak by that call's `|sample|` and returns the
ramp to `0`. -/
theorem hard_reset_on_call_after_window (m : Meter2d K) (hwf : m.WellFormed) (n : Nat)
    (hn : n < ULONG_RANGE) (calls : List (List K)) (hc : calls.length = n + 1) :
    (∀ k, k < n →
      ((m.setVectorSize n).processAll (calls.take k)).m_ramp = k ∧
      ((m.setVectorSize n).processAll (calls.take (k + 1))).m_ramp = k + 1 ∧
      ∀ i, i < m.getNumberOfPlanewaves →
        ((m.setVectorSize n).processAll (calls.take (k + 1))).m_channels_peaks.getD i 0 =
          max (((m.setVectorSize n).processAll (calls.take k)).m_channels_peaks.getD i 0)
            |(calls.getD k []).getD i 0|) ∧
    ((m.setVectorSize n).processAll (calls.take n)).m_ramp = n ∧
    ((m.setVectorSize n).processAll calls).m_ramp = 0 ∧
    ∀ i, i < m.getNumberOfPlanewaves →
      ((m.setVectorSize n).processAll calls).m_channels_peaks.getD i 0 =
        |(calls.getD n []).getD i 0| := by
  have hwf0 : (m.setVectorSize n).WellFormed := hwf
  have hr : ∀ k, k ≤ n → ((m.setVectorSize n).processAll (calls.take k)).m_ramp = k := by
    intro k hk
    have := ramp_counts_calls (m.setVectorSize n) (calls.take k) rfl hn
      (by rw [List.length_take]; exact le_trans (min_le_left _ _) hk)
    rw [this, List.length_take]
    omega
  have hfr : ∀ k, ((m.setVectorSize n).processAll (calls.take k)).WellFormed ∧
      ((m.setVectorSize n).processAll (calls.take k)).getNumberOfPlanewaves
        = m.getNumberOfPlanewaves ∧
      ((m.setVectorSize n).processAll (calls.take k)).m_vector_size = n :=
    fun k => processAll_frame (m.setVectorSize n) (calls.take k) hwf0
  refine ⟨fun k hk => ⟨hr k (by omega), hr (k + 1) (by omega), fun i hi => ?_⟩,
    hr n (le_refl _), ?_, fun i hi => ?_⟩
  · obtain ⟨w, e1, e2⟩ := hfr k
    rw [processAll_take_succ _ calls k (by omega),
      process_hold _ _ (by rw [hr k (by omega), e2]; omega)]
    simp only
    rw [(holdPeaks_spec _ _ _ (by rw [w.1])).2 i, e1, if_pos hi]
  · obtain ⟨w, e1, e2⟩ := hfr n
    have e : calls = calls.take (n + 1) := by rw [List.take_of_length_le (by omega)]
    rw [e, processAll_take_succ _ calls n (by omega),
      process_reset _ _ (by rw [hr n (le_refl _), e2])]
  · obtain ⟨w, e1, e2⟩ := hfr n
    have e : calls = calls.take (n + 1) := by rw [List.take_of_length_le (by omega)]
    rw [e, processAll_take_succ _ calls n (by omega),
      process_reset _ _ (by rw [hr n (le_refl _), e2])]
    simp only
    rw [(resetPeaks_spec _ _ _ (by rw [w.1])).2 i, e1, if_pos hi]
    rw [← e]

end WindowClaims

section WindowZero

variable {K : Type} [LinearOrderedField K]

/-- Witness of C9 (amended) on the three-channel example with the window `2`. -/
theorem hard_reset_on_call_after_window_witness :
    exampleMeter.WellFormed ∧ 2 < ULONG_RANGE ∧
    ([[3, 1, 0], [1, 2, 0], [1 / 2, 1 / 2, 0]] : List (List ℚ)).length = 2 + 1 ∧
    ((exampleMeter.setVectorSize 2).processAll
      [[3, 1, 0], [1, 2, 0], [1 / 2, 1 / 2, 0]]).m_ramp = 0 :=
  ⟨exampleMeter_wellFormed, by decide, rfl,
    (hard_reset_on_call_after_window exampleMeter exampleMeter_wellFormed 2 (by decide)
      [[3, 1, 0], [1, 2, 0], [1 / 2, 1 / 2, 0]] rfl).2.2.1⟩

theorem process_window_zero (m : Meter2d K) (hwf : m.WellFormed) (hv : m.m_vector_size = 0)
    (hr : m.m_ramp = 0) (x : List K) :
    (m.process x).WellFormed ∧ (m.process x).m_vector_size = 0 ∧ (m.process x).m_ramp = 0 ∧
    (m.process x).getNumberOfPlanewaves = m.getNumberOfPlanewaves ∧
    ∀ i, i < m.getNumberOfPlanewaves → (m.process x).m_channels_peaks.getD i 0 = |x.getD i 0| := by
  obtain ⟨w, e1, e2⟩ := process_frame m x hwf
  refine ⟨w, e2.trans hv, ?_, e1, fun i hi => ?_⟩
  · rw [process_reset m x (by rw [hv, hr])]
  · rw [process_reset m x (by rw [hv, hr])]
    simp only
    rw [(resetPeaks_spec _ _ _ (by rw [hwf.1])).2 i, if_pos hi]

theorem processAll_window_zero (m : Meter2d K) (hwf : m.WellFormed) (hv : m.m_vector_size = 0)
    (hr : m.m_ramp = 0) (calls : List (List K)) :
    (m.processAll calls).WellFormed ∧ (m.processAll calls).m_vector_size = 0 ∧
    (m.processAll calls).m_ramp = 0 ∧
    (m.processAll calls).getNumberOfPlanewaves = m.getNumberOfPlanewaves := by
  induction calls generalizing m with
  | nil => exact ⟨hwf, hv, hr, rfl⟩
  | cons x xs ih =>
    obtain ⟨a, b, c, d, _⟩ := process_window_zero m hwf hv hr x
    obtain ⟨a1, b1, c1, d1⟩ := ih (m.process x) a b c
    exact ⟨a1, b1, c1, d1.trans d⟩

theorem process3d_reset (m : Meter3d K) (inputs : List K) (h : m.m_ramp = m.m_vector_size) :
    m.process inputs =
      { m with
        m_ramp := 0
        m_channels_peaks := resetPeaks m.numberOfPlanewaves m.m_channels_peaks inputs } := by
  simp [Meter3d.process, h]

theorem process3d_window_zero (m : Meter3d K) (hwf : m.WellFormed) (hv : m.m_vector_size = 0)
    (hr : m.m_ramp = 0) (x : List K) :
    (m.process x).WellFormed ∧ (m.process x).m_vector_size = 0 ∧ (m.process x).m_ramp = 0 ∧
    (m.process x).numberOfPlanewaves = m.numberOfPlanewaves ∧
    ∀ i, i < m.numberOfPlanewaves → (m.process x).m_channels_peaks.getD i 0 = |x.getD i 0| := by
  obtain ⟨h1, h2, h3, h4⟩ := hwf
  have hs := resetPeaks_spec m.numberOfPlanewaves m.m_channels_peaks x (by rw [h1])
  rw [process3d_reset m x (by rw [hv, hr])]
  refine ⟨⟨hs.1.trans h1, h2, h3, h4⟩, hv, rfl, rfl, fun i hi => ?_⟩
  simp only
  rw [hs.2 i, if_pos hi]

theorem processAll3d_window_zero (m : Meter3d K) (hwf : m.WellFormed)
    (hv : m.m_vector_size = 0) (hr : m.m_ramp = 0) (calls : List (List K)) :
    (m.processAll calls).WellFormed ∧ (m.processAll calls).m_vector_size = 0 ∧
    (m.processAll calls).m_ramp = 0 ∧
    (m.processAll calls).numberOfPlanewaves = m.numberOfPlanewaves := by
  induction calls generalizing m with
  | nil => exact ⟨hwf, hv, hr, rfl⟩
  | cons x xs ih =>
    obtain ⟨a, b, c, d, _⟩ := process3d_window_zero m hwf hv hr x
    obtain ⟨a1, b1, c1, d1⟩ := ih (m.process x) a b c
    exact ⟨a1, b1, c1, d1.trans d⟩

/-- C10: when the window is `0` (a freshly constructed meter, or after
`setVectorSize(0)`: window and ramp both `0`), every `process` call, after any
number of earlier calls, sets every channel's stored peak to exactly `|sample_i|`
of that call, whatever the previous peak was; this holds for the 2D and for the
3D meter. -/
theorem window_zero_always_resets (m2 : Meter2d K) (m3 : Meter3d K)
    (hwf2 : m2.WellFormed) (hwf3 : m3.WellFormed)
    (hv2 : m2.m_vector_size = 0) (hr2 : m2.m_ramp = 0)
    (hv3 : m3.m_vector_size = 0) (hr3 : m3.m_ramp = 0)
    (calls : List (List K)) (x : List K) :
    (∀ i, i < m2.getNumberOfPlanewaves →
      ((m2.processAll calls).process x).m_channels_peaks.getD i 0 = |x.getD i 0|) ∧
    (∀ i, i < m3.numberOfPlanewaves →
      ((m3.processAll calls).process x).m_channels_peaks.getD i 0 = |x.getD i 0|) := by
  obtain ⟨a, b, c, d⟩ := processAll_window_zero m2 hwf2 hv2 hr2 calls
  obtain ⟨a3, b3, c3, d3⟩ := processAll3d_window_zero m3 hwf3 hv3 hr3 calls
  refine ⟨fun i hi => ?_, fun i hi => ?_⟩
  · exact (process_window_zero _ a b c x).2.2.2.2 i (by rw [d]; exact hi)
  · exact (process3d_window_zero _ a3 b3 c3 x).2.2.2.2 i (by rw [d3]; exact hi)

theorem exampleLoud_wellFormed : exampleLoud.WellFormed := by
  simp [Meter2d.WellFormed, exampleLoud, Meter2d.getNumberOfPlanewaves]

theorem exampleLoud3d_wellFormed : exampleLoud3d.WellFormed := by
  simp [Meter3d.WellFormed, exampleLoud3d]

/-- Witness of C10 on the two loud examples: after one earlier call, the samples
`1, -2` replace the peaks. -/
theorem window_zero_always_resets_witness :
    exampleLoud.WellFormed ∧ exampleLoud3d.WellFormed ∧
    exampleLoud.m_vector_size = 0 ∧ exampleLoud.m_ramp = 0 ∧
    exampleLoud3d.m_vector_size = 0 ∧ exampleLoud3d.m_ramp = 0 ∧
    ((∀ i, i < exampleLoud.getNumberOfPlanewaves →
      ((exampleLoud.processAll [[5, 5]]).process [1, -2]).m_channels_peaks.getD i 0
        = |([1, -2] : List ℚ).getD i 0|) ∧
    (∀ i, i < exampleLoud3d.numberOfPlanewaves →
      ((exampleLoud3d.processAll [[5, 5]]).process [1, -2]).m_channels_peaks.getD i 0
        = |([1, -2] : List ℚ).getD i 0|)) :=
  ⟨exampleLoud_wellFormed, exampleLoud3d_wellFormed, rfl, rfl, rfl, rfl,
    window_zero_always_resets exampleLoud exampleLoud3d exampleLoud_wellFormed
      exampleLoud3d_wellFormed rfl rfl rfl rfl [[5, 5]] [1, -2]⟩

end WindowZero

section ClipGeneric

variable {K : Type} [LinearOrderedField K]

theorem insertTop_eq_insertGen (sqrt : K → K) (path : Path K) (size i : Nat) :
    insertTop sqrt path size i =
      insertGen (fun q => decide (q.z < 0)) (crossTop sqrt) ⟨0, 0, 0⟩ path size i := by
  generalize hk : size - i = k
  induction k using Nat.strong_induction_on generalizing path size i with
  | _ k ih =>
    rw [insertTop, insertGen]
    by_cases hi : i < size
    · simp only [hi, if_true, vertex, decide_eq_true_eq, decide_eq_false_iff_not, not_lt, ge_iff_le]
      split_ifs <;> exact ih _ (by omega) _ _ _ rfl
    · simp only [hi, if_false]

theorem insertBottom_eq_insertGen (sqrt : K → K) (path : Path K) (size i : Nat) :
    insertBottom sqrt path size i =
      insertGen (fun q => decide (q.z > 0)) (crossBottom sqrt) ⟨0, 0, 0⟩ path size i := by
  generalize hk : size - i = k
  induction k using Nat.strong_induction_on generalizing path size i with
  | _ k ih =>
    rw [insertBottom, insertGen]
    by_cases hi : i < size
    · simp only [hi, if_true, vertex, decide_eq_true_eq, decide_eq_false_iff_not, not_lt, gt_iff_lt]
      split_ifs <;> exact ih _ (by omega) _ _ _ rfl
    · simp only [hi, if_false]

theorem pruneTop_eq_pruneGen (path : Path K) (size i : Nat) :
    pruneTop path size i = pruneGen (fun q => decide (q.z > 0)) ⟨0, 0, 0⟩ path size i := by
  generalize hk : size - i = k
  induction k using Nat.strong_induction_on generalizing path size i with
  | _ k ih =>
    rw [pruneTop, pruneGen]
    by_cases hi : i < size
    · simp only [hi, if_true, vertex, decide_eq_false_iff_not, not_lt, gt_iff_lt]
      split_ifs <;> exact ih _ (by omega) _ _ _ rfl
    · simp only [hi, if_false]

theorem pruneBottom_eq_pruneGen (path : Path K) (size i : Nat) :
    pruneBottom path size i = pruneGen (fun q => decide (q.z < 0)) ⟨0, 0, 0⟩ path size i := by
  generalize hk : size - i = k
  induction k using Nat.strong_induction_on generalizing path size i with
  | _ k ih =>
    rw [pruneBottom, pruneGen]
    by_cases hi : i < size
    · simp only [hi, if_true, vertex, decide_eq_false_iff_not, not_lt, ge_iff_le]
      split_ifs <;> exact ih _ (by omega) _ _ _ rfl
    · simp only [hi, if_false]

end ClipGeneric

section CyclicLemmas

variable {α : Type}

theorem getD_insertIdx (l : List α) (k : Nat) (t d : α) (hk : k ≤ l.length) (j : Nat) :
    (l.insertIdx k t).getD j d =
      if j < k then l.getD j d else if j = k then t else l.getD (j - 1) d := by
  induction k generalizing l j with
  | zero =>
    cases j with
    | zero => simp
    | succ j => simp
  | succ k ih =>
    cases l with
    | nil => simp at hk
    | cons a l =>
      cases j with
      | zero => simp
      | succ j =>
        simp only [List.insertIdx_succ_cons, List.getD_cons_succ]
        rw [ih l (by simpa using hk) j]
        by_cases h1 : j < k
        · simp [h1]
        · by_cases h2 : j = k
          · simp [h2]
          · have h3 : ¬ (j + 1 < k + 1) := by omega
            have h4 : ¬ (j + 1 = k + 1) := by omega
            rw [if_neg h1, if_neg h2, if_neg h3, if_neg h4]
            cases j with
            | zero => omega
            | succ j => simp

theorem getD_eraseIdx (l : List α) (i : Nat) (d : α) (j : Nat) :
    (l.eraseIdx i).getD j d = if j < i then l.getD j d else l.getD (j + 1) d := by
  induction l generalizing i j with
  | nil => simp
  | cons a l ih =>
    cases i with
    | zero => simp
    | succ i =>
      cases j with
      | zero => simp
      | succ j =>
        simp only [List.eraseIdx_cons_succ, List.getD_cons_succ]
        rw [ih i j]
        simp

theorem getD_set (l : List α) (i : Nat) (t d : α) (j : Nat) :
    (l.set i t).getD j d = if j = i ∧ i < l.length then t else l.getD j d := by
  by_cases h : j = i
  · subst h
    by_cases h2 : j < l.length
    · simp only [h2, and_self, if_true]
      exact getD_set_self l j t d h2
    · simp only [h2, and_false, if_false]
      rw [List.getD_eq_default _ _ (by simpa using h2), List.getD_eq_default _ _ (by omega)]
  · simp only [h, false_and, if_false]
    exact getD_set_ne l i j t d (fun e => h e.symm)

theorem mem_of_mem_insertIdx (l : List α) (k : Nat) (t q : α) (h : q ∈ l.insertIdx k t) :
    q = t ∨ q ∈ l := by
  by_cases hk : k ≤ l.length
  · exact (List.mem_insertIdx hk).mp h
  · rw [List.insertIdx_of_length_lt _ _ _ (by omega)] at h
    exact Or.inr h

theorem mem_iff_getD (l : List α) (d q : α) : q ∈ l ↔ ∃ j, j < l.length ∧ l.getD j d = q := by
  constructor
  · intro h
    obtain ⟨j, hj, rfl⟩ := List.getElem_of_mem h
    exact ⟨j, hj, List.getD_eq_getElem _ _ hj⟩
  · rintro ⟨j, hj, rfl⟩
    rw [List.getD_eq_getElem _ _ hj]
    exact List.getElem_mem hj

end CyclicLemmas

section GoodLemmas

variable {α : Type}

theorem goodAt_insertIdx_of (W R : α → Bool) (d : α) (P : List α) (k : Nat) (t : α)
    (hk : k ≤ P.length) (ht : R t = false) (j : Nat) (hj : j < P.length)
    (h : W (P.getD j d) = true →
      (cyclicPrev (P.length + 1) (if j < k then j else j + 1) = k ∨
        R (P.getD (cyclicPrev P.length j) d) = false) ∧
      (cyclicNext (P.length + 1) (if j < k then j else j + 1) = k ∨
        R (P.getD (cyclicNext P.length j) d) = false)) :
    GoodAt W R d (P.insertIdx k t) (if j < k then j else j + 1) := by
  have key : ∀ idx, idx ≠ k →
      (P.insertIdx k t).getD idx d = P.getD (if idx < k then idx else idx - 1) d := by
    intro idx hne
    rw [getD_insertIdx P k t d hk idx]
    by_cases h1 : idx < k
    · simp [h1]
    · simp [h1, hne]
  have hself : (P.insertIdx k t).getD (if j < k then j else j + 1) d = P.getD j d := by
    rw [key _ (by split_ifs <;> omega)]
    congr 1
    split_ifs <;> omega
  have hp : cyclicPrev (P.length + 1) (if j < k then j else j + 1) ≠ k →
      (if cyclicPrev (P.length + 1) (if j < k then j else j + 1) < k
        then cyclicPrev (P.length + 1) (if j < k then j else j + 1)
        else cyclicPrev (P.length + 1) (if j < k then j else j + 1) - 1)
      = cyclicPrev P.length j := by
    simp only [cyclicPrev]
    split_ifs <;> omega
  have hn : cyclicNext (P.length + 1) (if j < k then j else j + 1) ≠ k →
      (if cyclicNext (P.length + 1) (if j < k then j else j + 1) < k
        then cyclicNext (P.length + 1) (if j < k then j else j + 1)
        else cyclicNext (P.length + 1) (if j < k then j else j + 1) - 1)
      = cyclicNext P.length j := by
    simp only [cyclicNext]
    split_ifs <;> omega
  unfold GoodAt
  rw [List.length_insertIdx _ _ hk, hself]
  intro hw
  obtain ⟨h1, h2⟩ := h hw
  constructor
  · by_cases e : cyclicPrev (P.length + 1) (if j < k then j else j + 1) = k
    · rw [e, getD_insertIdx P k t d hk k]
      simpa using ht
    · rw [key _ e, hp e]
      exact h1.resolve_left e
  · by_cases e : cyclicNext (P.length + 1) (if j < k then j else j + 1) = k
    · rw [e, getD_insertIdx P k t d hk k]
      simpa using ht
    · rw [key _ e, hn e]
      exact h2.resolve_left e

theorem goodAt_insertIdx (W R : α → Bool) (d : α) (P : List α) (k : Nat) (t : α)
    (hk : k ≤ P.length) (ht : R t = false) (j : Nat) (hj : j < P.length)
    (h : GoodAt W R d P j) :
    GoodAt W R d (P.insertIdx k t) (if j < k then j else j + 1) :=
  goodAt_insertIdx_of W R d P k t hk ht j hj
    (fun hw => ⟨Or.inr (h hw).1, Or.inr (h hw).2⟩)

theorem goodAt_insertIdx_self (W R : α → Bool) (d : α) (P : List α) (k : Nat) (t : α)
    (hk : k ≤ P.length) (ht : W t = false) : GoodAt W R d (P.insertIdx k t) k := by
  unfold GoodAt
  rw [getD_insertIdx P k t d hk k]
  simp [ht]

theorem goodAt_set (W R : α → Bool) (d : α) (P : List α) (i : Nat) (t : α)
    (hi : i < P.length) (hW : W t = false) (hR : R t = false) (j : Nat)
    (h : j ≠ i → GoodAt W R d P j) : GoodAt W R d (P.set i t) j := by
  unfold GoodAt
  rw [List.length_set]
  by_cases e : j = i
  · rw [getD_set, if_pos ⟨e, hi⟩, hW]
    intro hw
    exact absurd hw (by simp)
  · rw [getD_set, if_neg (fun hc => e hc.1)]
    intro hw
    obtain ⟨g1, g2⟩ := h e hw
    constructor
    · rw [getD_set]
      split_ifs
      · exact hR
      · exact g1
    · rw [getD_set]
      split_ifs
      · exact hR
      · exact g2

theorem goodAt_eraseIdx (W R : α → Bool) (d : α) (P : List α) (i : Nat) (hi : i < P.length)
    (hp : R (P.getD (cyclicPrev P.length i) d) = false)
    (hn : R (P.getD (cyclicNext P.length i) d) = false)
    (j : Nat) (hj : j < P.length) (hji : j ≠ i) (h : GoodAt W R d P j) :
    GoodAt W R d (P.eraseIdx i) (if j < i then j else j - 1) := by
  have hlen : (P.eraseIdx i).length = P.length - 1 := List.length_eraseIdx_of_lt hi
  have hself : (P.eraseIdx i).getD (if j < i then j else j - 1) d = P.getD j d := by
    rw [getD_eraseIdx]
    by_cases hlt : j < i
    · rw [if_pos hlt, if_pos hlt]
    · have h1 : ¬ (j - 1 < i) := by omega
      rw [if_neg hlt, if_neg h1]
      congr 1
      omega
  have hprev : (if cyclicPrev (P.length - 1) (if j < i then j else j - 1) < i
        then cyclicPrev (P.length - 1) (if j < i then j else j - 1)
        else cyclicPrev (P.length - 1) (if j < i then j else j - 1) + 1) = cyclicPrev P.length j ∨
      (if cyclicPrev (P.length - 1) (if j < i then j else j - 1) < i
        then cyclicPrev (P.length - 1) (if j < i then j else j - 1)
        else cyclicPrev (P.length - 1) (if j < i then j else j - 1) + 1) = cyclicPrev P.length i := by
    simp only [cyclicPrev]
    split_ifs <;> omega
  have hnext : (if cyclicNext (P.length - 1) (if j < i then j else j - 1) < i
        then cyclicNext (P.length - 1) (if j < i then j else j - 1)
        else cyclicNext (P.length - 1) (if j < i then j else j - 1) + 1) = cyclicNext P.length j ∨
      (if cyclicNext (P.length - 1) (if j < i then j else j - 1) < i
        then cyclicNext (P.length - 1) (if j < i then j else j - 1)
        else cyclicNext (P.length - 1) (if j < i then j else j - 1) + 1) = cyclicNext P.length i := by
    simp only [cyclicNext]
    split_ifs <;> omega
  unfold GoodAt
  rw [hlen, hself]
  intro hw
  obtain ⟨g1, g2⟩ := h hw
  have e1 : ∀ idx, (P.eraseIdx i).getD idx d = P.getD (if idx < i then idx else idx + 1) d := by
    intro idx
    rw [getD_eraseIdx]
    split_ifs <;> rfl
  constructor
  · rw [e1]
    rcases hprev with e | e
    · rw [e]; exact g1
    · rw [e]; exact hp
  · rw [e1]
    rcases hnext with e | e
    · rw [e]; exact g2
    · rw [e]; exact hn

end GoodLemmas

section InsertLoop

variable {α : Type}

theorem insertGen_done (W : α → Bool) (cross : α → α → α) (d : α) (P : List α) (size i : Nat)
    (hi : ¬ i < size) : insertGen W cross d P size i = P := by
  rw [insertGen, if_neg hi]

theorem insertGen_step (W : α → Bool) (cross : α → α → α) (d : α) (P : List α) (size i : Nat)
    (hi : i < size) :
    insertGen W cross d P size i =
      if W (P.getD i d) = true ∧ W (P.getD (cyclicPrev size i) d) = false ∧
          W (P.getD (cyclicNext size i) d) = false then
        insertGen W cross d
          ((P.set i (cross (P.getD (cyclicNext size i) d) (P.getD i d))).insertIdx i
            (cross (P.getD (cyclicPrev size i) d) (P.getD i d))) (size + 1) (i + 3)
      else if W (P.getD i d) = true ∧ W (P.getD (cyclicPrev size i) d) = false then
        insertGen W cross d
          (P.insertIdx i (cross (P.getD (cyclicPrev size i) d) (P.getD i d))) (size + 1) (i + 2)
      else if W (P.getD i d) = true ∧ W (P.getD (cyclicNext size i) d) = false then
        insertGen W cross d
          (P.insertIdx (cyclicNext size i) (cross (P.getD (cyclicNext size i) d) (P.getD i d)))
          (size + 1) (i + 2)
      else insertGen W cross d P size (i + 1) := by
  rw [insertGen, if_pos hi]
  rfl

theorem bool_true_of_not_false {b : Bool} (h : ¬ b = false) : b = true := by
  cases b
  · exact absurd rfl h
  · rfl

/-- After the insertion loop no vertex on the wrong side has a neighbour strictly
inside the target hemisphere. -/
theorem insertGen_good (W R : α → Bool) (cross : α → α → α) (d : α)
    (hWR : ∀ q, W q = true → R q = false)
    (hcW : ∀ a b, W (cross a b) = false) (hcR : ∀ a b, R (cross a b) = false) :
    ∀ (k : Nat) (P : List α) (size i : Nat), size - i = k → size = P.length →
      (∀ j, j < P.length → j < i → GoodAt W R d P j) →
      ∀ j, j < (insertGen W cross d P size i).length →
        GoodAt W R d (insertGen W cross d P size i) j := by
  intro k
  induction k using Nat.strong_induction_on with
  | _ k ih =>
    intro P size i hk hs hinv
    by_cases hi : i < size
    · rw [insertGen_step W cross d P size i hi]
      have hiL : i < P.length := by omega
      subst hs
      by_cases hA : W (P.getD i d) = true ∧ W (P.getD (cyclicPrev P.length i) d) = false ∧
          W (P.getD (cyclicNext P.length i) d) = false
      · rw [if_pos hA]
        have hlen1 : (P.set i (cross (P.getD (cyclicNext P.length i) d) (P.getD i d))).length
            = P.length := List.length_set _ _ _
        refine ih _ (by omega) _ _ _ rfl
          (by rw [List.length_insertIdx _ _ (by rw [hlen1]; omega), hlen1]) ?_
        intro j' hj' hj'i
        rw [List.length_insertIdx _ _ (by rw [hlen1]; omega), hlen1] at hj'
        by_cases e : j' = i
        · rw [e]
          exact goodAt_insertIdx_self W R d _ i _ (by rw [hlen1]; omega) (hcW _ _)
        · have hj : (if j' < i then j' else j' - 1) < P.length := by split_ifs <;> omega
          have hg := goodAt_insertIdx W R d
            (P.set i (cross (P.getD (cyclicNext P.length i) d) (P.getD i d))) i
            (cross (P.getD (cyclicPrev P.length i) d) (P.getD i d))
            (by rw [hlen1]; omega) (hcR _ _) (if j' < i then j' else j' - 1)
            (by rw [hlen1]; exact hj)
            (goodAt_set W R d P i _ hiL (hcW _ _) (hcR _ _) _ (fun hne => by
              by_cases hlt : j' < i
              · rw [if_pos hlt]
                exact hinv j' (by omega) hlt
              · rw [if_neg hlt] at hne ⊢
                have e2 : j' - 1 = cyclicNext P.length i := by
                  simp only [cyclicNext]
                  split_ifs <;> omega
                rw [e2]
                intro hw
                rw [hA.2.2] at hw
                exact absurd hw (by simp)))
          have e3 : (if (if j' < i then j' else j' - 1) < i
              then (if j' < i then j' else j' - 1)
              else (if j' < i then j' else j' - 1) + 1) = j' := by
            split_ifs <;> omega
          rw [e3] at hg
          exact hg
      · rw [if_neg hA]
        by_cases hB : W (P.getD i d) = true ∧ W (P.getD (cyclicPrev P.length i) d) = false
        · rw [if_pos hB]
          have hWn : W (P.getD (cyclicNext P.length i) d) = true :=
            bool_true_of_not_false (fun hc => hA ⟨hB.1, hB.2, hc⟩)
          refine ih _ (by omega) _ _ _ rfl
            (by rw [List.length_insertIdx _ _ (by omega)]) ?_
          intro j' hj' hj'i
          rw [List.length_insertIdx _ _ (by omega)] at hj'
          by_cases e : j' = i
          · rw [e]
            exact goodAt_insertIdx_self W R d _ i _ (by omega) (hcW _ _)
          · have hj : (if j' < i then j' else j' - 1) < P.length := by split_ifs <;> omega
            have hg := goodAt_insertIdx_of W R d P i
              (cross (P.getD (cyclicPrev P.length i) d) (P.getD i d))
              (by omega) (hcR _ _) (if j' < i then j' else j' - 1) hj
              (fun hw => by
                by_cases hlt : j' < i
                · simp only [hlt, if_true] at hw ⊢
                  have := hinv j' (by omega) hlt hw
                  exact ⟨Or.inr this.1, Or.inr this.2⟩
                · have e2 : j' - 1 = i := by omega
                  simp only [hlt, if_false, e2, lt_irrefl]
                  refine ⟨Or.inl ?_, Or.inr (hWR _ hWn)⟩
                  simp [cyclicPrev])
            have e3 : (if (if j' < i then j' else j' - 1) < i
                then (if j' < i then j' else j' - 1)
                else (if j' < i then j' else j' - 1) + 1) = j' := by
              split_ifs <;> omega
            rw [e3] at hg
            exact hg
        · rw [if_neg hB]
          by_cases hC : W (P.getD i d) = true ∧ W (P.getD (cyclicNext P.length i) d) = false
          · rw [if_pos hC]
            have hWp : W (P.getD (cyclicPrev P.length i) d) = true :=
              bool_true_of_not_false (fun hc => hB ⟨hC.1, hc⟩)
            have hn : cyclicNext P.length i ≤ P.length := by
              simp only [cyclicNext]
              split_ifs <;> omega
            refine ih _ (by omega) _ _ _ rfl
              (by rw [List.length_insertIdx _ _ hn]) ?_
            intro j' hj' hj'i
            rw [List.length_insertIdx _ _ hn] at hj'
            by_cases e : j' = cyclicNext P.length i
            · rw [e]
              exact goodAt_insertIdx_self W R d _ _ _ hn (hcW _ _)
            · have hj : (if j' < cyclicNext P.length i then j' else j' - 1) < P.length := by
                simp only [cyclicNext] at e ⊢
                split_ifs at e ⊢ <;> omega
              have hg := goodAt_insertIdx_of W R d P (cyclicNext P.length i)
                (cross (P.getD (cyclicNext P.length i) d) (P.getD i d))
                hn (hcR _ _) (if j' < cyclicNext P.length i then j' else j' - 1) hj
                (fun hw => by
                  by_cases hlt : (if j' < cyclicNext P.length i then j' else j' - 1) < i
                  · have := hinv _ hj hlt hw
                    exact ⟨Or.inr this.1, Or.inr this.2⟩
                  · have e2 : (if j' < cyclicNext P.length i then j' else j' - 1) = i := by
                      simp only [cyclicNext] at e hlt ⊢
                      split_ifs at e hlt ⊢ <;> omega
                    rw [e2]
                    refine ⟨Or.inr (hWR _ hWp), Or.inl ?_⟩
                    simp only [cyclicNext]
                    split_ifs <;> omega)
              have e3 : (if (if j' < cyclicNext P.length i then j' else j' - 1)
                    < cyclicNext P.length i
                  then (if j' < cyclicNext P.length i then j' else j' - 1)
                  else (if j' < cyclicNext P.length i then j' else j' - 1) + 1) = j' := by
                split_ifs <;> omega
              rw [e3] at hg
              exact hg
          · rw [if_neg hC]
            refine ih _ (by omega) _ _ _ rfl rfl ?_
            intro j hj hji
            by_cases hlt : j < i
            · exact hinv j hj hlt
            · have e : j = i := by omega
              subst e
              intro hw
              exact ⟨hWR _ (bool_true_of_not_false (fun hc => hB ⟨hw, hc⟩)),
                hWR _ (bool_true_of_not_false (fun hc => hC ⟨hw, hc⟩))⟩
    · rw [insertGen_done W cross d P size i hi]
      intro j hj
      exact hinv j hj (by omega)

end InsertLoop

section PruneLoop

variable {α : Type}

theorem pruneGen_done (R : α → Bool) (d : α) (P : List α) (size i : Nat)
    (hi : ¬ i < size) : pruneGen R d P size i = P := by
  rw [pruneGen, if_neg hi]

theorem pruneGen_step (R : α → Bool) (d : α) (P : List α) (size i : Nat) (hi : i < size) :
    pruneGen R d P size i =
      if R (P.getD i d) = false ∧ R (P.getD (cyclicPrev size i) d) = false ∧
          R (P.getD (cyclicNext size i) d) = false then
        pruneGen R d (P.eraseIdx i) (size - 1) i
      else pruneGen R d P size (i + 1) := by
  rw [pruneGen, if_pos hi]
  rfl

/-- The pruning loop removes every vertex on the wrong side from a path in which
none of them has a neighbour strictly inside the target hemisphere. -/
theorem pruneGen_clean (W R : α → Bool) (d : α) (hWR : ∀ q, W q = true → R q = false) :
    ∀ (k : Nat) (P : List α) (size i : Nat), size - i = k → size = P.length →
      (∀ j, j < P.length → GoodAt W R d P j) →
      (∀ j, j < P.length → j < i → W (P.getD j d) = false) →
      ∀ q, q ∈ pruneGen R d P size i → W q = false := by
  intro k
  induction k using Nat.strong_induction_on with
  | _ k ih =>
    intro P size i hk hs hgood hclean
    by_cases hi : i < size
    · rw [pruneGen_step R d P size i hi]
      subst hs
      by_cases hE : R (P.getD i d) = false ∧ R (P.getD (cyclicPrev P.length i) d) = false ∧
          R (P.getD (cyclicNext P.length i) d) = false
      · rw [if_pos hE]
        have hlen : (P.eraseIdx i).length = P.length - 1 := List.length_eraseIdx_of_lt hi
        refine ih _ (by omega) _ _ _ rfl hlen.symm ?_ ?_
        · intro j' hj'
          rw [hlen] at hj'
          have hg := goodAt_eraseIdx W R d P i hi hE.2.1 hE.2.2
            (if j' < i then j' else j' + 1) (by split_ifs <;> omega) (by split_ifs <;> omega)
            (hgood _ (by split_ifs <;> omega))
          have e : (if (if j' < i then j' else j' + 1) < i
              then (if j' < i then j' else j' + 1)
              else (if j' < i then j' else j' + 1) - 1) = j' := by
            split_ifs <;> omega
          rw [e] at hg
          exact hg
        · intro j' hj' hj'i
          rw [getD_eraseIdx, if_pos hj'i]
          exact hclean j' (by omega) hj'i
      · rw [if_neg hE]
        refine ih _ (by omega) _ _ _ rfl rfl hgood ?_
        intro j hj hji
        by_cases hlt : j < i
        · exact hclean j hj hlt
        · have e : j = i := by omega
          subst e
          by_contra hw
          have hw' := bool_true_of_not_false hw
          exact hE ⟨hWR _ hw', hgood j hj hw'⟩
    · rw [pruneGen_done R d P size i hi]
      intro q hq
      obtain ⟨j, hj, rfl⟩ := (mem_iff_getD P d q).mp hq
      exact hclean j hj (by omega)

theorem pruneGen_subset (R : α → Bool) (d : α) :
    ∀ (k : Nat) (P : List α) (size i : Nat), size - i = k →
      ∀ q, q ∈ pruneGen R d P size i → q ∈ P := by
  intro k
  induction k using Nat.strong_induction_on with
  | _ k ih =>
    intro P size i hk q hq
    by_cases hi : i < size
    · rw [pruneGen_step R d P size i hi] at hq
      split_ifs at hq
      · exact List.mem_of_mem_eraseIdx (ih _ (by omega) _ _ _ rfl q hq)
      · exact ih _ (by omega) _ _ _ rfl q hq
    · rw [pruneGen_done R d P size i hi] at hq
      exact hq

/-- Every vertex the insertion loop leaves in the path is a vertex of the path
it started from or an inserted crossing point. -/
theorem insertGen_mem (W : α → Bool) (cross : α → α → α) (d : α) :
    ∀ (k : Nat) (P : List α) (size i : Nat), size - i = k →
      ∀ q, q ∈ insertGen W cross d P size i → q ∈ P ∨ ∃ a b, q = cross a b := by
  intro k
  induction k using Nat.strong_induction_on with
  | _ k ih =>
    intro P size i hk q hq
    by_cases hi : i < size
    · rw [insertGen_step W cross d P size i hi] at hq
      split_ifs at hq
      · rcases ih _ (by omega) _ _ _ rfl q hq with h | h
        · rcases mem_of_mem_insertIdx _ _ _ _ h with h | h
          · exact Or.inr ⟨_, _, h⟩
          · rcases List.mem_or_eq_of_mem_set h with h | h
            · exact Or.inl h
            · exact Or.inr ⟨_, _, h⟩
        · exact Or.inr h
      · rcases ih _ (by omega) _ _ _ rfl q hq with h | h
        · rcases mem_of_mem_insertIdx _ _ _ _ h with h | h
          · exact Or.inr ⟨_, _, h⟩
          · exact Or.inl h
        · exact Or.inr h
      · rcases ih _ (by omega) _ _ _ rfl q hq with h | h
        · rcases mem_of_mem_insertIdx _ _ _ _ h with h | h
          · exact Or.inr ⟨_, _, h⟩
          · exact Or.inl h
        · exact Or.inr h
      · exact ih _ (by omega) _ _ _ rfl q hq
    · rw [insertGen_done W cross d P size i hi] at hq
      exact Or.inl hq

theorem insertGen_length_pos (W : α → Bool) (cross : α → α → α) (d : α) :
    ∀ (k : Nat) (P : List α) (size i : Nat), size - i = k → size = P.length →
      P.length ≤ (insertGen W cross d P size i).length := by
  intro k
  induction k using Nat.strong_induction_on with
  | _ k ih =>
    intro P size i hk hs
    by_cases hi : i < size
    · rw [insertGen_step W cross d P size i hi]
      subst hs
      have hn : cyclicNext P.length i ≤ P.length := by
        simp only [cyclicNext]
        split_ifs <;> omega
      split_ifs
      · refine le_trans ?_ (ih _ (by omega) _ _ _ rfl ?_)
        · rw [List.length_insertIdx _ _ (by rw [List.length_set]; omega), List.length_set]
          omega
        · rw [List.length_insertIdx _ _ (by rw [List.length_set]; omega), List.length_set]
      · refine le_trans ?_ (ih _ (by omega) _ _ _ rfl ?_)
        · rw [List.length_insertIdx _ _ (by omega)]
          omega
        · rw [List.length_insertIdx _ _ (by omega)]
      · refine le_trans ?_ (ih _ (by omega) _ _ _ rfl ?_)
        · rw [List.length_insertIdx _ _ hn]
          omega
        · rw [List.length_insertIdx _ _ hn]
      · exact ih _ (by omega) _ _ _ rfl rfl
    · rw [insertGen_done W cross d P size i hi]

end PruneLoop

section FilterPathLemmas

variable {K : Type} [LinearOrderedField K]

theorem normalize_z (sqrt : K → K) (p : Point K) (h : p.z = 0) : (p.normalize sqrt).z = 0 := by
  show p.z * (1 / p.length sqrt) = 0
  rw [h, zero_mul]

theorem crossTop_z (sqrt : K → K) (a b : Point K) : (crossTop sqrt a b).z = 0 :=
  normalize_z sqrt _ rfl

theorem crossBottom_z (sqrt : K → K) (a b : Point K) : (crossBottom sqrt a b).z = 0 :=
  normalize_z sqrt _ rfl

/-- The two loops of the top branch leave no vertex below the equator. -/
theorem top_loops_clean (sqrt : K → K) (path : Path K) :
    ∀ q, q ∈ pruneTop (insertTop sqrt path path.length 0)
      (insertTop sqrt path path.length 0).length 0 → 0 ≤ q.z := by
  intro q hq
  rw [pruneTop_eq_pruneGen, insertTop_eq_insertGen] at hq
  have hWR : ∀ q : Point K, (fun q : Point K => decide (q.z < 0)) q = true →
      (fun q : Point K => decide (q.z > 0)) q = false := by
    intro q h
    simp only [decide_eq_true_eq, decide_eq_false_iff_not, not_lt] at h ⊢
    exact le_of_lt h
  have hgood := insertGen_good (fun q : Point K => decide (q.z < 0))
    (fun q : Point K => decide (q.z > 0)) (crossTop sqrt) ⟨0, 0, 0⟩ hWR
    (fun a b => by simp [crossTop_z]) (fun a b => by simp [crossTop_z])
    _ path path.length 0 rfl rfl (fun j _ hj => absurd hj (Nat.not_lt_zero j))
  have := pruneGen_clean (fun q : Point K => decide (q.z < 0))
    (fun q : Point K => decide (q.z > 0)) ⟨0, 0, 0⟩ hWR _ _ _ 0 rfl rfl hgood
    (fun j _ hj => absurd hj (Nat.not_lt_zero j)) q hq
  simpa using this

/-- The two loops of the bottom branch leave no vertex above the equator. -/
theorem bottom_loops_clean (sqrt : K → K) (path : Path K) :
    ∀ q, q ∈ pruneBottom (insertBottom sqrt path path.length 0)
      (insertBottom sqrt path path.length 0).length 0 → q.z ≤ 0 := by
  intro q hq
  rw [pruneBottom_eq_pruneGen, insertBottom_eq_insertGen] at hq
  have hWR : ∀ q : Point K, (fun q : Point K => decide (q.z > 0)) q = true →
      (fun q : Point K => decide (q.z < 0)) q = false := by
    intro q h
    simp only [decide_eq_true_eq, decide_eq_false_iff_not, not_lt, gt_iff_lt] at h ⊢
    exact le_of_lt h
  have hgood := insertGen_good (fun q : Point K => decide (q.z > 0))
    (fun q : Point K => decide (q.z < 0)) (crossBottom sqrt) ⟨0, 0, 0⟩ hWR
    (fun a b => by simp [crossBottom_z]) (fun a b => by simp [crossBottom_z])
    _ path path.length 0 rfl rfl (fun j _ hj => absurd hj (Nat.not_lt_zero j))
  have := pruneGen_clean (fun q : Point K => decide (q.z > 0))
    (fun q : Point K => decide (q.z < 0)) ⟨0, 0, 0⟩ hWR _ _ _ 0 rfl rfl hgood
    (fun j _ hj => absurd hj (Nat.not_lt_zero j)) q hq
  simpa using this

theorem top_loops_mem (sqrt : K → K) (path : Path K) :
    ∀ q, q ∈ pruneTop (insertTop sqrt path path.length 0)
      (insertTop sqrt path path.length 0).length 0 →
      q ∈ path ∨ ∃ a b, q = crossTop sqrt a b := by
  intro q hq
  rw [pruneTop_eq_pruneGen, insertTop_eq_insertGen] at hq
  exact insertGen_mem _ _ _ _ _ _ _ rfl q (pruneGen_subset _ _ _ _ _ _ rfl q hq)

theorem bottom_loops_mem (sqrt : K → K) (path : Path K) :
    ∀ q, q ∈ pruneBottom (insertBottom sqrt path path.length 0)
      (insertBottom sqrt path path.length 0).length 0 →
      q ∈ path ∨ ∃ a b, q = crossBottom sqrt a b := by
  intro q hq
  rw [pruneBottom_eq_pruneGen, insertBottom_eq_insertGen] at hq
  exact insertGen_mem _ _ _ _ _ _ _ rfl q (pruneGen_subset _ _ _ _ _ _ rfl q hq)

/-- Every vertex of the output of `filterPath` is an input vertex or a crossing
point. -/
theorem filterPath_mem (sqrt : K → K) (path : Path K) (top : Bool) :
    ∀ q, q ∈ filterPath sqrt path top →
      q ∈ path ∨ ∃ a b, q = crossTop sqrt a b ∨ q = crossBottom sqrt a b := by
  intro q hq
  unfold filterPath at hq
  cases top with
  | true =>
    simp only [if_true] at hq
    split_ifs at hq
    · simp at hq
    · rcases top_loops_mem sqrt path q hq with h | ⟨a, b, h⟩
      · exact Or.inl h
      · exact Or.inr ⟨a, b, Or.inl h⟩
  | false =>
    simp only [Bool.false_eq_true, if_false] at hq
    split_ifs at hq
    · simp at hq
    · rcases bottom_loops_mem sqrt path q hq with h | ⟨a, b, h⟩
      · exact Or.inl h
      · exact Or.inr ⟨a, b, Or.inr h⟩

/-- C5: for every input path of at least 3 vertices with a vertex of `z > 0` and
a vertex of `z < 0`, every vertex of `filterPath(path, top = true)` has `z ≥ 0`,
every vertex of `filterPath(path, top = false)` has `z ≤ 0`, and every output
vertex that is not an input vertex has `z` exactly `0`. -/
theorem filterPath_hemisphere (sqrt : K → K) (path : Path K) (h3 : 3 ≤ path.length)
    (hpos : ∃ q ∈ path, q.z > 0) (hneg : ∃ q ∈ path, q.z < 0) :
    (∀ q ∈ filterPath sqrt path true, q.z ≥ 0) ∧
    (∀ q ∈ filterPath sqrt path false, q.z ≤ 0) ∧
    (∀ top, ∀ q ∈ filterPath sqrt path top, q ∉ path → q.z = 0) := by
  refine ⟨fun q hq => ?_, fun q hq => ?_, fun top q hq hnot => ?_⟩
  · unfold filterPath at hq
    simp only [if_true] at hq
    split_ifs at hq
    · simp at hq
    · exact top_loops_clean sqrt path q hq
  · unfold filterPath at hq
    simp only [Bool.false_eq_true, if_false] at hq
    split_ifs at hq
    · simp at hq
    · exact bottom_loops_clean sqrt path q hq
  · rcases filterPath_mem sqrt path top q hq with h | ⟨a, b, h | h⟩
    · exact absurd h hnot
    · rw [h]; exact crossTop_z sqrt a b
    · rw [h]; exact crossBottom_z sqrt a b

end FilterPathLemmas

section FilterPathClaims

variable {K : Type} [LinearOrderedField K]

theorem insertGen_noop {α : Type} (W : α → Bool) (cross : α → α → α) (d : α) :
    ∀ (k : Nat) (P : List α) (size i : Nat), size - i = k → size = P.length →
      (∀ q ∈ P, W q = false) → insertGen W cross d P size i = P := by
  intro k
  induction k using Nat.strong_induction_on with
  | _ k ih =>
    intro P size i hk hs hall
    by_cases hi : i < size
    · have hw : W (P.getD i d) = false :=
        hall _ ((mem_iff_getD P d _).mpr ⟨i, by omega, rfl⟩)
      rw [insertGen_step W cross d P size i hi]
      simp only [hw, Bool.false_eq_true, false_and, if_false]
      exact ih _ (by omega) _ _ _ rfl hs hall
    · exact insertGen_done W cross d P size i hi

theorem pruneGen_noop {α : Type} (R : α → Bool) (d : α) :
    ∀ (k : Nat) (P : List α) (size i : Nat), size - i = k → size = P.length →
      (∀ q ∈ P, R q = true) → pruneGen R d P size i = P := by
  intro k
  induction k using Nat.strong_induction_on with
  | _ k ih =>
    intro P size i hk hs hall
    by_cases hi : i < size
    · have hw : R (P.getD i d) = true :=
        hall _ ((mem_iff_getD P d _).mpr ⟨i, by omega, rfl⟩)
      rw [pruneGen_step R d P size i hi]
      simp only [hw, Bool.true_eq_false, false_and, if_false]
      exact ih _ (by omega) _ _ _ rfl hs hall
    · exact pruneGen_done R d P size i hi

/-- C6: for every polygon (a path of at least 3 vertices) whose vertices all have
`z > 0`, `filterPath(path, top = true)` returns the path unchanged and
`filterPath(path, top = false)` returns the empty path. -/
theorem filterPath_all_above (sqrt : K → K) (path : Path K) (h3 : 3 ≤ path.length)
    (hall : ∀ q ∈ path, q.z > 0) :
    filterPath sqrt path true = path ∧ filterPath sqrt path false = [] := by
  have hne : path ≠ [] := by
    intro e
    rw [e] at h3
    simp at h3
  obtain ⟨q0, hq0⟩ := List.exists_mem_of_ne_nil path hne
  have hvt : validTop path = true := by
    unfold validTop
    rw [List.any_eq_true]
    exact ⟨q0, hq0, by simpa using hall q0 hq0⟩
  have hvb : validBottom path = false := by
    unfold validBottom
    rw [List.any_eq_false]
    intro q hq
    simpa using le_of_lt (hall q hq)
  constructor
  · unfold filterPath
    have hlt : ¬ path.length < 3 := by omega
    simp only [if_true, hvt, Bool.not_true, Bool.false_or, decide_eq_true_eq, hlt, if_false]
    rw [insertTop_eq_insertGen,
      insertGen_noop _ _ _ _ path path.length 0 rfl rfl
        (fun q hq => by simpa using le_of_lt (hall q hq)),
      pruneTop_eq_pruneGen,
      pruneGen_noop _ _ _ path path.length 0 rfl rfl (fun q hq => by simpa using hall q hq)]
  · unfold filterPath
    simp [hvb]

/-- C7: `filterPath` returns the empty path whenever the input has fewer than 3
vertices or has no vertex strictly inside the target hemisphere (no vertex with
`z > 0` for the top, none with `z < 0` for the bottom). -/
theorem filterPath_invalid_empty (sqrt : K → K) (path : Path K) (top : Bool)
    (h : path.length < 3 ∨
      (top = true ∧ ∀ q ∈ path, ¬ q.z > 0) ∨ (top = false ∧ ∀ q ∈ path, ¬ q.z < 0)) :
    filterPath sqrt path top = [] := by
  unfold filterPath
  rcases h with h | ⟨ht, h⟩ | ⟨ht, h⟩
  · cases top <;> simp [h]
  · have hv : validTop path = false := by
      unfold validTop
      rw [List.any_eq_false]
      intro q hq
      simpa using h q hq
    simp [ht, hv]
  · have hv : validBottom path = false := by
      unfold validBottom
      rw [List.any_eq_false]
      intro q hq
      simpa using h q hq
    simp [ht, hv]

end FilterPathClaims

section PointLemmas

variable {K : Type} [LinearOrderedField K]

theorem Point.sub_def (a b : Point K) : a - b = ⟨a.x - b.x, a.y - b.y, a.z - b.z⟩ := rfl

theorem Point.add_def (a b : Point K) : a + b = ⟨a.x + b.x, a.y + b.y, a.z + b.z⟩ := rfl

theorem Point.mul_def (a : Point K) (t : K) : a * t = ⟨a.x * t, a.y * t, a.z * t⟩ := rfl

end PointLemmas

section Antipodal

theorem antipodal_eval :
    filterPath Real.sqrt ([⟨0, 0, 1⟩, ⟨0, 0, -1⟩, ⟨1, 0, 0⟩] : Path ℝ) true =
      [⟨0, 0, 1⟩, ⟨0, 0, 0⟩, ⟨1, 0, 0⟩] := by
  have c1 : crossTop Real.sqrt (⟨0, 0, 1⟩ : Point ℝ) ⟨0, 0, -1⟩ = ⟨0, 0, 0⟩ := by
    norm_num [crossTop, Point.normalize, Point.length, Point.setZ0, Point.sub_def,
      Point.add_def, Point.mul_def]
  have c2 : crossTop Real.sqrt (⟨1, 0, 0⟩ : Point ℝ) ⟨0, 0, -1⟩ = ⟨1, 0, 0⟩ := by
    norm_num [crossTop, Point.normalize, Point.length, Point.setZ0, Point.sub_def,
      Point.add_def, Point.mul_def]
  have hv : validTop ([⟨0, 0, 1⟩, ⟨0, 0, -1⟩, ⟨1, 0, 0⟩] : Path ℝ) = true := by
    simp [validTop]
  unfold filterPath
  simp only [if_true, hv, Bool.not_true, Bool.false_or, List.length_cons, List.length_nil]
  norm_num
  rw [insertTop]
  norm_num [vertex]
  rw [insertTop]
  norm_num [vertex, c1, c2]
  rw [insertTop]
  norm_num [vertex, List.insertIdx]
  rw [pruneTop]
  norm_num [vertex]
  rw [pruneTop]
  norm_num [vertex]
  rw [pruneTop]
  norm_num [vertex]
  rw [pruneTop]
  norm_num [vertex]
  rw [pruneTop]
  norm_num

/-- C8, as stated, fails: the unit path `(0,0,1), (0,0,-1), (1,0,0)` has an edge
between two antipodal vertices, whose crossing interpolates to the zero vector;
the normalized crossing point is emitted into the top path, where it is not of
unit length, instead of being discarded. -/
theorem antipodal_crossing_emitted :
    (∀ q ∈ ([⟨0, 0, 1⟩, ⟨0, 0, -1⟩, ⟨1, 0, 0⟩] : Path ℝ), q.unitLength) ∧
    crossTop Real.sqrt (⟨0, 0, 1⟩ : Point ℝ) ⟨0, 0, -1⟩ ∈
      filterPath Real.sqrt ([⟨0, 0, 1⟩, ⟨0, 0, -1⟩, ⟨1, 0, 0⟩] : Path ℝ) true ∧
    ¬ (crossTop Real.sqrt (⟨0, 0, 1⟩ : Point ℝ) ⟨0, 0, -1⟩).unitLength := by
  have c1 : crossTop Real.sqrt (⟨0, 0, 1⟩ : Point ℝ) ⟨0, 0, -1⟩ = ⟨0, 0, 0⟩ := by
    norm_num [crossTop, Point.normalize, Point.length, Point.setZ0, Point.sub_def,
      Point.add_def, Point.mul_def]
  rw [antipodal_eval, c1]
  refine ⟨?_, by simp, by simp [Point.unitLength]⟩
  intro q hq
  simp only [List.mem_cons, List.mem_singleton, List.not_mem_nil, or_false] at hq
  rcases hq with rfl | rfl | rfl <;> simp [Point.unitLength]

end Antipodal

section UnitLengthLemmas

variable {K : Type} [LinearOrderedField K]

theorem normalize_unit_or_zero (sqrt : K → K) (hsqrt : ∀ x, 0 ≤ x → sqrt x * sqrt x = x)
    (p : Point K) : (p.normalize sqrt).unitLength ∨ p.normalize sqrt = ⟨0, 0, 0⟩ := by
  have hs : 0 ≤ p.x * p.x + p.y * p.y + p.z * p.z := by
    have h1 := mul_self_nonneg p.x
    have h2 := mul_self_nonneg p.y
    have h3 := mul_self_nonneg p.z
    linarith
  have hr := hsqrt _ hs
  by_cases h0 : sqrt (p.x * p.x + p.y * p.y + p.z * p.z) = 0
  · right
    simp [Point.normalize, Point.length, Point.mul_def, h0]
  · left
    simp only [Point.unitLength, Point.normalize, Point.length, Point.mul_def]
    generalize sqrt (p.x * p.x + p.y * p.y + p.z * p.z) = r at hr h0
    field_simp
    ring_nf
    ring_nf at hr
    linarith

/-- C8, amended: for every input path whose vertices all have unit length, every
vertex of the path returned by `filterPath` (either hemisphere) has unit Euclidean
length or is the zero vector: a crossing point is emitted whatever the length of
its linear interpolation, and normalizing an interpolation of zero length leaves
the zero vector in the path (nothing is discarded). -/
theorem filterPath_unit_or_zero (sqrt : K → K) (hsqrt : ∀ x, 0 ≤ x → sqrt x * sqrt x = x)
    (path : Path K) (hunit : ∀ q ∈ path, q.unitLength) (top : Bool) :
    ∀ q ∈ filterPath sqrt path top, q.unitLength ∨ q = ⟨0, 0, 0⟩ := by
  intro q hq
  rcases filterPath_mem sqrt path top q hq with h | ⟨a, b, h | h⟩
  · exact Or.inl (hunit q h)
  · rw [h]
    exact normalize_unit_or_zero sqrt hsqrt _
  · rw [h]
    exact normalize_unit_or_zero sqrt hsqrt _

end UnitLengthLemmas

section FilterPathWitnesses

/-- Witness of C5 on a real path that straddles the equator. -/
theorem filterPath_hemisphere_witness :
    3 ≤ ([⟨0, 0, 1⟩, ⟨0, 0, -1⟩, ⟨1, 0, 0⟩] : Path ℝ).length ∧
    (∃ q ∈ ([⟨0, 0, 1⟩, ⟨0, 0, -1⟩, ⟨1, 0, 0⟩] : Path ℝ), q.z > 0) ∧
    (∃ q ∈ ([⟨0, 0, 1⟩, ⟨0, 0, -1⟩, ⟨1, 0, 0⟩] : Path ℝ), q.z < 0) ∧
    ((∀ q ∈ filterPath Real.sqrt ([⟨0, 0, 1⟩, ⟨0, 0, -1⟩, ⟨1, 0, 0⟩] : Path ℝ) true, q.z ≥ 0) ∧
    (∀ q ∈ filterPath Real.sqrt ([⟨0, 0, 1⟩, ⟨0, 0, -1⟩, ⟨1, 0, 0⟩] : Path ℝ) false, q.z ≤ 0) ∧
    (∀ top, ∀ q ∈ filterPath Real.sqrt ([⟨0, 0, 1⟩, ⟨0, 0, -1⟩, ⟨1, 0, 0⟩] : Path ℝ) top,
      q ∉ ([⟨0, 0, 1⟩, ⟨0, 0, -1⟩, ⟨1, 0, 0⟩] : Path ℝ) → q.z = 0)) :=
  ⟨by simp, ⟨⟨0, 0, 1⟩, by simp, by norm_num⟩, ⟨⟨0, 0, -1⟩, by simp, by norm_num⟩,
    filterPath_hemisphere Real.sqrt [⟨0, 0, 1⟩, ⟨0, 0, -1⟩, ⟨1, 0, 0⟩] (by simp)
      ⟨⟨0, 0, 1⟩, by simp, by norm_num⟩ ⟨⟨0, 0, -1⟩, by simp, by norm_num⟩⟩

/-- Witness of C6 on a real triangle above the equator. -/
theorem filterPath_all_above_witness :
    3 ≤ ([⟨0, 0, 1⟩, ⟨3 / 5, 0, 4 / 5⟩, ⟨0, 3 / 5, 4 / 5⟩] : Path ℝ).length ∧
    (∀ q ∈ ([⟨0, 0, 1⟩, ⟨3 / 5, 0, 4 / 5⟩, ⟨0, 3 / 5, 4 / 5⟩] : Path ℝ), q.z > 0) ∧
    filterPath Real.sqrt ([⟨0, 0, 1⟩, ⟨3 / 5, 0, 4 / 5⟩, ⟨0, 3 / 5, 4 / 5⟩] : Path ℝ) true
      = [⟨0, 0, 1⟩, ⟨3 / 5, 0, 4 / 5⟩, ⟨0, 3 / 5, 4 / 5⟩] ∧
    filterPath Real.sqrt ([⟨0, 0, 1⟩, ⟨3 / 5, 0, 4 / 5⟩, ⟨0, 3 / 5, 4 / 5⟩] : Path ℝ) false
      = [] :=
  ⟨by simp, by norm_num,
    filterPath_all_above Real.sqrt [⟨0, 0, 1⟩, ⟨3 / 5, 0, 4 / 5⟩, ⟨0, 3 / 5, 4 / 5⟩] (by simp)
      (by norm_num)⟩

/-- Witness of C7 on a real path of two vertices. -/
theorem filterPath_invalid_empty_witness :
    (([⟨0, 0, 1⟩, ⟨1, 0, 0⟩] : Path ℝ).length < 3 ∨
      (true = true ∧ ∀ q ∈ ([⟨0, 0, 1⟩, ⟨1, 0, 0⟩] : Path ℝ), ¬ q.z > 0) ∨
      (true = false ∧ ∀ q ∈ ([⟨0, 0, 1⟩, ⟨1, 0, 0⟩] : Path ℝ), ¬ q.z < 0)) ∧
    filterPath Real.sqrt ([⟨0, 0, 1⟩, ⟨1, 0, 0⟩] : Path ℝ) true = [] :=
  ⟨Or.inl (by simp),
    filterPath_invalid_empty Real.sqrt [⟨0, 0, 1⟩, ⟨1, 0, 0⟩] true (Or.inl (by simp))⟩

/-- Witness of C8 (amended) on the real path with two antipodal vertices. -/
theorem filterPath_unit_or_zero_witness :
    (∀ x : ℝ, 0 ≤ x → Real.sqrt x * Real.sqrt x = x) ∧
    (∀ q ∈ ([⟨0, 0, 1⟩, ⟨0, 0, -1⟩, ⟨1, 0, 0⟩] : Path ℝ), q.unitLength) ∧
    (∀ q ∈ filterPath Real.sqrt ([⟨0, 0, 1⟩, ⟨0, 0, -1⟩, ⟨1, 0, 0⟩] : Path ℝ) true,
      q.unitLength ∨ q = ⟨0, 0, 0⟩) :=
  ⟨fun x hx => Real.mul_self_sqrt hx, by simp [Point.unitLength],
    filterPath_unit_or_zero Real.sqrt (fun x hx => Real.mul_self_sqrt hx)
      [⟨0, 0, 1⟩, ⟨0, 0, -1⟩, ⟨1, 0, 0⟩] (by simp [Point.unitLength]) true⟩

end FilterPathWitnesses

section FrameLemmas

variable {K : Type} [LinearOrderedField K]

theorem tickLeds_spec (n : Nat) (peaks : List K) (leds : List Nat) (time : Nat)
    (hn : n ≤ leds.length) :
    (tickLeds n peaks leds time).length = leds.length ∧
    ∀ j, (tickLeds n peaks leds time).getD j 0 =
      if j < n then
        (if peaks.getD j 0 > 1 then time
          else if leds.getD j 0 ≠ 0 then leds.getD j 0 - 1 else leds.getD j 0)
      else leds.getD j 0 := by
  refine foldl_range_cells 0 _
    (fun i v => if peaks.getD i 0 > 1 then time else if v ≠ 0 then v - 1 else v) ?_ leds n hn
  intro l i hi
  by_cases h1 : peaks.getD i 0 > 1
  · rw [if_pos h1]
    refine ⟨by simp, ?_, fun j hj => getD_set_ne _ _ _ _ _ (Ne.symm hj)⟩
    rw [getD_set_self _ _ _ _ hi]
    show time = if peaks.getD i 0 > 1 then time
      else if l.getD i 0 ≠ 0 then l.getD i 0 - 1 else l.getD i 0
    rw [if_pos h1]
  · by_cases h2 : l.getD i 0 ≠ 0
    · rw [if_neg h1, if_pos h2]
      refine ⟨by simp, ?_, fun j hj => getD_set_ne _ _ _ _ _ (Ne.symm hj)⟩
      rw [getD_set_self _ _ _ _ hi]
      show l.getD i 0 - 1 = if peaks.getD i 0 > 1 then time
        else if l.getD i 0 ≠ 0 then l.getD i 0 - 1 else l.getD i 0
      rw [if_neg h1, if_pos h2]
    · rw [if_neg h1, if_neg h2]
      refine ⟨rfl, ?_, fun j _ => rfl⟩
      show l.getD i 0 = if peaks.getD i 0 > 1 then time
        else if l.getD i 0 ≠ 0 then l.getD i 0 - 1 else l.getD i 0
      rw [if_neg h1, if_neg h2]

theorem tick_eq (m : Meter2d K) (time : Nat) :
    m.tick time =
      { m with m_over_leds :=
          tickLeds m.getNumberOfPlanewaves m.m_channels_peaks m.m_over_leds time } := rfl

theorem tick_wellFormed (m : Meter2d K) (time : Nat) (hwf : m.WellFormed) :
    (m.tick time).WellFormed := by
  obtain ⟨h1, h2, h3, h4⟩ := hwf
  rw [tick_eq]
  exact ⟨h1, h2, h3, (tickLeds_spec _ _ _ time (le_of_eq h4.symm)).1.trans h4⟩

theorem storeSector_frame [FloorRing K] (c : Defs K) (m : Meter2d K) (i : Nat) (cur pp np : K) :
    (m.storeSector c i cur pp np).m_channels_peaks = m.m_channels_peaks ∧
    (m.storeSector c i cur pp np).m_over_leds = m.m_over_leds ∧
    (m.storeSector c i cur pp np).m_ramp = m.m_ramp ∧
    (m.storeSector c i cur pp np).m_vector_size = m.m_vector_size ∧
    (m.storeSector c i cur pp np).planewaves_azimuth = m.planewaves_azimuth ∧
    (m.storeSector c i cur pp np).planewaves_rotation = m.planewaves_rotation ∧
    (m.storeSector c i cur pp np).m_channels_azimuth_width.length
      = m.m_channels_azimuth_width.length ∧
    (m.storeSector c i cur pp np).m_channels_azimuth_mapped.length
      = m.m_channels_azimuth_mapped.length :=
  ⟨rfl, rfl, rfl, rfl, rfl, rfl, by simp [storeSector_width], by simp [storeSector_mapped]⟩

/-- The tracker's part of the state, the layout and the sizes of the two geometry
arrays, which `computeRendering` leaves as they are. -/
theorem computeRendering_frame [FloorRing K] (c : Defs K) (m : Meter2d K) :
    (m.computeRendering c).m_channels_peaks = m.m_channels_peaks ∧
    (m.computeRendering c).m_over_leds = m.m_over_leds ∧
    (m.computeRendering c).m_ramp = m.m_ramp ∧
    (m.computeRendering c).m_vector_size = m.m_vector_size ∧
    (m.computeRendering c).planewaves_azimuth = m.planewaves_azimuth ∧
    (m.computeRendering c).planewaves_rotation = m.planewaves_rotation ∧
    (m.computeRendering c).m_channels_azimuth_width.length
      = m.m_channels_azimuth_width.length ∧
    (m.computeRendering c).m_channels_azimuth_mapped.length
      = m.m_channels_azimuth_mapped.length := by
  have hfold : ∀ (ch : List (Planewave K)) (l : List Nat) (m0 : Meter2d K),
      (l.foldl (Meter2d.renderMiddle c ch) m0).m_channels_peaks = m0.m_channels_peaks ∧
      (l.foldl (Meter2d.renderMiddle c ch) m0).m_over_leds = m0.m_over_leds ∧
      (l.foldl (Meter2d.renderMiddle c ch) m0).m_ramp = m0.m_ramp ∧
      (l.foldl (Meter2d.renderMiddle c ch) m0).m_vector_size = m0.m_vector_size ∧
      (l.foldl (Meter2d.renderMiddle c ch) m0).planewaves_azimuth = m0.planewaves_azimuth ∧
      (l.foldl (Meter2d.renderMiddle c ch) m0).planewaves_rotation = m0.planewaves_rotation ∧
      (l.foldl (Meter2d.renderMiddle c ch) m0).m_channels_azimuth_width.length
        = m0.m_channels_azimuth_width.length ∧
      (l.foldl (Meter2d.renderMiddle c ch) m0).m_channels_azimuth_mapped.length
        = m0.m_channels_azimuth_mapped.length := by
    intro ch l
    induction l with
    | nil => intro m0; exact ⟨rfl, rfl, rfl, rfl, rfl, rfl, rfl, rfl⟩
    | cons a l ih =>
      intro m0
      obtain ⟨a1, a2, a3, a4, a5, a6, a7, a8⟩ := ih (m0.renderMiddle c ch a)
      obtain ⟨b1, b2, b3, b4, b5, b6, b7, b8⟩ := storeSector_frame c m0 (channelIndex ch a)
        (channelAzimuth ch a) (channelAzimuth ch a - channelAzimuth ch (a - 1))
        (channelAzimuth ch (a + 1) - channelAzimuth ch a)
      exact ⟨a1.trans b1, a2.trans b2, a3.trans b3, a4.trans b4, a5.trans b5, a6.trans b6,
        a7.trans b7, a8.trans b8⟩
  unfold Meter2d.computeRendering
  split
  · exact ⟨rfl, rfl, rfl, rfl, rfl, rfl, by simp, by simp⟩
  · simp only
    obtain ⟨a1, a2, a3, a4, a5, a6, a7, a8⟩ := storeSector_frame c m
      (channelIndex (sortChannels (m.buildChannels c)) 0)
      (channelAzimuth (sortChannels (m.buildChannels c)) 0)
      ((c.HOA_2PI - channelAzimuth (sortChannels (m.buildChannels c))
          ((sortChannels (m.buildChannels c)).length - 1))
        + channelAzimuth (sortChannels (m.buildChannels c)) 0)
      (channelAzimuth (sortChannels (m.buildChannels c)) 1
        - channelAzimuth (sortChannels (m.buildChannels c)) 0)
    obtain ⟨b1, b2, b3, b4, b5, b6, b7, b8⟩ := hfold (sortChannels (m.buildChannels c))
      (List.range' 1 ((sortChannels (m.buildChannels c)).length - 1 - 1))
      (m.renderFirst c (sortChannels (m.buildChannels c)))
    refine ⟨?_, ?_, ?_, ?_, ?_, ?_, ?_, ?_⟩
    · exact (storeSector_frame c _ _ _ _ _).1.trans (b1.trans a1)
    · exact (storeSector_frame c _ _ _ _ _).2.1.trans (b2.trans a2)
    · exact (storeSector_frame c _ _ _ _ _).2.2.1.trans (b3.trans a3)
    · exact (storeSector_frame c _ _ _ _ _).2.2.2.1.trans (b4.trans a4)
    · exact (storeSector_frame c _ _ _ _ _).2.2.2.2.1.trans (b5.trans a5)
    · exact (storeSector_frame c _ _ _ _ _).2.2.2.2.2.1.trans (b6.trans a6)
    · exact (storeSector_frame c _ _ _ _ _).2.2.2.2.2.2.1.trans (b7.trans a7)
    · exact (storeSector_frame c _ _ _ _ _).2.2.2.2.2.2.2.trans (b8.trans a8)

theorem computeRendering_wellFormed [FloorRing K] (c : Defs K) (m : Meter2d K)
    (hwf : m.WellFormed) :
    (m.computeRendering c).WellFormed ∧
    (m.computeRendering c).getNumberOfPlanewaves = m.getNumberOfPlanewaves := by
  obtain ⟨a1, a2, _, _, a5, _, a7, a8⟩ := computeRendering_frame c m
  obtain ⟨h1, h2, h3, h4⟩ := hwf
  have hn : (m.computeRendering c).getNumberOfPlanewaves = m.getNumberOfPlanewaves := by
    simp only [Meter2d.getNumberOfPlanewaves, a5]
  refine ⟨⟨?_, ?_, ?_, ?_⟩, hn⟩
  · rw [a1, hn]; exact h1
  · rw [a8, hn]; exact h2
  · rw [a7, hn]; exact h3
  · rw [a2, hn]; exact h4

theorem process_geometry (m : Meter2d K) (inputs : List K) :
    (m.process inputs).m_channels_azimuth_width = m.m_channels_azimuth_width ∧
    (m.process inputs).m_channels_azimuth_mapped = m.m_channels_azimuth_mapped ∧
    (m.process inputs).m_over_leds = m.m_over_leds ∧
    (m.process inputs).planewaves_azimuth = m.planewaves_azimuth ∧
    (m.process inputs).planewaves_rotation = m.planewaves_rotation := by
  by_cases h : m.m_ramp = m.m_vector_size
  · rw [process_reset m inputs h]
    exact ⟨rfl, rfl, rfl, rfl, rfl⟩
  · rw [process_hold m inputs h]
    exact ⟨rfl, rfl, rfl, rfl, rfl⟩

theorem process3d_hold (m : Meter3d K) (inputs : List K) (h : m.m_ramp ≠ m.m_vector_size) :
    m.process inputs =
      { m with
        m_ramp := (m.m_ramp + 1) % ULONG_RANGE
        m_channels_peaks := holdPeaks m.numberOfPlanewaves m.m_channels_peaks inputs } := by
  simp [Meter3d.process, h]

theorem process3d_geometry (m : Meter3d K) (inputs : List K) :
    (m.process inputs).m_top = m.m_top ∧ (m.process inputs).m_bottom = m.m_bottom ∧
    (m.process inputs).m_over_leds = m.m_over_leds ∧
    (m.process inputs).numberOfPlanewaves = m.numberOfPlanewaves ∧
    (m.process inputs).m_vector_size = m.m_vector_size := by
  by_cases h : m.m_ramp = m.m_vector_size
  · rw [process3d_reset m inputs h]
    exact ⟨rfl, rfl, rfl, rfl, rfl⟩
  · rw [process3d_hold m inputs h]
    exact ⟨rfl, rfl, rfl, rfl, rfl⟩

end FrameLemmas

section FrameClaims

variable {K : Type} [LinearOrderedField K]

/-- C12: for every state and every time value, `tick(time)` sets each channel's
hold counter to `time` if the channel's stored peak is above `1`, otherwise to
`counter - 1` if the counter is not zero, otherwise leaves it at `0`, and changes
nothing else; for the 2D and for the 3D meter. -/
theorem tick_spec (m2 : Meter2d K) (m3 : Meter3d K) (hwf2 : m2.WellFormed)
    (hwf3 : m3.WellFormed) (time : Nat) :
    ((∀ i, i < m2.getNumberOfPlanewaves →
        (m2.tick time).m_over_leds.getD i 0 =
          if m2.m_channels_peaks.getD i 0 > 1 then time
          else if m2.m_over_leds.getD i 0 ≠ 0 then m2.m_over_leds.getD i 0 - 1 else 0) ∧
      (m2.tick time).m_over_leds.length = m2.m_over_leds.length ∧
      (m2.tick time).m_channels_peaks = m2.m_channels_peaks ∧
      (m2.tick time).m_ramp = m2.m_ramp ∧
      (m2.tick time).m_vector_size = m2.m_vector_size ∧
      (m2.tick time).m_channels_azimuth_width = m2.m_channels_azimuth_width ∧
      (m2.tick time).m_channels_azimuth_mapped = m2.m_channels_azimuth_mapped ∧
      (m2.tick time).planewaves_azimuth = m2.planewaves_azimuth ∧
      (m2.tick time).planewaves_rotation = m2.planewaves_rotation) ∧
    ((∀ i, i < m3.numberOfPlanewaves →
        (m3.tick time).m_over_leds.getD i 0 =
          if m3.m_channels_peaks.getD i 0 > 1 then time
          else if m3.m_over_leds.getD i 0 ≠ 0 then m3.m_over_leds.getD i 0 - 1 else 0) ∧
      (m3.tick time).m_over_leds.length = m3.m_over_leds.length ∧
      (m3.tick time).m_channels_peaks = m3.m_channels_peaks ∧
      (m3.tick time).m_ramp = m3.m_ramp ∧
      (m3.tick time).m_vector_size = m3.m_vector_size ∧
      (m3.tick time).m_top = m3.m_top ∧
      (m3.tick time).m_bottom = m3.m_bottom ∧
      (m3.tick time).numberOfPlanewaves = m3.numberOfPlanewaves) := by
  have s2 := tickLeds_spec m2.getNumberOfPlanewaves m2.m_channels_peaks m2.m_over_leds time
    (le_of_eq hwf2.2.2.2.symm)
  have s3 := tickLeds_spec m3.numberOfPlanewaves m3.m_channels_peaks m3.m_over_leds time
    (le_of_eq hwf3.2.1.symm)
  refine ⟨⟨fun i hi => ?_, s2.1, rfl, rfl, rfl, rfl, rfl, rfl, rfl⟩,
    ⟨fun i hi => ?_, s3.1, rfl, rfl, rfl, rfl, rfl, rfl⟩⟩
  · rw [tick_eq]
    simp only
    rw [s2.2 i, if_pos hi]
    by_cases h1 : m2.m_channels_peaks.getD i 0 > 1
    · rw [if_pos h1, if_pos h1]
    · rw [if_neg h1, if_neg h1]
      by_cases h2 : m2.m_over_leds.getD i 0 ≠ 0
      · rw [if_pos h2, if_pos h2]
      · rw [if_neg h2, if_neg h2]
        exact not_not.mp h2
  · show (tickLeds m3.numberOfPlanewaves m3.m_channels_peaks m3.m_over_leds time).getD i 0 = _
    rw [s3.2 i, if_pos hi]
    by_cases h1 : m3.m_channels_peaks.getD i 0 > 1
    · rw [if_pos h1, if_pos h1]
    · rw [if_neg h1, if_neg h1]
      by_cases h2 : m3.m_over_leds.getD i 0 ≠ 0
      · rw [if_pos h2, if_pos h2]
      · rw [if_neg h2, if_neg h2]
        exact not_not.mp h2

/-- Witness of C12 on the two loud examples (peaks `3`, counters `0`). -/
theorem tick_spec_witness :
    exampleLoud.WellFormed ∧ exampleLoud3d.WellFormed ∧
    (exampleLoud.tick 7).m_channels_peaks = exampleLoud.m_channels_peaks ∧
    (exampleLoud3d.tick 7).m_top = exampleLoud3d.m_top :=
  ⟨exampleLoud_wellFormed, exampleLoud3d_wellFormed,
    (tick_spec exampleLoud exampleLoud3d exampleLoud_wellFormed exampleLoud3d_wellFormed
      7).1.2.2.1,
    (tick_spec exampleLoud exampleLoud3d exampleLoud_wellFormed exampleLoud3d_wellFormed
      7).2.2.2.2.2.2.1⟩

/-- C15: `setVectorSize(n)` is total (it cannot fail, for any `n`, `0` included);
afterwards `getVectorSize()` is `n` and the ramp counter is `0`, and the stored
peaks, the hold counters and the geometry are unchanged; for the 2D and for the 3D
meter. -/
theorem setVectorSize_spec (m2 : Meter2d K) (m3 : Meter3d K) (n : Nat) :
    ((m2.setVectorSize n).getVectorSize = n ∧
      (m2.setVectorSize n).m_ramp = 0 ∧
      (m2.setVectorSize n).m_channels_peaks = m2.m_channels_peaks ∧
      (m2.setVectorSize n).m_over_leds = m2.m_over_leds ∧
      (m2.setVectorSize n).m_channels_azimuth_width = m2.m_channels_azimuth_width ∧
      (m2.setVectorSize n).m_channels_azimuth_mapped = m2.m_channels_azimuth_mapped ∧
      (m2.setVectorSize n).planewaves_azimuth = m2.planewaves_azimuth ∧
      (m2.setVectorSize n).planewaves_rotation = m2.planewaves_rotation) ∧
    ((m3.setVectorSize n).getVectorSize = n ∧
      (m3.setVectorSize n).m_ramp = 0 ∧
      (m3.setVectorSize n).m_channels_peaks = m3.m_channels_peaks ∧
      (m3.setVectorSize n).m_over_leds = m3.m_over_leds ∧
      (m3.setVectorSize n).m_top = m3.m_top ∧
      (m3.setVectorSize n).m_bottom = m3.m_bottom ∧
      (m3.setVectorSize n).numberOfPlanewaves = m3.numberOfPlanewaves) :=
  ⟨⟨rfl, rfl, rfl, rfl, rfl, rfl, rfl, rfl⟩, ⟨rfl, rfl, rfl, rfl, rfl, rfl, rfl⟩⟩

/-- C16: the metering path and the geometry path share no mutable state:
`process` and `tick` leave every channel's width and mapped center (2D) and top
and bottom path (3D) unchanged, and `computeRendering` leaves every channel's
stored peak and hold counter, the ramp counter and the window unchanged. -/
theorem metering_and_geometry_disjoint [FloorRing K] (c : Defs K) (e : Extern3d K)
    (m2 : Meter2d K) (m3 : Meter3d K) (inputs : List K) (time : Nat) :
    ((m2.process inputs).m_channels_azimuth_width = m2.m_channels_azimuth_width ∧
      (m2.process inputs).m_channels_azimuth_mapped = m2.m_channels_azimuth_mapped ∧
      (m2.tick time).m_channels_azimuth_width = m2.m_channels_azimuth_width ∧
      (m2.tick time).m_channels_azimuth_mapped = m2.m_channels_azimuth_mapped ∧
      (m2.computeRendering c).m_channels_peaks = m2.m_channels_peaks ∧
      (m2.computeRendering c).m_over_leds = m2.m_over_leds ∧
      (m2.computeRendering c).m_ramp = m2.m_ramp ∧
      (m2.computeRendering c).m_vector_size = m2.m_vector_size) ∧
    ((m3.process inputs).m_top = m3.m_top ∧
      (m3.process inputs).m_bottom = m3.m_bottom ∧
      (m3.tick time).m_top = m3.m_top ∧
      (m3.tick time).m_bottom = m3.m_bottom ∧
      (m3.computeRendering c e).m_channels_peaks = m3.m_channels_peaks ∧
      (m3.computeRendering c e).m_over_leds = m3.m_over_leds ∧
      (m3.computeRendering c e).m_ramp = m3.m_ramp ∧
      (m3.computeRendering c e).m_vector_size = m3.m_vector_size) := by
  obtain ⟨p1, p2, _, _, _⟩ := process_geometry m2 inputs
  obtain ⟨c1, c2, c3, c4, _, _, _, _⟩ := computeRendering_frame c m2
  obtain ⟨q1, q2, _, _, _⟩ := process3d_geometry m3 inputs
  exact ⟨⟨p1, p2, rfl, rfl, c1, c2, c3, c4⟩, ⟨q1, q2, rfl, rfl, rfl, rfl, rfl, rfl⟩⟩

end FrameClaims

section ClipAndConstruct

variable {K : Type} [LinearOrderedField K]

/-- C20, as stated, fails: constructing with `channelCount = 0` reports no error;
it yields a meter of no channel, with empty arrays, on which `process` and `tick`
run (and change nothing but the ramp). -/
theorem construct_zero_channels :
    (Meter2d.construct 0 (fun _ => (0 : ℚ)) 0 (fun _ => 0) (fun _ => 0)).WellFormed ∧
    (Meter2d.construct 0 (fun _ => (0 : ℚ)) 0 (fun _ => 0) (fun _ => 0)).getNumberOfPlanewaves
      = 0 ∧
    (Meter2d.construct 0 (fun _ => (0 : ℚ)) 0 (fun _ => 0) (fun _ => 0)).m_channels_peaks = [] ∧
    ((Meter2d.construct 0 (fun _ => (0 : ℚ)) 0 (fun _ => 0) (fun _ => 0)).process []).tick 3 =
      Meter2d.construct 0 (fun _ => (0 : ℚ)) 0 (fun _ => 0) (fun _ => 0) ∧
    (Meter3d.construct 0 : Meter3d ℚ).WellFormed ∧
    (Meter3d.construct 0 : Meter3d ℚ).numberOfPlanewaves = 0 ∧
    (Meter3d.construct 0 : Meter3d ℚ).m_channels_peaks = [] ∧
    ((Meter3d.construct 0 : Meter3d ℚ).process []).tick 3 = Meter3d.construct 0 := by
  refine ⟨?_, rfl, rfl, ?_, ?_, rfl, rfl, ?_⟩
  · simp [Meter2d.WellFormed, Meter2d.construct, Meter2d.getNumberOfPlanewaves]
  · simp [Meter2d.construct, Meter2d.process, Meter2d.tick, resetPeaks,
      Meter2d.getNumberOfPlanewaves]
  · simp [Meter3d.WellFormed, Meter3d.construct]
  · simp [Meter3d.construct, Meter3d.process, Meter3d.tick, resetPeaks, tickLeds]

/-- C20, amended: constructing a 2D or a 3D meter never fails and reports no
error, whatever `channelCount`, `0` included: the constructors are `noexcept` and
test nothing. They yield a meter of `channelCount` channels with the ramp and the
window at `0`, every stored peak and hold counter at `0` and, in 3D, every path
empty. -/
theorem construct_spec (n : Nat) (azimuthOf : Nat → K) (rotation : K)
    (uninitMapped uninitWidth : Nat → K) :
    ((Meter2d.construct n azimuthOf rotation uninitMapped uninitWidth).WellFormed ∧
      (Meter2d.construct n azimuthOf rotation uninitMapped uninitWidth).getNumberOfPlanewaves
        = n ∧
      (Meter2d.construct n azimuthOf rotation uninitMapped uninitWidth).m_ramp = 0 ∧
      (Meter2d.construct n azimuthOf rotation uninitMapped uninitWidth).m_vector_size = 0 ∧
      (∀ i, (Meter2d.construct n azimuthOf rotation uninitMapped
        uninitWidth).m_channels_peaks.getD i 0 = 0) ∧
      (∀ i, (Meter2d.construct n azimuthOf rotation uninitMapped
        uninitWidth).m_over_leds.getD i 0 = 0)) ∧
    ((Meter3d.construct n : Meter3d K).WellFormed ∧
      (Meter3d.construct n : Meter3d K).numberOfPlanewaves = n ∧
      (Meter3d.construct n : Meter3d K).m_ramp = 0 ∧
      (Meter3d.construct n : Meter3d K).m_vector_size = 0 ∧
      (∀ i, (Meter3d.construct n : Meter3d K).m_channels_peaks.getD i 0 = 0) ∧
      (∀ i, (Meter3d.construct n : Meter3d K).m_over_leds.getD i 0 = 0) ∧
      (∀ i, (Meter3d.construct n : Meter3d K).m_top.getD i [] = []) ∧
      (∀ i, (Meter3d.construct n : Meter3d K).m_bottom.getD i [] = [])) := by
  have hz : ∀ {β : Type} (d : β) (i : Nat),
      ((List.range n).map (fun _ => d)).getD i d = d := by
    intro β d i
    by_cases hi : i < n
    · rw [List.getD_eq_getElem _ _ (by simpa using hi)]
      simp
    · rw [List.getD_eq_default _ _ (by simpa using hi)]
  refine ⟨⟨?_, ?_, rfl, rfl, fun i => hz 0 i, fun i => hz 0 i⟩,
    ⟨?_, rfl, rfl, rfl, fun i => hz 0 i, fun i => hz 0 i, fun i => hz [] i, fun i => hz [] i⟩⟩
  · simp [Meter2d.WellFormed, Meter2d.construct, Meter2d.getNumberOfPlanewaves]
  · simp [Meter2d.construct, Meter2d.getNumberOfPlanewaves]
  · simp [Meter3d.WellFormed, Meter3d.construct]

end ClipAndConstruct

section WrapClaim

variable {K : Type} [LinearOrderedField K] [FloorRing K]

/-- In exact arithmetic (the loops `wrapUp` and `wrapDown` over a field, which end
for every value), `wrap_twopi(x)` is the unique `y` with `0 ≤ y < HOA_2PI` such
that `x - y` is an integer multiple of `HOA_2PI`; so `wrap_twopi` is idempotent
and is the identity on `[0, HOA_2PI)`, and every mapped center produced by the 2D
`computeRendering` for two or more channels lies in `[0, HOA_2PI)`. The loops in
the arithmetic of `double` are `wrapUpT` and `wrapDownT`. -/
theorem wrap_twopi_spec (c : Defs K) (x : K) :
    (0 ≤ wrap_twopi c x ∧ wrap_twopi c x < c.HOA_2PI ∧
      ∃ k : ℤ, x - wrap_twopi c x = c.HOA_2PI * k) ∧
    (∀ y, 0 ≤ y → y < c.HOA_2PI → (∃ k : ℤ, x - y = c.HOA_2PI * k) → y = wrap_twopi c x) ∧
    wrap_twopi c (wrap_twopi c x) = wrap_twopi c x ∧
    (0 ≤ x → x < c.HOA_2PI → wrap_twopi c x = x) ∧
    (∀ m : Meter2d K, m.WellFormed → 2 ≤ m.getNumberOfPlanewaves →
      ∀ i, i < m.getNumberOfPlanewaves →
        0 ≤ (m.computeRendering c).getPlanewaveAzimuthMapped i ∧
        (m.computeRendering c).getPlanewaveAzimuthMapped i < c.HOA_2PI) := by
  refine ⟨⟨wrap_twopi_nonneg c x, wrap_twopi_lt c x, ?_⟩, ?_, ?_, ?_, ?_⟩
  · obtain ⟨k, hk⟩ := wrap_twopi_eq_add c x
    refine ⟨-k, ?_⟩
    rw [hk]
    push_cast
    ring
  · rintro y h0 h1 ⟨k, hk⟩
    refine (wrap_twopi_unique c x y (-k) h0 h1 ?_).symm
    push_cast
    linarith
  · exact wrap_twopi_unique c _ _ 0 (wrap_twopi_nonneg c x) (wrap_twopi_lt c x) (by simp)
  · intro h0 h1
    exact wrap_twopi_unique c x x 0 h0 h1 (by simp)
  · intro m hwf h2 i hi
    obtain ⟨j, hj, rfl⟩ := position_of_index c m i hi
    rw [(computeRendering_at c m hwf h2 j hj).2]
    exact ⟨wrap_twopi_nonneg c _, wrap_twopi_lt c _⟩

/-- The exact wrap on the three-channel example: the value at `-13` with the
period `6`, and the range of a mapped center. -/
theorem wrap_twopi_spec_witness :
    wrap_twopi exampleDefs (-13) = 5 ∧
    0 ≤ (exampleMeter.computeRendering exampleDefs).getPlanewaveAzimuthMapped 1 ∧
    (exampleMeter.computeRendering exampleDefs).getPlanewaveAzimuthMapped 1 < 6 :=
  ⟨((wrap_twopi_spec exampleDefs (-13)).2.1 5 (by norm_num) (by norm_num [exampleDefs])
      ⟨-3, by norm_num [exampleDefs]⟩).symm,
    (wrap_twopi_spec exampleDefs 0).2.2.2.2 exampleMeter exampleMeter_wellFormed (by decide) 1
      (by decide)⟩

end WrapClaim

section RunningMax

variable {K : Type} [LinearOrderedField K]

end RunningMax

section CallLemmas

variable {K : Type} [LinearOrderedField K] [FloorRing K]

theorem call_wellFormed (c : Defs K) (m : Meter2d K) (hwf : m.WellFormed) (op : Call K) :
    (m.call c op).WellFormed ∧
    (m.call c op).getNumberOfPlanewaves = m.getNumberOfPlanewaves := by
  cases op with
  | setVectorSize n => exact ⟨hwf, rfl⟩
  | process inputs => exact ⟨(process_frame m inputs hwf).1, (process_frame m inputs hwf).2.1⟩
  | tick time => exact ⟨tick_wellFormed m time hwf, rfl⟩
  | computeRendering => exact computeRendering_wellFormed c m hwf

theorem calls_wellFormed (c : Defs K) (m : Meter2d K) (hwf : m.WellFormed)
    (ops : List (Call K)) :
    (m.calls c ops).WellFormed ∧
    (m.calls c ops).getNumberOfPlanewaves = m.getNumberOfPlanewaves := by
  induction ops generalizing m with
  | nil => exact ⟨hwf, rfl⟩
  | cons op ops ih =>
    obtain ⟨a, b⟩ := call_wellFormed c m hwf op
    obtain ⟨a1, b1⟩ := ih (m.call c op) a
    exact ⟨a1, b1.trans b⟩

theorem calls_append (c : Defs K) (m : Meter2d K) (a b : List (Call K)) :
    m.calls c (a ++ b) = (m.calls c a).calls c b := by
  simp [Meter2d.calls, List.foldl_append]

theorem calls_singleton (c : Defs K) (m : Meter2d K) (op : Call K) :
    m.calls c [op] = m.call c op := rfl

/-- A call that is not a `tick` leaves the hold counters as they are. -/
theorem call_leds_of_not_tick (c : Defs K) (m : Meter2d K) (op : Call K)
    (h : op.isTick = false) : (m.call c op).m_over_leds = m.m_over_leds := by
  cases op with
  | setVectorSize n => rfl
  | process inputs => exact (process_geometry m inputs).2.2.1
  | tick time => simp [Call.isTick] at h
  | computeRendering => exact (computeRendering_frame c m).2.1

/-- C13: overload countdown. If `tick(T)` is called while a channel's stored peak
is above `1`, and the channel's stored peak is at most `1` at each of the `tick`
calls that follow (whatever their time arguments, and whatever other calls come
between them), then after `k` such `tick` calls the channel's hold counter is
`max(T - k, 0)`, so that `getPlanewaveOverLed` is true exactly while `k < T`. -/
theorem overload_countdown (c : Defs K) (m : Meter2d K) (hwf : m.WellFormed) (i : Nat)
    (hi : i < m.getNumberOfPlanewaves) (T : Nat) (hpeak : m.m_channels_peaks.getD i 0 > 1)
    (ops : List (Call K))
    (hquiet : ∀ j t, ops[j]? = some (Call.tick t) →
      ((m.tick T).calls c (ops.take j)).m_channels_peaks.getD i 0 ≤ 1) :
    ((m.tick T).calls c ops).m_over_leds.getD i 0 = T - ops.countP Call.isTick ∧
    ((m.tick T).calls c ops).getPlanewaveOverLed i = decide (ops.countP Call.isTick < T) := by
  have hwfT := tick_wellFormed m T hwf
  have key : ((m.tick T).calls c ops).m_over_leds.getD i 0 = T - ops.countP Call.isTick := by
    induction ops using List.reverseRecOn with
    | nil =>
      simp only [Meter2d.calls, List.foldl_nil, List.countP_nil, Nat.sub_zero]
      rw [tick_eq]
      simp only
      rw [(tickLeds_spec _ _ _ T (le_of_eq hwf.2.2.2.symm)).2 i, if_pos hi, if_pos hpeak]
    | append_singleton xs op ih =>
      have hxs : ∀ j t, xs[j]? = some (Call.tick t) →
          ((m.tick T).calls c (xs.take j)).m_channels_peaks.getD i 0 ≤ 1 := by
        intro j t hj
        have hlt : j < xs.length := by
          by_contra hge
          rw [List.getElem?_eq_none (by omega)] at hj
          exact absurd hj (by simp)
        have := hquiet j t (by rw [List.getElem?_append_left hlt]; exact hj)
        rw [List.take_append_of_le_length (by omega)] at this
        exact this
      have ih' := ih hxs
      obtain ⟨w, en0⟩ := calls_wellFormed c (m.tick T) hwfT xs
      have en : ((m.tick T).calls c xs).getNumberOfPlanewaves = m.getNumberOfPlanewaves := en0
      rw [calls_append, calls_singleton, List.countP_append]
      cases hop : op.isTick with
      | false =>
        rw [call_leds_of_not_tick c _ op hop, ih']
        simp [List.countP_cons, hop]
      | true =>
        cases op with
        | tick t =>
          have hq := hquiet xs.length t (by simp)
          rw [List.take_left' rfl] at hq
          show (((m.tick T).calls c xs).tick t).m_over_leds.getD i 0 = _
          rw [tick_eq]
          simp only
          rw [(tickLeds_spec _ _ _ t (le_of_eq w.2.2.2.symm)).2 i, en, if_pos hi,
            if_neg (not_lt.mpr hq), ih']
          simp only [List.countP_cons, List.countP_nil, Call.isTick, if_true]
          split_ifs <;> omega
        | setVectorSize n => simp [Call.isTick] at hop
        | process inputs => simp [Call.isTick] at hop
        | computeRendering => simp [Call.isTick] at hop
  refine ⟨key, ?_⟩
  unfold Meter2d.getPlanewaveOverLed
  rw [key]
  by_cases h : ops.countP Call.isTick < T
  · simp only [h, decide_True, bne_iff_ne, ne_eq]
    omega
  · simp only [h, decide_False, bne_eq_false_iff_eq]
    omega

/-- Witness of C13 on the loud example: `tick(2)` with the peaks at `3`, then a
reset to quiet samples and three more `tick` calls. -/
theorem overload_countdown_witness :
    exampleLoud.WellFormed ∧ 0 < exampleLoud.getNumberOfPlanewaves ∧
    exampleLoud.m_channels_peaks.getD 0 0 > 1 ∧
    ((exampleLoud.tick 2).calls exampleDefs
      [Call.process [1 / 2, 1 / 2], Call.tick 9, Call.tick 9, Call.tick 9]).m_over_leds.getD 0 0
      = 2 - 3 :=
  ⟨exampleLoud_wellFormed, by decide, by norm_num [exampleLoud],
    (overload_countdown exampleDefs exampleLoud exampleLoud_wellFormed 0 (by decide) 2
      (by norm_num [exampleLoud])
      [Call.process [1 / 2, 1 / 2], Call.tick 9, Call.tick 9, Call.tick 9]
      (by
        have hp : ((exampleLoud.tick 2).call exampleDefs
            (Call.process [1 / 2, 1 / 2])).m_channels_peaks = [1 / 2, 1 / 2] := by
          norm_num [Meter2d.call, Meter2d.process, Meter2d.tick, exampleLoud, resetPeaks,
            Meter2d.getNumberOfPlanewaves, List.range_succ]
        intro j t hj
        have hj4 : j < 4 := by
          by_contra hge
          rw [List.getElem?_eq_none (by simpa using hge)] at hj
          exact absurd hj (by simp)
        have hpk : ∀ l : List (Call ℚ), (∀ op ∈ l, op.isTick = true) →
            (((exampleLoud.tick 2).call exampleDefs
              (Call.process [1 / 2, 1 / 2])).calls exampleDefs l).m_channels_peaks
              = [1 / 2, 1 / 2] := by
          intro l
          induction l using List.reverseRecOn with
          | nil => intro _; exact hp
          | append_singleton xs op ih =>
            intro hall
            rw [calls_append, calls_singleton]
            have hop := hall op (by simp)
            cases op with
            | tick t => exact ih (fun o ho => hall o (by simp [ho]))
            | setVectorSize n => simp [Call.isTick] at hop
            | process inputs => simp [Call.isTick] at hop
            | computeRendering => simp [Call.isTick] at hop
        interval_cases j
        · simp at hj
        · have := hpk [] (by simp)
          simp only [List.take_succ_cons, List.take_zero]
          show (((exampleLoud.tick 2).call exampleDefs
            (Call.process [1 / 2, 1 / 2])).calls exampleDefs []).m_channels_peaks.getD 0 0 ≤ 1
          rw [this]
          norm_num
        · have := hpk [Call.tick 9] (by simp [Call.isTick])
          simp only [List.take_succ_cons, List.take_zero]
          show (((exampleLoud.tick 2).call exampleDefs
            (Call.process [1 / 2, 1 / 2])).calls exampleDefs
              [Call.tick 9]).m_channels_peaks.getD 0 0 ≤ 1
          rw [this]
          norm_num
        · have := hpk [Call.tick 9, Call.tick 9] (by simp [Call.isTick])
          simp only [List.take_succ_cons, List.take_zero]
          show (((exampleLoud.tick 2).call exampleDefs
            (Call.process [1 / 2, 1 / 2])).calls exampleDefs
              [Call.tick 9, Call.tick 9]).m_channels_peaks.getD 0 0 ≤ 1
          rw [this]
          norm_num)).1⟩

end CallLemmas

section EnergyLemmas

variable {K : Type} [LinearOrderedField K]

end EnergyLemmas

section EnergyClaim

variable {K : Type} [LinearOrderedField K]

end EnergyClaim

section RoundTrip

theorem arg_polar (r α : ℝ) (hr : 0 < r) (h0 : -Real.pi < α) (h1 : α ≤ Real.pi) :
    Complex.arg ⟨r * Real.cos α, r * Real.sin α⟩ = α := by
  have e : (⟨r * Real.cos α, r * Real.sin α⟩ : ℂ) =
      (r : ℂ) * (Complex.cos α + Complex.sin α * Complex.I) := by
    apply Complex.ext
    · simp [← Complex.ofReal_cos, ← Complex.ofReal_sin]
    · simp [← Complex.ofReal_cos, ← Complex.ofReal_sin]
  rw [e]
  exact Complex.arg_mul_cos_add_sin_mul_I hr ⟨h0, h1⟩

/-- The Cartesian coordinates the conversions give the direction `(θ, φ)`. -/
theorem cartesian_of_angles (θ φ : ℝ) :
    Math.abscissa Real.cos (Real.pi / 2) 1 θ φ = Real.cos φ * Real.cos (θ + Real.pi / 2) ∧
    Math.ordinate Real.cos Real.sin (Real.pi / 2) 1 θ φ
      = Real.cos φ * Real.sin (θ + Real.pi / 2) ∧
    Math.height Real.sin 1 θ φ = Real.sin φ := by
  refine ⟨?_, ?_, ?_⟩
  · simp only [Math.abscissa]; ring
  · simp only [Math.ordinate]; ring
  · simp only [Math.height]; ring

/-- C17, as stated, fails: for the azimuth `π` and the elevation `0` the Cartesian
coordinates are `(0, -1, 0)` and `Math::azimuth` returns `atan2(-1, 0) - π/2 = -π`,
not `π`. -/
theorem azimuth_round_trip_at_pi :
    (0 : ℝ) ≤ Real.pi ∧ Real.pi < 2 * Real.pi ∧
    -(Real.pi / 2) < (0 : ℝ) ∧ (0 : ℝ) < Real.pi / 2 ∧
    Math.azimuth (fun y x => Complex.arg ⟨x, y⟩) (Real.pi / 2)
      (Math.abscissa Real.cos (Real.pi / 2) 1 Real.pi 0)
      (Math.ordinate Real.cos Real.sin (Real.pi / 2) 1 Real.pi 0)
      (Math.height Real.sin 1 Real.pi 0) = -Real.pi ∧
    Math.azimuth (fun y x => Complex.arg ⟨x, y⟩) (Real.pi / 2)
      (Math.abscissa Real.cos (Real.pi / 2) 1 Real.pi 0)
      (Math.ordinate Real.cos Real.sin (Real.pi / 2) 1 Real.pi 0)
      (Math.height Real.sin 1 Real.pi 0) ≠ Real.pi := by
  have hpi := Real.pi_pos
  have hx : Math.abscissa Real.cos (Real.pi / 2) 1 Real.pi 0 = 0 := by
    simp [Math.abscissa, Real.cos_add_pi_div_two]
  have hy : Math.ordinate Real.cos Real.sin (Real.pi / 2) 1 Real.pi 0 = -1 := by
    simp [Math.ordinate, Real.sin_add_pi_div_two]
  have harg : Complex.arg ⟨0, -1⟩ = -(Real.pi / 2) := by
    have e : (⟨0, -1⟩ : ℂ) = -Complex.I := by
      apply Complex.ext <;> simp
    rw [e, Complex.arg_neg_I]
  have hval : Math.azimuth (fun y x => Complex.arg ⟨x, y⟩) (Real.pi / 2)
      (Math.abscissa Real.cos (Real.pi / 2) 1 Real.pi 0)
      (Math.ordinate Real.cos Real.sin (Real.pi / 2) 1 Real.pi 0)
      (Math.height Real.sin 1 Real.pi 0) = -Real.pi := by
    rw [hx, hy]
    unfold Math.azimuth
    rw [if_neg (by norm_num)]
    show Complex.arg ⟨0, -1⟩ - Real.pi / 2 = -Real.pi
    rw [harg]
    ring
  refine ⟨hpi.le, by linarith, by linarith, by linarith, hval, ?_⟩
  rw [hval]
  intro h
  linarith

/-- C17, amended: for every azimuth `θ` in `[0, 2π)` and elevation `φ` in
`(-π/2, π/2)`, with `x = abscissa(1, θ, φ)`, `y = ordinate(1, θ, φ)`,
`z = height(1, θ, φ)`, `Math::elevation(x, y, z) = φ`, and `Math::azimuth(x, y, z)`
is `θ` for `θ ≤ π/2` and `θ - 2π` for `θ > π/2`: the azimuth is recovered modulo
`2π`, as the value in `(-3π/2, π/2]`. Over the reals, `atan2(y, x)` being the
argument of `x + iy`. -/
theorem round_trip_angles (θ φ : ℝ) (hθ0 : 0 ≤ θ) (hθ1 : θ < 2 * Real.pi)
    (hφ0 : -(Real.pi / 2) < φ) (hφ1 : φ < Real.pi / 2) :
    Math.azimuth (fun y x => Complex.arg ⟨x, y⟩) (Real.pi / 2)
      (Math.abscissa Real.cos (Real.pi / 2) 1 θ φ)
      (Math.ordinate Real.cos Real.sin (Real.pi / 2) 1 θ φ)
      (Math.height Real.sin 1 θ φ) = (if θ ≤ Real.pi / 2 then θ else θ - 2 * Real.pi) ∧
    Math.elevation Real.arcsin Real.sqrt
      (Math.abscissa Real.cos (Real.pi / 2) 1 θ φ)
      (Math.ordinate Real.cos Real.sin (Real.pi / 2) 1 θ φ)
      (Math.height Real.sin 1 θ φ) = φ := by
  have hpi := Real.pi_pos
  obtain ⟨hx, hy, hz⟩ := cartesian_of_angles θ φ
  have hc : 0 < Real.cos φ := Real.cos_pos_of_mem_Ioo ⟨hφ0, hφ1⟩
  have hsq : Real.cos (θ + Real.pi / 2) * Real.cos (θ + Real.pi / 2)
      + Real.sin (θ + Real.pi / 2) * Real.sin (θ + Real.pi / 2) = 1 := by
    have := Real.sin_sq_add_cos_sq (θ + Real.pi / 2)
    nlinarith
  constructor
  · rw [hx, hy]
    unfold Math.azimuth
    have hne : ¬ (Real.cos φ * Real.cos (θ + Real.pi / 2) = 0 ∧
        Real.cos φ * Real.sin (θ + Real.pi / 2) = 0) := by
      rintro ⟨a, b⟩
      have a' : Real.cos (θ + Real.pi / 2) = 0 := by
        rcases mul_eq_zero.mp a with h | h
        · exact absurd h (ne_of_gt hc)
        · exact h
      have b' : Real.sin (θ + Real.pi / 2) = 0 := by
        rcases mul_eq_zero.mp b with h | h
        · exact absurd h (ne_of_gt hc)
        · exact h
      rw [a', b'] at hsq
      norm_num at hsq
    rw [if_neg hne]
    by_cases hle : θ ≤ Real.pi / 2
    · rw [if_pos hle]
      show Complex.arg ⟨Real.cos φ * Real.cos (θ + Real.pi / 2),
        Real.cos φ * Real.sin (θ + Real.pi / 2)⟩ - Real.pi / 2 = θ
      rw [arg_polar _ _ hc (by linarith) (by linarith)]
      ring
    · rw [if_neg hle]
      push_neg at hle
      have e1 : Real.cos (θ + Real.pi / 2) = Real.cos (θ + Real.pi / 2 - 2 * Real.pi) := by
        rw [Real.cos_sub_two_pi]
      have e2 : Real.sin (θ + Real.pi / 2) = Real.sin (θ + Real.pi / 2 - 2 * Real.pi) := by
        rw [Real.sin_sub_two_pi]
      show Complex.arg ⟨Real.cos φ * Real.cos (θ + Real.pi / 2),
        Real.cos φ * Real.sin (θ + Real.pi / 2)⟩ - Real.pi / 2 = θ - 2 * Real.pi
      rw [e1, e2, arg_polar _ _ hc (by linarith) (by linarith)]
      ring
  · rw [hx, hy, hz]
    unfold Math.elevation
    by_cases h0 : Real.sin φ = 0
    · rw [if_pos h0]
      have := (Real.sin_eq_zero_iff_of_lt_of_lt (by linarith) (by linarith)).mp h0
      exact this.symm
    · rw [if_neg h0]
      have hone : Real.cos φ * Real.cos (θ + Real.pi / 2) * (Real.cos φ * Real.cos (θ + Real.pi / 2))
          + Real.cos φ * Real.sin (θ + Real.pi / 2) * (Real.cos φ * Real.sin (θ + Real.pi / 2))
          + Real.sin φ * Real.sin φ = 1 := by
        have := Real.sin_sq_add_cos_sq φ
        nlinarith
      rw [hone, Real.sqrt_one, div_one]
      exact Real.arcsin_sin (le_of_lt hφ0) (le_of_lt hφ1)

/-- Witness of C17 (amended) at the azimuth `π` and the elevation `0`. -/
theorem round_trip_angles_witness :
    (0 : ℝ) ≤ Real.pi ∧ Real.pi < 2 * Real.pi ∧
    -(Real.pi / 2) < (0 : ℝ) ∧ (0 : ℝ) < Real.pi / 2 ∧
    Math.elevation Real.arcsin Real.sqrt
      (Math.abscissa Real.cos (Real.pi / 2) 1 Real.pi 0)
      (Math.ordinate Real.cos Real.sin (Real.pi / 2) 1 Real.pi 0)
      (Math.height Real.sin 1 Real.pi 0) = 0 :=
  ⟨Real.pi_pos.le, by linarith [Real.pi_pos], by linarith [Real.pi_pos],
    by linarith [Real.pi_pos],
    (round_trip_angles Real.pi 0 Real.pi_pos.le (by linarith [Real.pi_pos])
      (by linarith [Real.pi_pos]) (by linarith [Real.pi_pos])).2⟩

end RoundTrip

section FactorialClaim

variable {K : Type} [LinearOrderedField K]

theorem factorialLoop_spec (k : Nat) (r : K) :
    factorialLoop ((k : Int) + 1) r = r * (k.factorial : K) := by
  induction k generalizing r with
  | zero =>
    rw [factorialLoop, if_neg (by norm_num)]
    simp
  | succ k ih =>
    rw [factorialLoop, if_pos (by push_cast; omega)]
    have e : ((k + 1 : Nat) : Int) + 1 - 1 = (k : Int) + 1 := by push_cast; ring
    rw [e, ih, Nat.factorial_succ]
    push_cast
    ring

/-- C21: for every integer `n ≥ 0`, `Math::factorial(n)` is `n!`, the product of
the positive integers up to `n` (`1` for `n = 0`), in exact arithmetic. -/
theorem factorial_spec (n : Int) (h : 0 ≤ n) :
    (Math.factorial n : K) = (n.toNat.factorial : K) := by
  obtain ⟨k, rfl⟩ := Int.eq_ofNat_of_zero_le h
  rw [Int.toNat_natCast]
  unfold Math.factorial
  cases k with
  | zero => simp
  | succ k =>
    rw [if_neg (by push_cast; omega)]
    have e : ((k + 1 : Nat) : Int) = (k : Int) + 1 := by push_cast; ring
    rw [e, factorialLoop_spec, Nat.factorial_succ]
    push_cast
    ring

theorem factorial_spec_witness :
    (0 : Int) ≤ 5 ∧ (Math.factorial 5 : ℚ) = (((5 : Int).toNat).factorial : ℚ) :=
  ⟨by decide, factorial_spec 5 (by decide)⟩

end FactorialClaim

section ElevationClaim

variable {K : Type} [LinearOrderedField K]

/-- C22 does not hold of the code: with `4` rows, `getElevation` gives the row
`4 / 2 = 2` the elevation `2π/3 − π/2 = π/6`, not `0`, whereas its doc comment
puts the row `number of rows / 2` at the center of the elevation. -/
theorem elevation_center_four_rows :
    Scope3d.getElevation Real.pi (Real.pi / 2) 4 (4 / 2) = some (Real.pi / 6) ∧
    Scope3d.getElevation Real.pi (Real.pi / 2) 4 (4 / 2) ≠ some 0 := by
  have e : Scope3d.getElevation Real.pi (Real.pi / 2) 4 (4 / 2) = some (Real.pi / 6) := by
    norm_num [Scope3d.getElevation, UINT_RANGE]
    ring
  rw [e]
  refine ⟨rfl, ?_⟩
  intro h
  have h2 : Real.pi / 6 = 0 := Option.some.inj h
  have := Real.pi_pos
  linarith

/-- The values of the formula of `getElevation` for a 3D scope of `rows` rows (at
least 3, an `unsigned int`), with `HOA_PI2 = HOA_PI / 2`: the row `0` is at
`−HOA_PI / 2` and the row `rows − 1` at `+HOA_PI / 2`; the row `rows / 2` is at `0`
when `rows` is odd, and `HOA_PI / (2 (rows − 1))` off the center when `rows` is
even. -/
theorem getElevation_rows (HOA_PI HOA_PI2 : K) (h2 : HOA_PI2 = HOA_PI / 2) (rows : Nat)
    (h3 : 3 ≤ rows) (hr : rows < UINT_RANGE) :
    Scope3d.getElevation HOA_PI HOA_PI2 rows 0 = some (-(HOA_PI / 2)) ∧
    Scope3d.getElevation HOA_PI HOA_PI2 rows (rows - 1) = some (HOA_PI / 2) ∧
    (rows % 2 = 1 → Scope3d.getElevation HOA_PI HOA_PI2 rows (rows / 2) = some 0) ∧
    (rows % 2 = 0 → Scope3d.getElevation HOA_PI HOA_PI2 rows (rows / 2)
      = some (HOA_PI / (2 * ((rows : K) - 1)))) := by
  have hm : (rows + UINT_RANGE - 1) % UINT_RANGE = rows - 1 := by
    have e : rows + UINT_RANGE - 1 = (rows - 1) + UINT_RANGE := by omega
    rw [e, Nat.add_mod_right, Nat.mod_eq_of_lt (by omega)]
  have hc : ((rows - 1 : Nat) : K) = (rows : K) - 1 := by
    rw [Nat.cast_sub (by omega)]
    simp
  have hpos : (0 : K) < (rows : K) - 1 := by
    have : (3 : K) ≤ (rows : K) := by exact_mod_cast h3
    linarith
  have hne : (rows : K) - 1 ≠ 0 := ne_of_gt hpos
  unfold Scope3d.getElevation
  rw [hm, hc, h2]
  refine ⟨?_, ?_, ?_, ?_⟩
  · rw [if_pos (by omega)]
    simp
  · rw [if_pos (by omega)]
    refine congrArg some ?_
    field_simp
    ring
  · intro ho
    rw [if_pos (by omega)]
    refine congrArg some ?_
    have hk : (rows : K) = 2 * ((rows / 2 : Nat) : K) + 1 := by
      have : rows = 2 * (rows / 2) + 1 := by omega
      exact_mod_cast this
    have hk0 : ((rows / 2 : Nat) : K) ≠ 0 := by
      have : rows / 2 ≠ 0 := by omega
      exact_mod_cast this
    have e : (rows : K) - 1 = 2 * ((rows / 2 : Nat) : K) := by rw [hk]; ring
    rw [e]
    field_simp
    ring
  · intro he
    rw [if_pos (by omega)]
    refine congrArg some ?_
    have hk : ((rows / 2 : Nat) : K) = (rows : K) / 2 := by
      have : rows = 2 * (rows / 2) := by omega
      have h : (rows : K) = 2 * ((rows / 2 : Nat) : K) := by exact_mod_cast this
      rw [h]
      simp
    rw [hk]
    field_simp
    ring

theorem getElevation_rows_witness :
    (3 / 2 : ℚ) = 3 / 2 ∧ 3 ≤ 5 ∧ 5 < UINT_RANGE ∧
    (Scope3d.getElevation (3 : ℚ) (3 / 2) 5 0 = some (-(3 / 2)) ∧
    Scope3d.getElevation (3 : ℚ) (3 / 2) 5 (5 - 1) = some (3 / 2) ∧
    (5 % 2 = 1 → Scope3d.getElevation (3 : ℚ) (3 / 2) 5 (5 / 2) = some 0) ∧
    (5 % 2 = 0 → Scope3d.getElevation (3 : ℚ) (3 / 2) 5 (5 / 2)
      = some (3 / (2 * (((5 : Nat) : ℚ) - 1))))) :=
  ⟨rfl, by decide, by decide, getElevation_rows 3 (3 / 2) rfl 5 (by decide) (by decide)⟩

end ElevationClaim

section TessellationClaim

variable {K : Type} [LinearOrderedField K]

/-- C26, as stated, fails: for a meter of two channels the tessellation of the top
paths receives `4` sites (the two channels, then one virtual site per channel
index), not `2 + 1`; the tessellation of the bottom paths receives the `2`
channels. -/
theorem top_tessellation_two_channels :
    (Meter3d.topSites exampleDefs exampleExtern3d (Meter3d.construct 2)).length = 4 ∧
    (Meter3d.topSites exampleDefs exampleExtern3d (Meter3d.construct 2)).length ≠ 2 + 1 ∧
    (Meter3d.bottomSites exampleExtern3d (Meter3d.construct 2)).length = 2 := by
  simp [Meter3d.topSites, Meter3d.bottomSites, Meter3d.construct]

/-- C26, amended: in the 3D `computeRendering` the tessellation of the bottom
paths is given exactly the `channelCount` true directions, and the tessellation of
the top paths exactly `2 * channelCount` sites: the `channelCount` true
directions followed by `channelCount` virtual sites, the `i`-th at the azimuth
`i / channelCount * HOA_2PI` with `x`, `y` taken at the elevation
`-HOA_PI2 + HOA_EPSILON` and `z` at the elevation `HOA_PI2 + HOA_EPSILON`; each
channel's path is the filtered boundary of its cell in the tessellation of these
sites. -/
theorem tessellation_sites (c : Defs K) (e : Extern3d K) (m : Meter3d K) :
    (m.bottomSites e).length = m.numberOfPlanewaves ∧
    (∀ i, i < m.numberOfPlanewaves → (m.bottomSites e).getD i ⟨0, 0, 0⟩ = e.direction i) ∧
    (m.topSites c e).length = 2 * m.numberOfPlanewaves ∧
    (∀ i, i < m.numberOfPlanewaves → (m.topSites c e).getD i ⟨0, 0, 0⟩ = e.direction i) ∧
    (∀ i, i < m.numberOfPlanewaves →
      (m.topSites c e).getD (m.numberOfPlanewaves + i) ⟨0, 0, 0⟩ =
        ⟨Math.abscissa e.cos e.HOA_PI2 1 ((i : K) / (m.numberOfPlanewaves : K) * c.HOA_2PI)
          (-e.HOA_PI2 + e.HOA_EPSILON),
         Math.ordinate e.cos e.sin e.HOA_PI2 1
          ((i : K) / (m.numberOfPlanewaves : K) * c.HOA_2PI) (-e.HOA_PI2 + e.HOA_EPSILON),
         Math.height e.sin 1 ((i : K) / (m.numberOfPlanewaves : K) * c.HOA_2PI)
          (e.HOA_PI2 + e.HOA_EPSILON)⟩) ∧
    (m.computeRendering c e).m_bottom = (List.range m.numberOfPlanewaves).foldl
      (fun paths i => paths.set i
        (filterPath e.sqrt ((e.voronoi (m.bottomSites e)).getD i []) false)) m.m_bottom ∧
    (m.computeRendering c e).m_top = (List.range m.numberOfPlanewaves).foldl
      (fun paths i => paths.set i
        (filterPath e.sqrt ((e.voronoi (m.topSites c e)).getD i []) true)) m.m_top := by
  refine ⟨?_, ?_, ?_, ?_, ?_, rfl, rfl⟩
  · simp [Meter3d.bottomSites]
  · intro i hi
    unfold Meter3d.bottomSites
    rw [List.getD_eq_getElem _ _ (by simpa using hi)]
    simp
  · simp [Meter3d.topSites]
    omega
  · intro i hi
    unfold Meter3d.topSites
    rw [List.getD_eq_getElem _ _ (by simp; omega)]
    rw [List.getElem_append_left (by simpa using hi)]
    simp
  · intro i hi
    unfold Meter3d.topSites
    rw [List.getD_eq_getElem _ _ (by simp; omega)]
    rw [List.getElem_append_right (by simp)]
    simp [Meter3d.virtualSite]

end TessellationClaim

section LatchClaim

variable {K : Type} [LinearOrderedField K]

/-- C27, as stated, fails for the time value `0`: on a meter whose stored peaks
are `3`, after `tick(0)` the hold counter of the channel `0` is `0` and
`getPlanewaveOverLed(0)` is false. -/
theorem tick_zero_reports_no_overload :
    exampleLoud.m_channels_peaks.getD 0 0 > 1 ∧
    (exampleLoud.tick 0).m_over_leds = [0, 0] ∧
    (exampleLoud.tick 0).getPlanewaveOverLed 0 = false := by
  have e : (exampleLoud.tick 0).m_over_leds = [0, 0] := by
    norm_num [Meter2d.tick, exampleLoud, Meter2d.getNumberOfPlanewaves, List.range_succ]
  refine ⟨by norm_num [exampleLoud], e, ?_⟩
  unfold Meter2d.getPlanewaveOverLed
  rw [e]
  rfl

/-- C27, amended: for every time value other than `0`, immediately after
`tick(time)` every channel whose stored peak exceeds `1` has its hold counter at
`time` and reports `getPlanewaveOverLed(index) = true` (2D and 3D meter); after
`tick(0)` such a channel has its hold counter at `0` and reports false. -/
theorem overload_latching (m2 : Meter2d K) (m3 : Meter3d K) (hwf2 : m2.WellFormed)
    (hwf3 : m3.WellFormed) (time : Nat) (ht : time ≠ 0) :
    (∀ i, i < m2.getNumberOfPlanewaves → m2.m_channels_peaks.getD i 0 > 1 →
      (m2.tick time).m_over_leds.getD i 0 = time ∧
      (m2.tick time).getPlanewaveOverLed i = true ∧
      (m2.tick 0).getPlanewaveOverLed i = false) ∧
    (∀ i, i < m3.numberOfPlanewaves → m3.m_channels_peaks.getD i 0 > 1 →
      (m3.tick time).m_over_leds.getD i 0 = time ∧
      (m3.tick time).getPlanewaveOverLed i = true ∧
      (m3.tick 0).getPlanewaveOverLed i = false) := by
  have key : ∀ (n : Nat) (peaks : List K) (leds : List Nat) (t i : Nat), n ≤ leds.length →
      i < n → peaks.getD i 0 > 1 → (tickLeds n peaks leds t).getD i 0 = t := by
    intro n peaks leds t i hn hi hp
    rw [(tickLeds_spec n peaks leds t hn).2 i, if_pos hi, if_pos hp]
  constructor
  · intro i hi hp
    have h1 := key _ m2.m_channels_peaks m2.m_over_leds time i (le_of_eq hwf2.2.2.2.symm) hi hp
    have h0 := key _ m2.m_channels_peaks m2.m_over_leds 0 i (le_of_eq hwf2.2.2.2.symm) hi hp
    refine ⟨h1, ?_, ?_⟩
    · show ((m2.tick time).m_over_leds.getD i 0 != 0) = true
      rw [tick_eq]
      show ((tickLeds _ m2.m_channels_peaks m2.m_over_leds time).getD i 0 != 0) = true
      rw [h1]
      simpa using ht
    · show ((m2.tick 0).m_over_leds.getD i 0 != 0) = false
      rw [tick_eq]
      show ((tickLeds _ m2.m_channels_peaks m2.m_over_leds 0).getD i 0 != 0) = false
      rw [h0]
      rfl
  · intro i hi hp
    have h1 := key _ m3.m_channels_peaks m3.m_over_leds time i (le_of_eq hwf3.2.1.symm) hi hp
    have h0 := key _ m3.m_channels_peaks m3.m_over_leds 0 i (le_of_eq hwf3.2.1.symm) hi hp
    refine ⟨h1, ?_, ?_⟩
    · show ((tickLeds _ m3.m_channels_peaks m3.m_over_leds time).getD i 0 != 0) = true
      rw [h1]
      simpa using ht
    · show ((tickLeds _ m3.m_channels_peaks m3.m_over_leds 0).getD i 0 != 0) = false
      rw [h0]
      rfl

theorem overload_latching_witness :
    exampleLoud.WellFormed ∧ exampleLoud3d.WellFormed ∧ 3 ≠ 0 ∧
    ((∀ i, i < exampleLoud.getNumberOfPlanewaves → exampleLoud.m_channels_peaks.getD i 0 > 1 →
      (exampleLoud.tick 3).m_over_leds.getD i 0 = 3 ∧
      (exampleLoud.tick 3).getPlanewaveOverLed i = true ∧
      (exampleLoud.tick 0).getPlanewaveOverLed i = false) ∧
    (∀ i, i < exampleLoud3d.numberOfPlanewaves → exampleLoud3d.m_channels_peaks.getD i 0 > 1 →
      (exampleLoud3d.tick 3).m_over_leds.getD i 0 = 3 ∧
      (exampleLoud3d.tick 3).getPlanewaveOverLed i = true ∧
      (exampleLoud3d.tick 0).getPlanewaveOverLed i = false)) :=
  ⟨exampleLoud_wellFormed, exampleLoud3d_wellFormed, by decide,
    overload_latching exampleLoud exampleLoud3d exampleLoud_wellFormed
      exampleLoud3d_wellFormed 3 (by decide)⟩

end LatchClaim

section EnergyInvariant

variable {K : Type} [LinearOrderedField K]

end EnergyInvariant

section CrossingClaim

variable {K : Type} [LinearOrderedField K]

end CrossingClaim

section KeepLemmas

variable {α : Type}

theorem mem_set_of_ne (l : List α) (i : Nat) (t d q : α) (hq : q ∈ l)
    (hne : l.getD i d ≠ q) : q ∈ l.set i t := by
  obtain ⟨j, hj, e⟩ := (mem_iff_getD l d q).mp hq
  have hji : i ≠ j := fun h => hne (h ▸ e)
  refine (mem_iff_getD _ d q).mpr ⟨j, by rw [List.length_set]; exact hj, ?_⟩
  rw [getD_set_ne l i j t d hji]
  exact e

theorem mem_eraseIdx_of_ne (l : List α) (i : Nat) (d q : α) (hq : q ∈ l)
    (hne : l.getD i d ≠ q) : q ∈ l.eraseIdx i := by
  obtain ⟨j, hj, e⟩ := (mem_iff_getD l d q).mp hq
  have hji : j ≠ i := fun h => hne (h ▸ e)
  by_cases hi : i < l.length
  · have hlen : (l.eraseIdx i).length = l.length - 1 := List.length_eraseIdx_of_lt hi
    by_cases hlt : j < i
    · refine (mem_iff_getD _ d q).mpr ⟨j, by omega, ?_⟩
      rw [getD_eraseIdx, if_pos hlt]
      exact e
    · refine (mem_iff_getD _ d q).mpr ⟨j - 1, by omega, ?_⟩
      rw [getD_eraseIdx, if_neg (by omega)]
      have : j - 1 + 1 = j := by omega
      rw [this]
      exact e
  · rw [List.eraseIdx_of_length_le (by omega)]
    exact hq

/-- The insertion loop keeps every vertex that is not on the wrong side. -/
theorem insertGen_keeps (W : α → Bool) (cross : α → α → α) (d : α) :
    ∀ (k : Nat) (P : List α) (size i : Nat), size - i = k → size = P.length →
      ∀ q, q ∈ P → W q = false → q ∈ insertGen W cross d P size i := by
  intro k
  induction k using Nat.strong_induction_on with
  | _ k ih =>
    intro P size i hk hs q hq hW
    by_cases hi : i < size
    · rw [insertGen_step W cross d P size i hi]
      subst hs
      have hn : cyclicNext P.length i ≤ P.length := by
        simp only [cyclicNext]
        split_ifs <;> omega
      split_ifs with h1 h2 h3
      · refine ih _ (by omega) _ _ _ rfl ?_ q ?_ hW
        · rw [List.length_insertIdx _ _ (by rw [List.length_set]; omega), List.length_set]
        · refine (List.mem_insertIdx (by rw [List.length_set]; omega)).mpr (Or.inr ?_)
          refine mem_set_of_ne _ _ _ d _ hq ?_
          intro e
          rw [e, hW] at h1
          exact Bool.false_ne_true h1.1
      · refine ih _ (by omega) _ _ _ rfl ?_ q ?_ hW
        · rw [List.length_insertIdx _ _ (by omega)]
        · exact (List.mem_insertIdx (by omega)).mpr (Or.inr hq)
      · refine ih _ (by omega) _ _ _ rfl ?_ q ?_ hW
        · rw [List.length_insertIdx _ _ hn]
        · exact (List.mem_insertIdx hn).mpr (Or.inr hq)
      · exact ih _ (by omega) _ _ _ rfl rfl q hq hW
    · rw [insertGen_done W cross d P size i hi]
      exact hq

/-- The pruning loop keeps every vertex strictly inside the target hemisphere. -/
theorem pruneGen_keeps (R : α → Bool) (d : α) :
    ∀ (k : Nat) (P : List α) (size i : Nat), size - i = k →
      ∀ q, q ∈ P → R q = true → q ∈ pruneGen R d P size i := by
  intro k
  induction k using Nat.strong_induction_on with
  | _ k ih =>
    intro P size i hk q hq hR
    by_cases hi : i < size
    · rw [pruneGen_step R d P size i hi]
      split_ifs with h1
      · refine ih _ (by omega) _ _ _ rfl q ?_ hR
        refine mem_eraseIdx_of_ne _ _ d _ hq ?_
        intro e
        rw [e, hR] at h1
        exact Bool.noConfusion h1.1
      · exact ih _ (by omega) _ _ _ rfl q hq hR
    · rw [pruneGen_done R d P size i hi]
      exact hq

/-- The pruning loop leaves at least three vertices of a path of at least three
vertices one of which is strictly inside the target hemisphere. -/
theorem pruneGen_length (R : α → Bool) (d : α) :
    ∀ (k : Nat) (P : List α) (size i : Nat), size - i = k → size = P.length →
      3 ≤ size → (∃ q, q ∈ P ∧ R q = true) → 3 ≤ (pruneGen R d P size i).length := by
  intro k
  induction k using Nat.strong_induction_on with
  | _ k ih =>
    intro P size i hk hs h3 hex
    by_cases hi : i < size
    · rw [pruneGen_step R d P size i hi]
      subst hs
      split_ifs with h1
      · obtain ⟨q, hq, hR⟩ := hex
        have hne : P.getD i d ≠ q := by
          intro e
          rw [e, hR] at h1
          exact Bool.noConfusion h1.1
        have h4 : 4 ≤ P.length := by
          by_contra hlt
          have h3e : P.length = 3 := by omega
          obtain ⟨j, hj, e⟩ := (mem_iff_getD P d q).mp hq
          obtain ⟨a, b, c⟩ := h1
          rw [h3e] at b c hj hi
          have hcases : j = i ∨ j = cyclicPrev 3 i ∨ j = cyclicNext 3 i := by
            simp only [cyclicPrev, cyclicNext]
            interval_cases i <;> interval_cases j <;> simp
          rcases hcases with h | h | h
          · rw [h] at e
            exact hne e
          · rw [h] at e
            rw [e, hR] at b
            exact Bool.noConfusion b
          · rw [h] at e
            rw [e, hR] at c
            exact Bool.noConfusion c
        have hlen : (P.eraseIdx i).length = P.length - 1 := List.length_eraseIdx_of_lt hi
        refine ih _ (by omega) _ _ _ rfl hlen.symm (by omega) ?_
        exact ⟨q, mem_eraseIdx_of_ne _ _ d _ hq hne, hR⟩
      · exact ih _ (by omega) _ _ _ rfl rfl h3 hex
    · rw [pruneGen_done R d P size i hi]
      omega

/-- The two loops of `filterPath`, on a path of at least three vertices one of
which is strictly inside the target hemisphere: at least three vertices are left
and every vertex strictly inside is kept. -/
theorem loops_keep (W R : α → Bool) (cross : α → α → α) (d : α)
    (hRW : ∀ q, R q = true → W q = false) (P : List α) (h3 : 3 ≤ P.length)
    (hex : ∃ q, q ∈ P ∧ R q = true) :
    3 ≤ (pruneGen R d (insertGen W cross d P P.length 0)
      (insertGen W cross d P P.length 0).length 0).length ∧
    ∀ q, q ∈ P → R q = true →
      q ∈ pruneGen R d (insertGen W cross d P P.length 0)
        (insertGen W cross d P P.length 0).length 0 := by
  have hk : ∀ q, q ∈ P → R q = true → q ∈ insertGen W cross d P P.length 0 :=
    fun q hq hR => insertGen_keeps W cross d _ P P.length 0 rfl rfl q hq (hRW q hR)
  have hl : P.length ≤ (insertGen W cross d P P.length 0).length :=
    insertGen_length_pos W cross d _ P P.length 0 rfl rfl
  constructor
  · obtain ⟨q, hq, hR⟩ := hex
    exact pruneGen_length R d _ _ _ 0 rfl rfl (by omega) ⟨q, hk q hq hR, hR⟩
  · intro q hq hR
    exact pruneGen_keeps R d _ _ _ 0 rfl q (hk q hq hR) hR

end KeepLemmas

section OutputSize

variable {K : Type} [LinearOrderedField K]

theorem filterPath_top_valid (sqrt : K → K) (path : Path K) (h3 : 3 ≤ path.length)
    (hex : ∃ q, q ∈ path ∧ q.z > 0) :
    filterPath sqrt path true =
      pruneGen (fun q => decide (q.z > 0)) ⟨0, 0, 0⟩
        (insertGen (fun q => decide (q.z < 0)) (crossTop sqrt) ⟨0, 0, 0⟩ path path.length 0)
        (insertGen (fun q => decide (q.z < 0)) (crossTop sqrt) ⟨0, 0, 0⟩ path
          path.length 0).length 0 := by
  have hv : validTop path = true := by
    obtain ⟨q, hq, hz⟩ := hex
    exact List.any_eq_true.mpr ⟨q, hq, by simpa using hz⟩
  unfold filterPath
  rw [if_pos rfl, hv, if_neg (by simp; omega)]
  show pruneTop _ _ 0 = _
  rw [pruneTop_eq_pruneGen, insertTop_eq_insertGen]

theorem filterPath_bottom_valid (sqrt : K → K) (path : Path K) (h3 : 3 ≤ path.length)
    (hex : ∃ q, q ∈ path ∧ q.z < 0) :
    filterPath sqrt path false =
      pruneGen (fun q => decide (q.z < 0)) ⟨0, 0, 0⟩
        (insertGen (fun q => decide (q.z > 0)) (crossBottom sqrt) ⟨0, 0, 0⟩ path path.length 0)
        (insertGen (fun q => decide (q.z > 0)) (crossBottom sqrt) ⟨0, 0, 0⟩ path
          path.length 0).length 0 := by
  have hv : validBottom path = true := by
    obtain ⟨q, hq, hz⟩ := hex
    exact List.any_eq_true.mpr ⟨q, hq, by simpa using hz⟩
  unfold filterPath
  rw [if_neg (by simp), hv, if_neg (by simp; omega)]
  show pruneBottom _ _ 0 = _
  rw [pruneBottom_eq_pruneGen, insertBottom_eq_insertGen]

theorem filterPath_invalid (sqrt : K → K) (path : Path K) :
    (¬ (3 ≤ path.length ∧ ∃ q, q ∈ path ∧ q.z > 0) → filterPath sqrt path true = []) ∧
    (¬ (3 ≤ path.length ∧ ∃ q, q ∈ path ∧ q.z < 0) → filterPath sqrt path false = []) := by
  constructor
  · intro h
    unfold filterPath
    rw [if_pos rfl]
    by_cases h3 : 3 ≤ path.length
    · have hv : validTop path = false := by
        rw [Bool.eq_false_iff]
        intro hv
        obtain ⟨q, hq, hz⟩ := List.any_eq_true.mp hv
        exact h ⟨h3, q, hq, by simpa using hz⟩
      rw [hv]
      simp
    · rw [if_pos (by simp; right; omega)]
  · intro h
    unfold filterPath
    rw [if_neg (by simp)]
    by_cases h3 : 3 ≤ path.length
    · have hv : validBottom path = false := by
        rw [Bool.eq_false_iff]
        intro hv
        obtain ⟨q, hq, hz⟩ := List.any_eq_true.mp hv
        exact h ⟨h3, q, hq, by simpa using hz⟩
      rw [hv]
      simp
    · rw [if_pos (by simp; right; omega)]

/-- C30: for every input path, the output of `filterPath` (either hemisphere) is
empty or has at least 3 vertices; it is non-empty exactly when the input has at
least 3 vertices and a vertex strictly inside the target hemisphere (`z > 0` for
the top, `z < 0` for the bottom); and then every input vertex strictly inside
the target hemisphere is a vertex of the output. -/
theorem filterPath_output_size (sqrt : K → K) (path : Path K) :
    ((filterPath sqrt path true = [] ∨ 3 ≤ (filterPath sqrt path true).length) ∧
      (filterPath sqrt path true ≠ [] ↔ 3 ≤ path.length ∧ ∃ q, q ∈ path ∧ q.z > 0) ∧
      (3 ≤ path.length → ∀ q, q ∈ path → q.z > 0 → q ∈ filterPath sqrt path true)) ∧
    ((filterPath sqrt path false = [] ∨ 3 ≤ (filterPath sqrt path false).length) ∧
      (filterPath sqrt path false ≠ [] ↔ 3 ≤ path.length ∧ ∃ q, q ∈ path ∧ q.z < 0) ∧
      (3 ≤ path.length → ∀ q, q ∈ path → q.z < 0 → q ∈ filterPath sqrt path false)) := by
  have hne : ∀ l : Path K, 3 ≤ l.length → l ≠ [] := by
    intro l h e
    rw [e] at h
    simp at h
  constructor
  · have key : 3 ≤ path.length → (∃ q, q ∈ path ∧ q.z > 0) →
        3 ≤ (filterPath sqrt path true).length ∧
        ∀ q, q ∈ path → q.z > 0 → q ∈ filterPath sqrt path true := by
      intro h3 hex
      rw [filterPath_top_valid sqrt path h3 hex]
      obtain ⟨a, b⟩ := loops_keep (fun q : Point K => decide (q.z < 0))
        (fun q : Point K => decide (q.z > 0)) (crossTop sqrt) ⟨0, 0, 0⟩
        (fun q h => by
          simp only [decide_eq_true_eq, decide_eq_false_iff_not, not_lt] at h ⊢
          exact le_of_lt h)
        path h3 (by
          obtain ⟨q, hq, hz⟩ := hex
          exact ⟨q, hq, by simpa using hz⟩)
      exact ⟨a, fun q hq hz => b q hq (by simpa using hz)⟩
    by_cases hc : 3 ≤ path.length ∧ ∃ q, q ∈ path ∧ q.z > 0
    · obtain ⟨a, b⟩ := key hc.1 hc.2
      exact ⟨Or.inr a, ⟨fun _ => hc, fun _ => hne _ a⟩, fun _ => b⟩
    · have he := (filterPath_invalid sqrt path).1 hc
      refine ⟨Or.inl he, ⟨fun h => absurd he h, fun h => absurd h hc⟩, ?_⟩
      intro h3 q hq hz
      exact absurd ⟨h3, q, hq, hz⟩ hc
  · have key : 3 ≤ path.length → (∃ q, q ∈ path ∧ q.z < 0) →
        3 ≤ (filterPath sqrt path false).length ∧
        ∀ q, q ∈ path → q.z < 0 → q ∈ filterPath sqrt path false := by
      intro h3 hex
      rw [filterPath_bottom_valid sqrt path h3 hex]
      obtain ⟨a, b⟩ := loops_keep (fun q : Point K => decide (q.z > 0))
        (fun q : Point K => decide (q.z < 0)) (crossBottom sqrt) ⟨0, 0, 0⟩
        (fun q h => by
          simp only [decide_eq_true_eq, decide_eq_false_iff_not, not_lt] at h ⊢
          exact le_of_lt h)
        path h3 (by
          obtain ⟨q, hq, hz⟩ := hex
          exact ⟨q, hq, by simpa using hz⟩)
      exact ⟨a, fun q hq hz => b q hq (by simpa using hz)⟩
    by_cases hc : 3 ≤ path.length ∧ ∃ q, q ∈ path ∧ q.z < 0
    · obtain ⟨a, b⟩ := key hc.1 hc.2
      exact ⟨Or.inr a, ⟨fun _ => hc, fun _ => hne _ a⟩, fun _ => b⟩
    · have he := (filterPath_invalid sqrt path).2 hc
      refine ⟨Or.inl he, ⟨fun h => absurd he h, fun h => absurd h hc⟩, ?_⟩
      intro h3 q hq hz
      exact absurd ⟨h3, q, hq, hz⟩ hc

end OutputSize

section GapLemmas

variable {K : Type} [LinearOrderedField K] [FloorRing K]

/-- The wrapped difference of two values of `[0, HOA_2PI)`. -/
theorem wrap_sub (c : Defs K) (x y : K) (hx0 : 0 ≤ x) (hx1 : x < c.HOA_2PI) (hy0 : 0 ≤ y)
    (hy1 : y < c.HOA_2PI) :
    (y ≤ x → wrap_twopi c (x - y) = x - y) ∧
    (x < y → wrap_twopi c (x - y) = x - y + c.HOA_2PI) := by
  constructor
  · intro h
    exact wrap_twopi_unique c (x - y) (x - y) 0 (by linarith) (by linarith) (by simp)
  · intro h
    exact wrap_twopi_unique c (x - y) (x - y + c.HOA_2PI) 1 (by linarith) (by linarith)
      (by simp)

/-- Two positions of the sorted vector that hold the same channel index are the
same position. -/
theorem sorted_index_inj (c : Defs K) (m : Meter2d K) (j k : Nat)
    (hj : j < m.getNumberOfPlanewaves) (hk : k < m.getNumberOfPlanewaves)
    (h : channelIndex (sortChannels (m.buildChannels c)) j =
      channelIndex (sortChannels (m.buildChannels c)) k) : j = k := by
  have hnd : ((sortChannels (m.buildChannels c)).map Planewave.index).Nodup :=
    (sorted_index_perm c m).nodup_iff.mpr (List.nodup_range _)
  have hl := length_sorted c m
  have hj1 : j < ((sortChannels (m.buildChannels c)).map Planewave.index).length := by
    rw [List.length_map, hl]; exact hj
  have hk1 : k < ((sortChannels (m.buildChannels c)).map Planewave.index).length := by
    rw [List.length_map, hl]; exact hk
  refine (@List.Nodup.getElem_inj_iff _ _ hnd j hj1 k hk1).mp ?_
  rw [List.getElem_map, List.getElem_map]
  rw [channelIndex_eq _ _ (by rw [hl]; exact hj), channelIndex_eq _ _ (by rw [hl]; exact hk)] at h
  exact h

/-- With pairwise distinct normalized azimuths the sorted vector is strictly
ascending. -/
theorem sorted_azimuth_strict (c : Defs K) (m : Meter2d K)
    (hd : ∀ i j, i < m.getNumberOfPlanewaves → j < m.getNumberOfPlanewaves → i ≠ j →
      m.normalizedAzimuth c i ≠ m.normalizedAzimuth c j)
    (j k : Nat) (hjk : j < k) (hk : k < m.getNumberOfPlanewaves) :
    channelAzimuth (sortChannels (m.buildChannels c)) j <
      channelAzimuth (sortChannels (m.buildChannels c)) k := by
  refine lt_of_le_of_ne (sorted_azimuth_mono c m j k (le_of_lt hjk) hk) ?_
  intro e
  obtain ⟨ij, aj⟩ := sorted_channel_facts c m j (by omega)
  obtain ⟨ik, ak⟩ := sorted_channel_facts c m k hk
  rw [aj, ak] at e
  have hne : channelIndex (sortChannels (m.buildChannels c)) j ≠
      channelIndex (sortChannels (m.buildChannels c)) k := by
    intro h
    have := sorted_index_inj c m j k (by omega) hk h
    omega
  exact hd _ _ ij ik hne e

/-- In a strictly ascending sorted vector the two portions `computeRendering`
uses at a position are the least wrapped differences to the other positions. -/
theorem portions_least (c : Defs K) (m : Meter2d K) (h2 : 2 ≤ m.getNumberOfPlanewaves)
    (hs : ∀ j k, j < k → k < m.getNumberOfPlanewaves →
      channelAzimuth (sortChannels (m.buildChannels c)) j <
        channelAzimuth (sortChannels (m.buildChannels c)) k)
    (j : Nat) (hj : j < m.getNumberOfPlanewaves) :
    (∃ k, k < m.getNumberOfPlanewaves ∧ k ≠ j ∧
      wrap_twopi c (channelAzimuth (sortChannels (m.buildChannels c)) j -
        channelAzimuth (sortChannels (m.buildChannels c)) k) =
      previousPortion c (sortChannels (m.buildChannels c)) m.getNumberOfPlanewaves j) ∧
    (∀ k, k < m.getNumberOfPlanewaves → k ≠ j →
      previousPortion c (sortChannels (m.buildChannels c)) m.getNumberOfPlanewaves j ≤
      wrap_twopi c (channelAzimuth (sortChannels (m.buildChannels c)) j -
        channelAzimuth (sortChannels (m.buildChannels c)) k)) ∧
    (∃ k, k < m.getNumberOfPlanewaves ∧ k ≠ j ∧
      wrap_twopi c (channelAzimuth (sortChannels (m.buildChannels c)) k -
        channelAzimuth (sortChannels (m.buildChannels c)) j) =
      nextPortion c (sortChannels (m.buildChannels c)) m.getNumberOfPlanewaves j) ∧
    (∀ k, k < m.getNumberOfPlanewaves → k ≠ j →
      nextPortion c (sortChannels (m.buildChannels c)) m.getNumberOfPlanewaves j ≤
      wrap_twopi c (channelAzimuth (sortChannels (m.buildChannels c)) k -
        channelAzimuth (sortChannels (m.buildChannels c)) j)) := by
  generalize hch : sortChannels (m.buildChannels c) = ch at hs ⊢
  generalize hn : m.getNumberOfPlanewaves = n at hs h2 hj ⊢
  have hr : ∀ k, k < n → 0 ≤ channelAzimuth ch k ∧ channelAzimuth ch k < c.HOA_2PI := by
    intro k hk
    rw [← hch]
    exact sorted_azimuth_range c m k (by rw [hn]; exact hk)
  have hmono : ∀ a b, a ≤ b → b < n → channelAzimuth ch a ≤ channelAzimuth ch b := by
    intro a b hab hb
    rcases Nat.eq_or_lt_of_le hab with rfl | hlt
    · exact le_refl _
    · exact le_of_lt (hs a b hlt hb)
  have hw : ∀ a b, a < n → b < n →
      (b < a → wrap_twopi c (channelAzimuth ch a - channelAzimuth ch b) =
        channelAzimuth ch a - channelAzimuth ch b) ∧
      (a < b → wrap_twopi c (channelAzimuth ch a - channelAzimuth ch b) =
        channelAzimuth ch a - channelAzimuth ch b + c.HOA_2PI) := by
    intro a b ha hb
    obtain ⟨a0, a1⟩ := hr a ha
    obtain ⟨b0, b1⟩ := hr b hb
    obtain ⟨w1, w2⟩ := wrap_sub c _ _ a0 a1 b0 b1
    exact ⟨fun h => w1 (le_of_lt (hs b a h ha)), fun h => w2 (hs a b h hb)⟩
  obtain ⟨j0, j1⟩ := hr j hj
  refine ⟨?_, ?_, ?_, ?_⟩
  · unfold previousPortion
    by_cases h0 : j = 0
    · rw [if_pos h0]
      refine ⟨n - 1, by omega, by omega, ?_⟩
      rw [(hw j (n - 1) hj (by omega)).2 (by omega), h0]
      ring
    · rw [if_neg h0]
      exact ⟨j - 1, by omega, by omega, (hw j (j - 1) hj (by omega)).1 (by omega)⟩
  · intro k hk hkj
    obtain ⟨k0, k1⟩ := hr k hk
    unfold previousPortion
    by_cases h0 : j = 0
    · rw [if_pos h0, (hw j k hj hk).2 (by omega), h0]
      have := hmono k (n - 1) (by omega) (by omega)
      linarith
    · rw [if_neg h0]
      rcases Nat.lt_or_gt_of_ne hkj with hlt | hgt
      · rw [(hw j k hj hk).1 hlt]
        have := hmono k (j - 1) (by omega) (by omega)
        linarith
      · rw [(hw j k hj hk).2 hgt]
        have := (hr (j - 1) (by omega)).1
        linarith
  · unfold nextPortion
    by_cases h0 : j = n - 1
    · rw [if_pos h0]
      refine ⟨0, by omega, by omega, ?_⟩
      rw [(hw 0 j (by omega) hj).2 (by omega)]
      ring
    · rw [if_neg h0]
      exact ⟨j + 1, by omega, by omega, (hw (j + 1) j (by omega) hj).1 (by omega)⟩
  · intro k hk hkj
    obtain ⟨k0, k1⟩ := hr k hk
    unfold nextPortion
    by_cases h0 : j = n - 1
    · rw [if_pos h0, (hw k j hk hj).2 (by omega)]
      have := hmono 0 k (by omega) hk
      linarith
    · rw [if_neg h0]
      rcases Nat.lt_or_gt_of_ne hkj with hlt | hgt
      · rw [(hw k j hk hj).2 hlt]
        have := (hr (j + 1) (by omega)).2
        linarith
      · rw [(hw k j hk hj).1 hgt]
        have := hmono (j + 1) k (by omega) hk
        linarith

end GapLemmas

section GapClaim

variable {K : Type} [LinearOrderedField K] [FloorRing K]

/-- C23: for every 2D layout with at least two channels whose normalized azimuths
`a_j` (azimuth plus rotation, wrapped into `[0, HOA_2PI)`) are pairwise distinct,
`computeRendering` stores at each channel's original index `i` the width
`(d_prev + d_next) / 2` and the mapped center
`wrap_twopi(a_i + (d_next - d_prev) / 4)`, where `d_prev` is the least of the
values `wrap_twopi(a_i - a_j)` and `d_next` the least of the values
`wrap_twopi(a_j - a_i)` over the channels `j ≠ i` (each is attained and is a lower
bound), whatever the channel's position in the sorted working copy. -/
theorem width_from_gaps (c : Defs K) (m : Meter2d K) (hwf : m.WellFormed)
    (h2 : 2 ≤ m.getNumberOfPlanewaves)
    (hd : ∀ i j, i < m.getNumberOfPlanewaves → j < m.getNumberOfPlanewaves → i ≠ j →
      m.normalizedAzimuth c i ≠ m.normalizedAzimuth c j)
    (i : Nat) (hi : i < m.getNumberOfPlanewaves) :
    ∃ d_prev d_next : K,
      (∃ j, j < m.getNumberOfPlanewaves ∧ j ≠ i ∧
        wrap_twopi c (m.normalizedAzimuth c i - m.normalizedAzimuth c j) = d_prev) ∧
      (∀ j, j < m.getNumberOfPlanewaves → j ≠ i →
        d_prev ≤ wrap_twopi c (m.normalizedAzimuth c i - m.normalizedAzimuth c j)) ∧
      (∃ j, j < m.getNumberOfPlanewaves ∧ j ≠ i ∧
        wrap_twopi c (m.normalizedAzimuth c j - m.normalizedAzimuth c i) = d_next) ∧
      (∀ j, j < m.getNumberOfPlanewaves → j ≠ i →
        d_next ≤ wrap_twopi c (m.normalizedAzimuth c j - m.normalizedAzimuth c i)) ∧
      (m.computeRendering c).getPlanewaveWidth i = (d_prev + d_next) / 2 ∧
      (m.computeRendering c).getPlanewaveAzimuthMapped i =
        wrap_twopi c (m.normalizedAzimuth c i + (d_next - d_prev) / 4) := by
  obtain ⟨p, hp, rfl⟩ := position_of_index c m i hi
  obtain ⟨eW, eM⟩ := computeRendering_at c m hwf h2 p hp
  have hA : ∀ k, k < m.getNumberOfPlanewaves →
      m.normalizedAzimuth c (channelIndex (sortChannels (m.buildChannels c)) k) =
        channelAzimuth (sortChannels (m.buildChannels c)) k :=
    fun k hk => (sorted_channel_facts c m k hk).2.symm
  obtain ⟨a1, a2, a3, a4⟩ := portions_least c m h2 (sorted_azimuth_strict c m hd) p hp
  refine ⟨previousPortion c (sortChannels (m.buildChannels c)) m.getNumberOfPlanewaves p,
    nextPortion c (sortChannels (m.buildChannels c)) m.getNumberOfPlanewaves p,
    ?_, ?_, ?_, ?_, ?_, ?_⟩
  · obtain ⟨k, hk, hkp, e⟩ := a1
    refine ⟨channelIndex (sortChannels (m.buildChannels c)) k,
      (sorted_channel_facts c m k hk).1, ?_, ?_⟩
    · intro h
      exact hkp (sorted_index_inj c m k p hk hp h)
    · rw [hA p hp, hA k hk]
      exact e
  · intro j hj hji
    obtain ⟨k, hk, rfl⟩ := position_of_index c m j hj
    have hkp : k ≠ p := fun h => hji (by rw [h])
    rw [hA p hp, hA k hk]
    exact a2 k hk hkp
  · obtain ⟨k, hk, hkp, e⟩ := a3
    refine ⟨channelIndex (sortChannels (m.buildChannels c)) k,
      (sorted_channel_facts c m k hk).1, ?_, ?_⟩
    · intro h
      exact hkp (sorted_index_inj c m k p hk hp h)
    · rw [hA p hp, hA k hk]
      exact e
  · intro j hj hji
    obtain ⟨k, hk, rfl⟩ := position_of_index c m j hj
    have hkp : k ≠ p := fun h => hji (by rw [h])
    rw [hA p hp, hA k hk]
    exact a4 k hk hkp
  · rw [eW, half_eq]
    ring
  · rw [eM, hA p hp, half_eq]
    congr 1
    ring

theorem exampleMeter_normalized :
    exampleMeter.normalizedAzimuth exampleDefs 0 = 3 ∧
    exampleMeter.normalizedAzimuth exampleDefs 1 = 1 ∧
    exampleMeter.normalizedAzimuth exampleDefs 2 = 5 := by
  refine ⟨?_, ?_, ?_⟩
  · exact wrap_twopi_unique exampleDefs _ 3 0 (by norm_num) (by norm_num [exampleDefs])
      (by norm_num [exampleMeter, Meter2d.getPlanewaveAzimuth])
  · exact wrap_twopi_unique exampleDefs _ 1 (-1) (by norm_num) (by norm_num [exampleDefs])
      (by norm_num [exampleMeter, Meter2d.getPlanewaveAzimuth, exampleDefs])
  · exact wrap_twopi_unique exampleDefs _ 5 0 (by norm_num) (by norm_num [exampleDefs])
      (by norm_num [exampleMeter, Meter2d.getPlanewaveAzimuth])

theorem exampleMeter_distinct :
    ∀ i j, i < exampleMeter.getNumberOfPlanewaves → j < exampleMeter.getNumberOfPlanewaves →
      i ≠ j → exampleMeter.normalizedAzimuth exampleDefs i ≠
        exampleMeter.normalizedAzimuth exampleDefs j := by
  obtain ⟨e0, e1, e2⟩ := exampleMeter_normalized
  intro i j hi hj hij
  have hi3 : i < 3 := hi
  have hj3 : j < 3 := hj
  interval_cases i <;> interval_cases j <;> first
    | exact absurd rfl hij
    | (simp only [e0, e1, e2]; norm_num)

/-- Witness of C23 on the three-channel example, channel `0`. -/
theorem width_from_gaps_witness :
    exampleMeter.WellFormed ∧ 2 ≤ exampleMeter.getNumberOfPlanewaves ∧
    0 < exampleMeter.getNumberOfPlanewaves ∧
    ∃ d_prev d_next : ℚ,
      (∃ j, j < exampleMeter.getNumberOfPlanewaves ∧ j ≠ 0 ∧
        wrap_twopi exampleDefs (exampleMeter.normalizedAzimuth exampleDefs 0 -
          exampleMeter.normalizedAzimuth exampleDefs j) = d_prev) ∧
      (∀ j, j < exampleMeter.getNumberOfPlanewaves → j ≠ 0 →
        d_prev ≤ wrap_twopi exampleDefs (exampleMeter.normalizedAzimuth exampleDefs 0 -
          exampleMeter.normalizedAzimuth exampleDefs j)) ∧
      (∃ j, j < exampleMeter.getNumberOfPlanewaves ∧ j ≠ 0 ∧
        wrap_twopi exampleDefs (exampleMeter.normalizedAzimuth exampleDefs j -
          exampleMeter.normalizedAzimuth exampleDefs 0) = d_next) ∧
      (∀ j, j < exampleMeter.getNumberOfPlanewaves → j ≠ 0 →
        d_next ≤ wrap_twopi exampleDefs (exampleMeter.normalizedAzimuth exampleDefs j -
          exampleMeter.normalizedAzimuth exampleDefs 0)) ∧
      (exampleMeter.computeRendering exampleDefs).getPlanewaveWidth 0 = (d_prev + d_next) / 2 ∧
      (exampleMeter.computeRendering exampleDefs).getPlanewaveAzimuthMapped 0 =
        wrap_twopi exampleDefs
          (exampleMeter.normalizedAzimuth exampleDefs 0 + (d_next - d_prev) / 4) :=
  ⟨exampleMeter_wellFormed, by decide, by decide,
    width_from_gaps exampleDefs exampleMeter exampleMeter_wellFormed (by decide)
      exampleMeter_distinct 0 (by decide)⟩

end GapClaim

section StepLemmas

variable {α : Type}

theorem drop_insertIdx_of_lt (l : List α) (k m : Nat) (t : α) (hk : k ≤ l.length)
    (hm : k < m) : (l.insertIdx k t).drop m = l.drop (m - 1) := by
  induction k generalizing l m with
  | zero =>
    cases m with
    | zero => omega
    | succ m => simp
  | succ k ih =>
    cases l with
    | nil => simp at hk
    | cons a l =>
      cases m with
      | zero => omega
      | succ m =>
        simp only [List.insertIdx_succ_cons, List.drop_succ_cons, Nat.add_sub_cancel]
        rw [ih l m (by simpa using hk) (by omega)]
        cases m with
        | zero => omega
        | succ m => simp

theorem drop_eraseIdx_self (l : List α) (i : Nat) : (l.eraseIdx i).drop i = l.drop (i + 1) := by
  induction l generalizing i with
  | nil => simp
  | cons a l ih =>
    cases i with
    | zero => simp
    | succ i =>
      simp only [List.eraseIdx_cons_succ, List.drop_succ_cons]
      exact ih i

theorem drop_set_of_lt (l : List α) (i m : Nat) (t : α) (h : i < m) :
    (l.set i t).drop m = l.drop m := by
  induction l generalizing i m with
  | nil => simp
  | cons a l ih =>
    cases m with
    | zero => omega
    | succ m =>
      cases i with
      | zero => simp
      | succ i =>
        simp only [List.set_cons_succ, List.drop_succ_cons]
        exact ih i m (by omega)

/-- The insertion loop is the iteration of `insertStep`. -/
theorem insertGen_eq_step (W : α → Bool) (cross : α → α → α) (d : α) (s : LoopState α) :
    insertGen W cross d s.path s.size s.i =
      match insertStep W cross d s with
      | none => s.path
      | some s1 => insertGen W cross d s1.path s1.size s1.i := by
  rw [insertGen]
  unfold insertStep
  by_cases hi : s.i < s.size
  · simp only [if_pos hi]
    split_ifs <;> rfl
  · simp only [if_neg hi]

/-- The pruning loop is the iteration of `pruneStep`. -/
theorem pruneGen_eq_step (R : α → Bool) (d : α) (s : LoopState α) :
    pruneGen R d s.path s.size s.i =
      match pruneStep R d s with
      | none => s.path
      | some s1 => pruneGen R d s1.path s1.size s1.i := by
  rw [pruneGen]
  unfold pruneStep
  by_cases hi : s.i < s.size
  · simp only [if_pos hi]
    split_ifs <;> rfl
  · simp only [if_neg hi]

theorem insertStep_eq (W : α → Bool) (cross : α → α → α) (d : α) (s : LoopState α)
    (hi : s.i < s.size) :
    insertStep W cross d s =
      if W (s.path.getD s.i d) = true ∧ W (s.path.getD (cyclicPrev s.size s.i) d) = false ∧
          W (s.path.getD (cyclicNext s.size s.i) d) = false then
        some ⟨(s.path.set s.i (cross (s.path.getD (cyclicNext s.size s.i) d)
          (s.path.getD s.i d))).insertIdx s.i
            (cross (s.path.getD (cyclicPrev s.size s.i) d) (s.path.getD s.i d)),
          s.size + 1, s.i + 3⟩
      else if W (s.path.getD s.i d) = true ∧
          W (s.path.getD (cyclicPrev s.size s.i) d) = false then
        some ⟨s.path.insertIdx s.i
          (cross (s.path.getD (cyclicPrev s.size s.i) d) (s.path.getD s.i d)),
          s.size + 1, s.i + 2⟩
      else if W (s.path.getD s.i d) = true ∧
          W (s.path.getD (cyclicNext s.size s.i) d) = false then
        some ⟨s.path.insertIdx (cyclicNext s.size s.i)
          (cross (s.path.getD (cyclicNext s.size s.i) d) (s.path.getD s.i d)),
          s.size + 1, s.i + 2⟩
      else some ⟨s.path, s.size, s.i + 1⟩ := by
  unfold insertStep
  rw [if_pos hi]
  rfl

theorem pruneStep_eq (R : α → Bool) (d : α) (s : LoopState α) (hi : s.i < s.size) :
    pruneStep R d s =
      if R (s.path.getD s.i d) = false ∧ R (s.path.getD (cyclicPrev s.size s.i) d) = false ∧
          R (s.path.getD (cyclicNext s.size s.i) d) = false then
        some ⟨s.path.eraseIdx s.i, s.size - 1, s.i⟩
      else some ⟨s.path, s.size, s.i + 1⟩ := by
  unfold pruneStep
  rw [if_pos hi]
  rfl

/-- What an iteration of the insertion loop does to the loop state. -/
theorem insertStep_spec (W : α → Bool) (cross : α → α → α) (d : α) (s s1 : LoopState α)
    (h : insertStep W cross d s = some s1) :
    s.i < s.size ∧ s1.size - s1.i < s.size - s.i ∧ s.i < s1.i ∧
    (s.size = s.path.length →
      s1.size = s1.path.length ∧ s.path.length ≤ s1.path.length ∧
      (s1.path.drop s1.i = s.path.drop (s.i + 1) ∨
        s1.path.drop s1.i = s.path.drop (s.i + 2))) := by
  by_cases hi : s.i < s.size
  · rw [insertStep_eq W cross d s hi] at h
    have hn1 : cyclicNext s.size s.i < s.i + 2 := by
      simp only [cyclicNext]
      split_ifs <;> omega
    have hn2 : s.size = s.path.length → cyclicNext s.size s.i ≤ s.path.length := by
      intro hs
      simp only [cyclicNext]
      split_ifs <;> omega
    generalize cyclicNext s.size s.i = n at h hn1 hn2
    generalize cyclicPrev s.size s.i = p at h
    split_ifs at h with h1 h2 h3
    all_goals
      simp only [Option.some.injEq] at h
      subst h
      simp only
      refine ⟨hi, by omega, by omega, ?_⟩
      intro hs
    · rw [List.length_insertIdx _ _ (by rw [List.length_set]; omega), List.length_set]
      refine ⟨by omega, by omega, Or.inr ?_⟩
      rw [drop_insertIdx_of_lt _ _ _ _ (by rw [List.length_set]; omega) (by omega)]
      exact drop_set_of_lt _ _ _ _ (by omega)
    · rw [List.length_insertIdx _ _ (by omega)]
      refine ⟨by omega, by omega, Or.inl ?_⟩
      exact drop_insertIdx_of_lt _ _ _ _ (by omega) (by omega)
    · rw [List.length_insertIdx _ _ (hn2 hs)]
      refine ⟨by omega, by omega, Or.inl ?_⟩
      exact drop_insertIdx_of_lt _ _ _ _ (hn2 hs) hn1
    · exact ⟨hs, le_refl _, Or.inl trivial⟩
  · unfold insertStep at h
    rw [if_neg hi] at h
    exact Option.noConfusion h

/-- What an iteration of the pruning loop does to the loop state. -/
theorem pruneStep_spec (R : α → Bool) (d : α) (s s1 : LoopState α)
    (h : pruneStep R d s = some s1) :
    s.i < s.size ∧ s1.size - s1.i < s.size - s.i ∧
    ((s1.path = s.path.eraseIdx s.i ∧ s1.size = s.size - 1 ∧ s1.i = s.i) ∨
      (s1.path = s.path ∧ s1.size = s.size ∧ s1.i = s.i + 1)) ∧
    s1.path.drop s1.i = s.path.drop (s.i + 1) ∧
    (s.size = s.path.length → s1.size = s1.path.length) := by
  by_cases hi : s.i < s.size
  · rw [pruneStep_eq R d s hi] at h
    split_ifs at h with h1
    all_goals
      simp only [Option.some.injEq] at h
      subst h
      simp only
    · refine ⟨hi, by omega, Or.inl ⟨trivial, trivial, trivial⟩, drop_eraseIdx_self _ _, ?_⟩
      intro hs
      rw [List.length_eraseIdx_of_lt (by omega)]
      omega
    · exact ⟨hi, by omega, Or.inr ⟨trivial, trivial, trivial⟩, trivial, fun hs => hs⟩
  · unfold pruneStep at h
    rw [if_neg hi] at h
    exact Option.noConfusion h

/-- A loop whose iterations decrease `size - i` ends within `size - i`
iterations, in the state whose path the recursive function gives. -/
theorem runLoop_spec (step : LoopState α → Option (LoopState α)) (F : LoopState α → List α)
    (hF : ∀ s, F s = match step s with
      | none => s.path
      | some s1 => F s1)
    (hμ : ∀ s s1, step s = some s1 → s1.size - s1.i < s.size - s.i) :
    ∀ (fuel : Nat) (s : LoopState α), s.size - s.i ≤ fuel →
      ∃ t, runLoop step fuel s = some t ∧ t.path = F s ∧ step t = none := by
  intro fuel
  induction fuel with
  | zero =>
    intro s hs
    cases hst : step s with
    | none =>
      refine ⟨s, ?_, ?_, hst⟩
      · simp [runLoop, hst]
      · rw [hF s, hst]
    | some s1 =>
      have := hμ s s1 hst
      omega
  | succ fuel ih =>
    intro s hs
    cases hst : step s with
    | none =>
      refine ⟨s, ?_, ?_, hst⟩
      · simp [runLoop, hst]
      · rw [hF s, hst]
    | some s1 =>
      have hlt := hμ s s1 hst
      obtain ⟨t, h1, h2, h3⟩ := ih s1 (by omega)
      refine ⟨t, ?_, ?_, h3⟩
      · simp only [runLoop, hst]
        exact h1
      · rw [hF s, hst]
        exact h2

theorem runLoop_insert (W : α → Bool) (cross : α → α → α) (d : α) (P : List α) :
    ∃ t, runLoop (insertStep W cross d) P.length ⟨P, P.length, 0⟩ = some t ∧
      t.path = insertGen W cross d P P.length 0 := by
  obtain ⟨t, h1, h2, _⟩ := runLoop_spec (insertStep W cross d)
    (fun s => insertGen W cross d s.path s.size s.i) (insertGen_eq_step W cross d)
    (fun s s1 h => (insertStep_spec W cross d s s1 h).2.1) P.length ⟨P, P.length, 0⟩
    (Nat.sub_le _ _)
  exact ⟨t, h1, h2⟩

theorem runLoop_prune (R : α → Bool) (d : α) (P : List α) :
    ∃ t, runLoop (pruneStep R d) P.length ⟨P, P.length, 0⟩ = some t ∧
      t.path = pruneGen R d P P.length 0 := by
  obtain ⟨t, h1, h2, _⟩ := runLoop_spec (pruneStep R d)
    (fun s => pruneGen R d s.path s.size s.i) (pruneGen_eq_step R d)
    (fun s s1 h => (pruneStep_spec R d s s1 h).2.1) P.length ⟨P, P.length, 0⟩
    (Nat.sub_le _ _)
  exact ⟨t, h1, h2⟩

end StepLemmas

section TerminationClaim

variable {K : Type} [LinearOrderedField K]

/-- C28, as stated, fails: the insertion pass does not classify every vertex. On
the path `P, v, Q, R` whose vertex `v` alone is below the plane, the iteration at
`v` inserts both crossings and advances the index by `3`, past the successor `Q`:
the loop ends after `3` iterations (with `size = i = 5`), having examined `P`, `v`
and `R`, and never `Q`. -/
theorem successor_of_isolated_vertex_skipped :
    examined (insertStep (fun q : Point ℚ => decide (q.z < 0)) (crossTop (fun x => x))
      ⟨0, 0, 0⟩) ⟨0, 0, 0⟩ 4 ⟨exampleDip, 4, 0⟩ = [⟨1, 0, 1⟩, ⟨0, 1, -1⟩, ⟨0, -1, 1⟩] ∧
    (runLoop (insertStep (fun q : Point ℚ => decide (q.z < 0)) (crossTop (fun x => x))
      ⟨0, 0, 0⟩) 3 ⟨exampleDip, 4, 0⟩).map (fun t => (t.size, t.i)) = some (5, 5) ∧
    (⟨-1, 0, 1⟩ : Point ℚ) ∈ exampleDip ∧
    (⟨-1, 0, 1⟩ : Point ℚ) ∉
      examined (insertStep (fun q : Point ℚ => decide (q.z < 0)) (crossTop (fun x => x))
        ⟨0, 0, 0⟩) ⟨0, 0, 0⟩ 4 ⟨exampleDip, 4, 0⟩ := by
  have s1 : insertStep (fun q : Point ℚ => decide (q.z < 0)) (crossTop (fun x => x))
      ⟨0, 0, 0⟩ ⟨exampleDip, 4, 0⟩ = some ⟨exampleDip, 4, 1⟩ := by
    norm_num [insertStep, exampleDip]
  have s2 : insertStep (fun q : Point ℚ => decide (q.z < 0)) (crossTop (fun x => x))
      ⟨0, 0, 0⟩ ⟨exampleDip, 4, 1⟩ =
      some ⟨[⟨1, 0, 1⟩, crossTop (fun x => x) ⟨1, 0, 1⟩ ⟨0, 1, -1⟩,
        crossTop (fun x => x) ⟨-1, 0, 1⟩ ⟨0, 1, -1⟩, ⟨-1, 0, 1⟩, ⟨0, -1, 1⟩], 5, 4⟩ := by
    norm_num [insertStep, exampleDip, List.insertIdx, List.modifyTailIdx]
  have s3 : insertStep (fun q : Point ℚ => decide (q.z < 0)) (crossTop (fun x => x))
      ⟨0, 0, 0⟩ ⟨[⟨1, 0, 1⟩, crossTop (fun x => x) ⟨1, 0, 1⟩ ⟨0, 1, -1⟩,
        crossTop (fun x => x) ⟨-1, 0, 1⟩ ⟨0, 1, -1⟩, ⟨-1, 0, 1⟩, ⟨0, -1, 1⟩], 5, 4⟩ =
      some ⟨[⟨1, 0, 1⟩, crossTop (fun x => x) ⟨1, 0, 1⟩ ⟨0, 1, -1⟩,
        crossTop (fun x => x) ⟨-1, 0, 1⟩ ⟨0, 1, -1⟩, ⟨-1, 0, 1⟩, ⟨0, -1, 1⟩], 5, 5⟩ := by
    norm_num [insertStep]
  have s4 : insertStep (fun q : Point ℚ => decide (q.z < 0)) (crossTop (fun x => x))
      ⟨0, 0, 0⟩ ⟨[⟨1, 0, 1⟩, crossTop (fun x => x) ⟨1, 0, 1⟩ ⟨0, 1, -1⟩,
        crossTop (fun x => x) ⟨-1, 0, 1⟩ ⟨0, 1, -1⟩, ⟨-1, 0, 1⟩, ⟨0, -1, 1⟩], 5, 5⟩ = none := by
    norm_num [insertStep]
  have e : examined (insertStep (fun q : Point ℚ => decide (q.z < 0)) (crossTop (fun x => x))
      ⟨0, 0, 0⟩) ⟨0, 0, 0⟩ 4 ⟨exampleDip, 4, 0⟩ = [⟨1, 0, 1⟩, ⟨0, 1, -1⟩, ⟨0, -1, 1⟩] := by
    simp only [examined, s1, s2, s3, s4]
    simp [exampleDip]
  refine ⟨e, ?_, ?_, ?_⟩
  · simp only [runLoop, s1, s2, s3, s4]
    rfl
  · simp [exampleDip]
  · rw [e]
    norm_num

/-- C28, amended: `filterPath` terminates on every finite input path. In the
insertion pass every iteration strictly decreases `size - i` while the path never
shrinks, and in the pruning pass every iteration either erases the vertex at the
index or advances the index, `size - i` decreasing too; so each loop ends within
as many iterations as the path has vertices when the loop starts, and the run
yields the path `filterPath` returns. Each pass is a single forward pass: after an
iteration the vertices still to be examined are those that were to be examined
before it less the examined one and, in the insertion pass when both crossings
of an isolated wrong-side vertex are inserted (`i += 3`), less its successor too,
which is never classified. So the insertion pass classifies each vertex at most
once, the pruning pass each vertex of the grown path exactly once. -/
theorem filterPath_terminates (sqrt : K → K) (path : Path K) :
    (∀ (W : Point K → Bool) (cross : Point K → Point K → Point K)
        (s s1 : LoopState (Point K)), insertStep W cross ⟨0, 0, 0⟩ s = some s1 →
      s1.size - s1.i < s.size - s.i ∧
      (s.size = s.path.length →
        s1.size = s1.path.length ∧ s.path.length ≤ s1.path.length ∧
        (s1.path.drop s1.i = s.path.drop (s.i + 1) ∨
          s1.path.drop s1.i = s.path.drop (s.i + 2)))) ∧
    (∀ (R : Point K → Bool) (s s1 : LoopState (Point K)), pruneStep R ⟨0, 0, 0⟩ s = some s1 →
      s1.size - s1.i < s.size - s.i ∧
      ((s1.path = s.path.eraseIdx s.i ∧ s1.size = s.size - 1 ∧ s1.i = s.i) ∨
        (s1.path = s.path ∧ s1.size = s.size ∧ s1.i = s.i + 1)) ∧
      s1.path.drop s1.i = s.path.drop (s.i + 1)) ∧
    (∃ t1 t2 : LoopState (Point K),
      runLoop (insertStep (fun q => decide (q.z < 0)) (crossTop sqrt) ⟨0, 0, 0⟩) path.length
        ⟨path, path.length, 0⟩ = some t1 ∧
      t1.path = insertTop sqrt path path.length 0 ∧
      runLoop (pruneStep (fun q => decide (q.z > 0)) ⟨0, 0, 0⟩) t1.path.length
        ⟨t1.path, t1.path.length, 0⟩ = some t2 ∧
      t2.path = pruneTop t1.path t1.path.length 0 ∧
      filterPath sqrt path true =
        if !validTop path || decide (path.length < 3) then [] else t2.path) ∧
    (∃ t1 t2 : LoopState (Point K),
      runLoop (insertStep (fun q => decide (q.z > 0)) (crossBottom sqrt) ⟨0, 0, 0⟩) path.length
        ⟨path, path.length, 0⟩ = some t1 ∧
      t1.path = insertBottom sqrt path path.length 0 ∧
      runLoop (pruneStep (fun q => decide (q.z < 0)) ⟨0, 0, 0⟩) t1.path.length
        ⟨t1.path, t1.path.length, 0⟩ = some t2 ∧
      t2.path = pruneBottom t1.path t1.path.length 0 ∧
      filterPath sqrt path false =
        if !validBottom path || decide (path.length < 3) then [] else t2.path) := by
  refine ⟨?_, ?_, ?_, ?_⟩
  · intro W cross s s1 h
    obtain ⟨_, a, _, b⟩ := insertStep_spec W cross ⟨0, 0, 0⟩ s s1 h
    exact ⟨a, b⟩
  · intro R s s1 h
    obtain ⟨_, a, b, c, _⟩ := pruneStep_spec R ⟨0, 0, 0⟩ s s1 h
    exact ⟨a, b, c⟩
  · obtain ⟨t1, h1, e1⟩ := runLoop_insert (fun q : Point K => decide (q.z < 0))
      (crossTop sqrt) ⟨0, 0, 0⟩ path
    obtain ⟨t2, h2, e2⟩ := runLoop_prune (fun q : Point K => decide (q.z > 0))
      ⟨0, 0, 0⟩ t1.path
    rw [← insertTop_eq_insertGen] at e1
    rw [← pruneTop_eq_pruneGen] at e2
    refine ⟨t1, t2, h1, e1, h2, e2, ?_⟩
    rw [e2, e1]
    rfl
  · obtain ⟨t1, h1, e1⟩ := runLoop_insert (fun q : Point K => decide (q.z > 0))
      (crossBottom sqrt) ⟨0, 0, 0⟩ path
    obtain ⟨t2, h2, e2⟩ := runLoop_prune (fun q : Point K => decide (q.z < 0))
      ⟨0, 0, 0⟩ t1.path
    rw [← insertBottom_eq_insertGen] at e1
    rw [← pruneBottom_eq_pruneGen] at e2
    refine ⟨t1, t2, h1, e1, h2, e2, ?_⟩
    rw [e2, e1]
    rfl

end TerminationClaim

section ShapeLists

variable {α : Type}

theorem insertIdx_append_length (E l : List α) (t : α) :
    (E ++ l).insertIdx E.length t = E ++ t :: l := by
  induction E with
  | nil => simp
  | cons a E ih => simp [List.insertIdx_succ_cons, ih]

theorem set_append_length (E l : List α) (v t : α) :
    (E ++ v :: l).set E.length t = E ++ t :: l := by
  induction E with
  | nil => simp
  | cons a E ih => simp [ih]

theorem getD_append_length (E l : List α) (d : α) (k : Nat) :
    (E ++ l).getD (E.length + k) d = l.getD k d := by
  rw [List.getD_append_right _ _ _ _ (by omega)]
  congr 1
  omega

theorem insertBlocks_succ (W : α → Bool) (cross : α → α → α) (d : α) (P : List α) (j : Nat) :
    insertBlocks W cross d P (j + 1) =
      insertBlocks W cross d P j ++ insertBlock W cross d P j := by
  simp [insertBlocks, List.range_succ, List.flatMap_append]

theorem insertBlock_ne_nil (W : α → Bool) (cross : α → α → α) (d : α) (P : List α) (j : Nat) :
    insertBlock W cross d P j ≠ [] := by
  unfold insertBlock
  split_ifs <;> simp

theorem insertBlock_of_not (W : α → Bool) (cross : α → α → α) (d : α) (P : List α) (j : Nat)
    (h : W (P.getD j d) = false) : insertBlock W cross d P j = [P.getD j d] := by
  have hn : ¬ W (P.getD j d) = true := by rw [h]; exact Bool.false_ne_true
  unfold insertBlock
  rw [if_neg (fun hc => hn hc.1), if_neg (fun hc => hn hc.1), if_neg (fun hc => hn hc.1)]

end ShapeLists
section InsertShape

variable {α : Type}

theorem insertBlocks_pos (W : α → Bool) (cross : α → α → α) (d : α) (P : List α) (j : Nat)
    (hj : 1 ≤ j) : 0 < (insertBlocks W cross d P j).length := by
  obtain ⟨m, rfl⟩ : ∃ m, j = m + 1 := ⟨j - 1, by omega⟩
  rw [insertBlocks_succ, List.length_append]
  have := List.length_pos.mpr (insertBlock_ne_nil W cross d P m)
  omega

/-- Before a vertex on the wrong side, the insertion loop has left the vertex
that precedes it. -/
theorem insertBlocks_last (W : α → Bool) (cross : α → α → α) (d : α) (P : List α) (j : Nat)
    (hj : 1 ≤ j) (hjN : j < P.length) (hW : W (P.getD j d) = true) :
    (insertBlocks W cross d P j).getD ((insertBlocks W cross d P j).length - 1) d =
      P.getD (j - 1) d := by
  obtain ⟨m, rfl⟩ : ∃ m, j = m + 1 := ⟨j - 1, by omega⟩
  have hn : cyclicNext P.length m = m + 1 := by
    simp only [cyclicNext]
    split_ifs <;> omega
  have hb := List.length_pos.mpr (insertBlock_ne_nil W cross d P m)
  rw [insertBlocks_succ, List.length_append]
  have e : (insertBlocks W cross d P m).length + (insertBlock W cross d P m).length - 1 =
      (insertBlocks W cross d P m).length + ((insertBlock W cross d P m).length - 1) := by omega
  rw [e, getD_append_length, Nat.add_sub_cancel]
  have hnW : ¬ W (P.getD (cyclicNext P.length m) d) = false := by
    rw [hn, hW]
    exact Bool.noConfusion
  unfold insertBlock
  rw [if_neg (fun hc => hnW hc.2.2)]
  by_cases h1 : W (P.getD m d) = true ∧ W (P.getD (cyclicPrev P.length m) d) = false
  · rw [if_pos h1]
    rfl
  · rw [if_neg h1, if_neg (fun hc => hnW hc.2)]
    rfl

/-- When the last vertex is on the wrong side, the insertion loop has left the
first vertex at the index `0`. -/
theorem insertBlocks_head (W : α → Bool) (cross : α → α → α) (d : α) (P : List α) (j : Nat)
    (hj : 1 ≤ j) (hW : W (P.getD (P.length - 1) d) = true) :
    (insertBlocks W cross d P j).getD 0 d = P.getD 0 d := by
  induction j with
  | zero => omega
  | succ m ih =>
    rw [insertBlocks_succ]
    by_cases hm : 1 ≤ m
    · rw [List.getD_append _ _ _ _ (insertBlocks_pos W cross d P m hm)]
      exact ih hm
    · have hm0 : m = 0 := by omega
      subst hm0
      have hp : cyclicPrev P.length 0 = P.length - 1 := by simp [cyclicPrev]
      have hpW : ¬ W (P.getD (cyclicPrev P.length 0) d) = false := by
        rw [hp, hW]
        exact Bool.noConfusion
      show ([] ++ insertBlock W cross d P 0).getD 0 d = P.getD 0 d
      rw [List.nil_append]
      unfold insertBlock
      rw [if_neg (fun hc => hpW hc.2.1), if_neg (fun hc => hpW hc.2)]
      split_ifs <;> rfl

end InsertShape
section InsertShapeMain

variable {α : Type}

theorem insertFront_nil_of (W : α → Bool) (cross : α → α → α) (d : α) (P : List α)
    (h : ¬ (W (P.getD (P.length - 1) d) = true ∧
      W (P.getD (cyclicPrev P.length (P.length - 1)) d) = true ∧ W (P.getD 0 d) = false)) :
    insertFront W cross d P = [] := by
  unfold insertFront
  exact if_neg h

/-- The insertion loop, started at the vertex `j` of the path `P` with the blocks
of the vertices before `j` in place, ends with the blocks of all the vertices,
after the crossing the last vertex may insert at the index `0`. -/
theorem insert_shape_aux (W : α → Bool) (cross : α → α → α) (d : α) (P : List α)
    (hN : 2 ≤ P.length) :
    ∀ (k j : Nat), P.length - j = k → j < P.length →
      insertGen W cross d (insertBlocks W cross d P j ++ P.drop j)
        ((insertBlocks W cross d P j).length + (P.length - j))
        (insertBlocks W cross d P j).length =
      insertFront W cross d P ++ insertBlocks W cross d P P.length := by
  intro k
  induction k using Nat.strong_induction_on with
  | _ k ih =>
    intro j hk hj
    have bridge : ∀ (X : List α) (s i j' : Nat),
        X = insertBlocks W cross d P j' ++ P.drop j' →
        s = (insertBlocks W cross d P j').length + (P.length - j') →
        (j' < P.length → i = (insertBlocks W cross d P j').length) →
        (j' = P.length → s ≤ i) → j < j' → j' ≤ P.length →
        (j' = P.length → insertFront W cross d P = []) →
        insertGen W cross d X s i =
          insertFront W cross d P ++ insertBlocks W cross d P P.length := by
      intro X s i j' hX hs hi hi2 h1 h2 h3
      subst hX hs
      rcases Nat.lt_or_eq_of_le h2 with h | h
      · rw [hi h]
        exact ih (P.length - j') (by omega) j' rfl h
      · rw [insertGen_done _ _ _ _ _ _ (by have := hi2 h; omega), h3 h, h, List.drop_length]
        simp
    have hdrop : P.drop j = P.getD j d :: P.drop (j + 1) := by
      rw [List.getD_eq_getElem _ _ hj]
      exact List.drop_eq_getElem_cons hj
    have hsucc := insertBlocks_succ W cross d P j
    have hsucc2 := insertBlocks_succ W cross d P (j + 1)
    have hfront : ∀ (_ : ¬ (W (P.getD j d) = true ∧
        W (P.getD (cyclicPrev P.length j) d) = true ∧
        W (P.getD (cyclicNext P.length j) d) = false)),
        j + 1 = P.length → insertFront W cross d P = [] := by
      intro hc h
      have e1 : P.length - 1 = j := by omega
      have e2 : cyclicNext P.length j = 0 := by
        simp only [cyclicNext]
        rw [if_pos (by omega)]
      refine insertFront_nil_of W cross d P ?_
      rw [e1, ← e2]
      exact hc
    generalize hE : insertBlocks W cross d P j = E at hsucc bridge ⊢
    rw [hdrop]
    have hi : (E ++ P.getD j d :: P.drop (j + 1)).getD E.length d = P.getD j d := by
      have := getD_append_length E (P.getD j d :: P.drop (j + 1)) d 0
      simpa using this
    have hsz : E.length < E.length + (P.length - j) := by omega
    have en : cyclicNext (E.length + (P.length - j)) E.length =
        if j + 1 = P.length then 0 else E.length + 1 := by
      simp only [cyclicNext]
      split_ifs <;> omega
    have step1 : ∀ blk : List α, insertBlock W cross d P j = blk →
        (j + 1 = P.length → insertFront W cross d P = []) →
        insertGen W cross d (E ++ blk ++ P.drop (j + 1))
          (E.length + blk.length + (P.length - (j + 1))) (E.length + blk.length) =
        insertFront W cross d P ++ insertBlocks W cross d P P.length := by
      intro blk hb hf
      refine bridge _ _ _ (j + 1) ?_ ?_ ?_ ?_ (by omega) (by omega) hf
      · rw [hsucc, hb]
      · rw [hsucc, hb, List.length_append]
      · intro _
        rw [hsucc, hb, List.length_append]
      · intro h
        omega
    rw [insertGen_step W cross d _ _ _ hsz, hi]
    by_cases hW : W (P.getD j d) = true
    · have hp : (E ++ P.getD j d :: P.drop (j + 1)).getD
          (cyclicPrev (E.length + (P.length - j)) E.length) d =
          P.getD (cyclicPrev P.length j) d := by
        by_cases hj0 : j = 0
        · subst hj0
          have hE0 : E = [] := by rw [← hE]; rfl
          rw [hE0]
          simp only [List.nil_append, List.length_nil, cyclicPrev]
          rw [← hdrop]
          simp
        · have hpos : 0 < E.length := by
            rw [← hE]
            exact insertBlocks_pos W cross d P j (by omega)
          have e1 : cyclicPrev (E.length + (P.length - j)) E.length = E.length - 1 := by
            simp only [cyclicPrev]
            rw [if_pos (by omega)]
          have e2 : cyclicPrev P.length j = j - 1 := by
            simp only [cyclicPrev]
            rw [if_pos hj0]
          rw [e1, e2, List.getD_append _ _ _ _ (by omega), ← hE]
          exact insertBlocks_last W cross d P j (by omega) hj hW
      have hn : (E ++ P.getD j d :: P.drop (j + 1)).getD
          (cyclicNext (E.length + (P.length - j)) E.length) d =
          P.getD (cyclicNext P.length j) d := by
        rw [en]
        by_cases hjl : j + 1 = P.length
        · have hpos : 0 < E.length := by
            rw [← hE]
            exact insertBlocks_pos W cross d P j (by omega)
          have e2 : cyclicNext P.length j = 0 := by
            simp only [cyclicNext]
            rw [if_pos (by omega)]
          rw [if_pos hjl, e2, List.getD_append _ _ _ _ hpos, ← hE]
          refine insertBlocks_head W cross d P j (by omega) ?_
          have e3 : P.length - 1 = j := by omega
          rw [e3]
          exact hW
        · have e2 : cyclicNext P.length j = j + 1 := by
            simp only [cyclicNext]
            rw [if_neg (by omega)]
          have hd2 : P.drop (j + 1) = P.getD (j + 1) d :: P.drop (j + 1 + 1) := by
            rw [List.getD_eq_getElem _ _ (by omega)]
            exact List.drop_eq_getElem_cons (by omega)
          rw [if_neg hjl, e2, getD_append_length, hd2]
          rfl
      rw [hp, hn]
      by_cases hA : W (P.getD j d) = true ∧ W (P.getD (cyclicPrev P.length j) d) = false ∧
          W (P.getD (cyclicNext P.length j) d) = false
      · rw [if_pos hA, set_append_length, insertIdx_append_length]
        have hb : insertBlock W cross d P j =
            [cross (P.getD (cyclicPrev P.length j) d) (P.getD j d),
              cross (P.getD (cyclicNext P.length j) d) (P.getD j d)] := by
          unfold insertBlock
          rw [if_pos hA]
        have hnf : ¬ (W (P.getD j d) = true ∧ W (P.getD (cyclicPrev P.length j) d) = true ∧
            W (P.getD (cyclicNext P.length j) d) = false) := by
          intro hc
          rw [hA.2.1] at hc
          exact Bool.noConfusion hc.2.1
        by_cases hjl : j + 1 = P.length
        · refine bridge _ _ _ (j + 1) ?_ ?_ ?_ ?_ (by omega) (by omega) (hfront hnf)
          · rw [hsucc, hb]
            simp
          · rw [hsucc, hb, List.length_append]
            simp only [List.length_cons, List.length_nil]
            omega
          · intro h
            omega
          · intro _
            omega
        · have e2 : cyclicNext P.length j = j + 1 := by
            simp only [cyclicNext]
            rw [if_neg (by omega)]
          have hd2 : P.drop (j + 1) = P.getD (j + 1) d :: P.drop (j + 1 + 1) := by
            rw [List.getD_eq_getElem _ _ (by omega)]
            exact List.drop_eq_getElem_cons (by omega)
          have hWn : W (P.getD (j + 1) d) = false := by
            rw [← e2]
            exact hA.2.2
          have hb2 := insertBlock_of_not W cross d P (j + 1) hWn
          have hlen2 : (insertBlocks W cross d P (j + 1 + 1)).length = E.length + 3 := by
            rw [hsucc2, hsucc, hb, hb2]
            simp
          refine bridge _ _ _ (j + 1 + 1) ?_ ?_ ?_ ?_ (by omega) (by omega) ?_
          · rw [hsucc2, hsucc, hb, hb2, hd2]
            simp
          · rw [hlen2]
            omega
          · intro _
            rw [hlen2]
          · intro h
            omega
          · intro h
            refine insertFront_nil_of W cross d P ?_
            intro hc
            have e3 : P.length - 1 = j + 1 := by omega
            rw [e3, hWn] at hc
            exact Bool.noConfusion hc.1
      · rw [if_neg hA]
        by_cases hB : W (P.getD j d) = true ∧ W (P.getD (cyclicPrev P.length j) d) = false
        · rw [if_pos hB, insertIdx_append_length]
          have hb : insertBlock W cross d P j =
              [cross (P.getD (cyclicPrev P.length j) d) (P.getD j d), P.getD j d] := by
            unfold insertBlock
            rw [if_neg hA, if_pos hB]
          have hnf : ¬ (W (P.getD j d) = true ∧ W (P.getD (cyclicPrev P.length j) d) = true ∧
              W (P.getD (cyclicNext P.length j) d) = false) := by
            intro hc
            rw [hB.2] at hc
            exact Bool.noConfusion hc.2.1
          have := step1 _ hb (hfront hnf)
          simp only [List.append_assoc, List.cons_append, List.nil_append, List.length_cons,
            List.length_nil] at this
          have e1 : E.length + (P.length - j) + 1 = E.length + (0 + 1 + 1) + (P.length - (j + 1)) := by
            omega
          rw [e1]
          exact this
        · rw [if_neg hB]
          by_cases hC : W (P.getD j d) = true ∧ W (P.getD (cyclicNext P.length j) d) = false
          · rw [if_pos hC, en]
            by_cases hjl : j + 1 = P.length
            · rw [if_pos hjl, List.insertIdx_zero]
              have hdn : P.drop (j + 1) = [] := by rw [hjl, List.drop_length]
              have hb : insertBlock W cross d P j = [P.getD j d] := by
                unfold insertBlock
                rw [if_neg hA, if_neg hB, if_pos hC, if_pos (by omega)]
              have hWp : W (P.getD (cyclicPrev P.length j) d) = true :=
                bool_true_of_not_false (fun hc => hB ⟨hW, hc⟩)
              have e1 : P.length - 1 = j := by omega
              have e2 : cyclicNext P.length j = 0 := by
                simp only [cyclicNext]
                rw [if_pos (by omega)]
              have hf : insertFront W cross d P =
                  [cross (P.getD (cyclicNext P.length j) d) (P.getD j d)] := by
                unfold insertFront
                rw [e1, ← e2, if_pos ⟨hW, hWp, hC.2⟩]
              rw [insertGen_done _ _ _ _ _ _ (by omega), hf, ← hjl, hsucc, hb, hdn]
              simp
            · rw [if_neg hjl]
              have hb : insertBlock W cross d P j =
                  [P.getD j d, cross (P.getD (cyclicNext P.length j) d) (P.getD j d)] := by
                unfold insertBlock
                rw [if_neg hA, if_neg hB, if_pos hC, if_neg (by omega)]
              have hins := insertIdx_append_length (E ++ [P.getD j d]) (P.drop (j + 1))
                (cross (P.getD (cyclicNext P.length j) d) (P.getD j d))
              simp only [List.append_assoc, List.cons_append, List.nil_append,
                List.length_append, List.length_cons, List.length_nil] at hins
              rw [hins]
              have := step1 _ hb (fun h => absurd h hjl)
              simp only [List.append_assoc, List.cons_append, List.nil_append, List.length_cons,
                List.length_nil] at this
              have e1 : E.length + (P.length - j) + 1 =
                  E.length + (0 + 1 + 1) + (P.length - (j + 1)) := by omega
              rw [e1]
              exact this
          · rw [if_neg hC]
            have hb : insertBlock W cross d P j = [P.getD j d] := by
              unfold insertBlock
              rw [if_neg hA, if_neg hB, if_neg hC]
            have hnf : ¬ (W (P.getD j d) = true ∧
                W (P.getD (cyclicPrev P.length j) d) = true ∧
                W (P.getD (cyclicNext P.length j) d) = false) :=
              fun hc => hC ⟨hc.1, hc.2.2⟩
            have := step1 _ hb (hfront hnf)
            simp only [List.append_assoc, List.cons_append, List.nil_append, List.length_cons,
              List.length_nil] at this
            have e1 : E.length + (P.length - j) = E.length + (0 + 1) + (P.length - (j + 1)) := by
              omega
            rw [e1]
            exact this
    · have hnW : ¬ W (P.getD j d) = true := hW
      rw [if_neg (fun hc => hnW hc.1), if_neg (fun hc => hnW hc.1), if_neg (fun hc => hnW hc.1)]
      have hb : insertBlock W cross d P j = [P.getD j d] :=
        insertBlock_of_not W cross d P j (by
          cases h : W (P.getD j d)
          · rfl
          · exact absurd h hW)
      have := step1 _ hb (hfront (fun hc => hnW hc.1))
      simp only [List.append_assoc, List.cons_append, List.nil_append, List.length_cons,
        List.length_nil] at this
      have e1 : E.length + (P.length - j) = E.length + (0 + 1) + (P.length - (j + 1)) := by
        omega
      rw [e1]
      exact this

/-- The path the insertion loop makes of a path of at least two vertices. -/
theorem insert_shape (W : α → Bool) (cross : α → α → α) (d : α) (P : List α)
    (hN : 2 ≤ P.length) :
    insertGen W cross d P P.length 0 =
      insertFront W cross d P ++ insertBlocks W cross d P P.length := by
  have := insert_shape_aux W cross d P hN _ 0 rfl (by omega)
  simpa [insertBlocks] using this

end InsertShapeMain
section PruneFilter

variable {α : Type}

theorem keepAt_eraseIdx (W R : α → Bool) (d : α) (P : List α) (i : Nat) (hi : i < P.length)
    (hRi : R (P.getD i d) = false) (j : Nat) (hj : j < P.length) (hji : j ≠ i)
    (h : KeepAt W R d P j) :
    KeepAt W R d (P.eraseIdx i) (if j < i then j else j - 1) := by
  have hlen : (P.eraseIdx i).length = P.length - 1 := List.length_eraseIdx_of_lt hi
  have hself : (P.eraseIdx i).getD (if j < i then j else j - 1) d = P.getD j d := by
    rw [getD_eraseIdx]
    by_cases hlt : j < i
    · rw [if_pos hlt, if_pos hlt]
    · have h1 : ¬ (j - 1 < i) := by omega
      rw [if_neg hlt, if_neg h1]
      congr 1
      omega
  have hprev : cyclicPrev P.length j ≠ i →
      (if cyclicPrev (P.length - 1) (if j < i then j else j - 1) < i
        then cyclicPrev (P.length - 1) (if j < i then j else j - 1)
        else cyclicPrev (P.length - 1) (if j < i then j else j - 1) + 1) = cyclicPrev P.length j := by
    simp only [cyclicPrev]
    split_ifs <;> omega
  have hnext : cyclicNext P.length j ≠ i →
      (if cyclicNext (P.length - 1) (if j < i then j else j - 1) < i
        then cyclicNext (P.length - 1) (if j < i then j else j - 1)
        else cyclicNext (P.length - 1) (if j < i then j else j - 1) + 1) = cyclicNext P.length j := by
    simp only [cyclicNext]
    split_ifs <;> omega
  have e1 : ∀ idx, (P.eraseIdx i).getD idx d = P.getD (if idx < i then idx else idx + 1) d := by
    intro idx
    rw [getD_eraseIdx]
    split_ifs <;> rfl
  unfold KeepAt
  rw [hlen, hself]
  intro hw hr
  rcases h hw hr with g | g
  · left
    have hne : cyclicPrev P.length j ≠ i := by
      intro e
      rw [e, hRi] at g
      exact Bool.noConfusion g
    rw [e1, hprev hne]
    exact g
  · right
    have hne : cyclicNext P.length j ≠ i := by
      intro e
      rw [e, hRi] at g
      exact Bool.noConfusion g
    rw [e1, hnext hne]
    exact g

/-- On a path in which the vertices on the wrong side have no neighbour strictly
inside, and the other vertices are strictly inside or have such a neighbour, the
pruning loop removes exactly the vertices on the wrong side. -/
theorem pruneGen_eq_filter (W R : α → Bool) (d : α) (hWR : ∀ q, W q = true → R q = false) :
    ∀ (k : Nat) (P : List α) (size i : Nat), size - i = k → size = P.length →
      (∀ j, j < P.length → GoodAt W R d P j) →
      (∀ j, j < P.length → KeepAt W R d P j) →
      pruneGen R d P size i = P.take i ++ (P.drop i).filter (fun q => !W q) := by
  intro k
  induction k using Nat.strong_induction_on with
  | _ k ih =>
    intro P size i hk hs hgood hkeep
    by_cases hi : i < size
    · rw [pruneGen_step R d P size i hi]
      subst hs
      have hdrop : P.drop i = P.getD i d :: P.drop (i + 1) := by
        rw [List.getD_eq_getElem _ _ hi]
        exact List.drop_eq_getElem_cons hi
      by_cases hE : R (P.getD i d) = false ∧ R (P.getD (cyclicPrev P.length i) d) = false ∧
          R (P.getD (cyclicNext P.length i) d) = false
      · rw [if_pos hE]
        have hlen : (P.eraseIdx i).length = P.length - 1 := List.length_eraseIdx_of_lt hi
        have hWi : W (P.getD i d) = true := by
          by_contra hw
          have hw' : W (P.getD i d) = false := by
            cases h : W (P.getD i d)
            · rfl
            · exact absurd h hw
          rcases hkeep i hi hw' hE.1 with g | g
          · rw [hE.2.1] at g
            exact Bool.noConfusion g
          · rw [hE.2.2] at g
            exact Bool.noConfusion g
        rw [ih _ (by omega) _ _ _ rfl hlen.symm ?_ ?_]
        · rw [drop_eraseIdx_self, hdrop, List.filter_cons_of_neg (by
            show ¬ ((!W (P.getD i d)) = true)
            rw [hWi]
            decide)]
          congr 1
          rw [List.eraseIdx_eq_take_drop_succ, List.take_append_of_le_length (by simp; omega)]
          simp
        · intro j' hj'
          rw [hlen] at hj'
          have hg := goodAt_eraseIdx W R d P i hi hE.2.1 hE.2.2
            (if j' < i then j' else j' + 1) (by split_ifs <;> omega) (by split_ifs <;> omega)
            (hgood _ (by split_ifs <;> omega))
          have e : (if (if j' < i then j' else j' + 1) < i
              then (if j' < i then j' else j' + 1)
              else (if j' < i then j' else j' + 1) - 1) = j' := by
            split_ifs <;> omega
          rw [e] at hg
          exact hg
        · intro j' hj'
          rw [hlen] at hj'
          have hg := keepAt_eraseIdx W R d P i hi hE.1
            (if j' < i then j' else j' + 1) (by split_ifs <;> omega) (by split_ifs <;> omega)
            (hkeep _ (by split_ifs <;> omega))
          have e : (if (if j' < i then j' else j' + 1) < i
              then (if j' < i then j' else j' + 1)
              else (if j' < i then j' else j' + 1) - 1) = j' := by
            split_ifs <;> omega
          rw [e] at hg
          exact hg
      · rw [if_neg hE]
        have hWi : W (P.getD i d) = false := by
          cases h : W (P.getD i d)
          · rfl
          · exact absurd ⟨hWR _ h, hgood i hi h⟩ hE
        rw [ih _ (by omega) _ _ _ rfl rfl hgood hkeep, hdrop,
          List.filter_cons_of_pos (by
            show (!W (P.getD i d)) = true
            rw [hWi]
            rfl)]
        have ht : P.take (i + 1) = P.take i ++ [P.getD i d] := by
          rw [List.take_succ, List.getElem?_eq_getElem hi, List.getD_eq_getElem _ _ hi]
          rfl
        rw [ht, List.append_assoc]
        rfl
    · rw [pruneGen_done R d P size i hi]
      rw [List.take_of_length_le (by omega), List.drop_of_length_le (by omega)]
      simp

end PruneFilter
section Boundary

variable {α : Type}

theorem boundaryOk_index (W R : α → Bool) (d : α) (L : List α) :
    ∀ (a b : α), BoundaryOk W R a L b → ∀ j, j < L.length →
      W (L.getD j d) = false → R (L.getD j d) = false →
      R (if j = 0 then a else L.getD (j - 1) d) = true ∨
      R (if j + 1 = L.length then b else L.getD (j + 1) d) = true := by
  induction L with
  | nil =>
    intro a b _ j hj
    simp at hj
  | cons x L ih =>
    intro a b h j hj hw hr
    cases L with
    | nil =>
      have hj0 : j = 0 := by simpa using hj
      subst hj0
      exact h hw hr
    | cons y l =>
      obtain ⟨h1, h2⟩ := h
      cases j with
      | zero =>
        rcases h1 hw hr with g | g
        · exact Or.inl g
        · right
          rw [if_neg (by simp)]
          exact g
      | succ j =>
        have hj' : j < (y :: l).length := by simpa using hj
        have := ih x b h2 j hj' hw hr
        rcases this with g | g
        · left
          rw [if_neg (by omega)]
          cases j with
          | zero => exact g
          | succ j =>
            rw [if_neg (by omega)] at g
            exact g
        · right
          by_cases e : j + 1 = (y :: l).length
          · rw [if_pos e] at g
            rw [if_pos (by simp at e ⊢; omega)]
            exact g
          · rw [if_neg e] at g
            rw [if_neg (by simp at e ⊢; omega)]
            exact g

theorem boundaryOk_keepAt (W R : α → Bool) (d : α) (L : List α)
    (h : BoundaryOk W R (L.getD (L.length - 1) d) L (L.getD 0 d)) :
    ∀ j, j < L.length → KeepAt W R d L j := by
  intro j hj hw hr
  rcases boundaryOk_index W R d L _ _ h j hj hw hr with g | g
  · left
    simp only [cyclicPrev]
    by_cases e : j = 0
    · rw [if_pos e] at g
      rw [if_neg (by simpa using e)]
      exact g
    · rw [if_neg e] at g
      rw [if_pos e]
      exact g
  · right
    simp only [cyclicNext]
    by_cases e : j + 1 = L.length
    · rw [if_pos e] at g
      rw [if_pos (by omega)]
      exact g
    · rw [if_neg e] at g
      rw [if_neg (by omega)]
      exact g

theorem boundaryOk_append (W R : α → Bool) (l1 l2 : List α) :
    ∀ (a b : α), BoundaryOk W R a l1 (l2.headD b) → BoundaryOk W R (l1.getLastD a) l2 b →
      BoundaryOk W R a (l1 ++ l2) b := by
  induction l1 with
  | nil =>
    intro a b _ h2
    exact h2
  | cons x l1 ih =>
    intro a b h1 h2
    cases l1 with
    | nil =>
      cases l2 with
      | nil => exact h1
      | cons y l2 => exact ⟨h1, h2⟩
    | cons x1 l1 =>
      obtain ⟨g1, g2⟩ := h1
      exact ⟨g1, ih x b g2 h2⟩

end Boundary
section BlocksBoundary

variable {α : Type}

theorem headD_of_ne_nil (l : List α) (x y : α) (h : l ≠ []) : l.headD x = l.headD y := by
  cases l with
  | nil => exact absurd rfl h
  | cons a l => rfl

theorem getLastD_append_singleton (l : List α) (x a : α) : (l ++ [x]).getLastD a = x := by
  induction l generalizing a with
  | nil => rfl
  | cons y l ih =>
    show (y :: (l ++ [x])).getLastD a = x
    rw [List.getLastD_cons]
    exact ih y

theorem insertBlocks_getD_zero (W : α → Bool) (cross : α → α → α) (d : α) (P : List α)
    (j : Nat) (hj : 1 ≤ j) :
    (insertBlocks W cross d P j).getD 0 d = (insertBlock W cross d P 0).getD 0 d := by
  induction j with
  | zero => omega
  | succ m ih =>
    rw [insertBlocks_succ]
    by_cases hm : 1 ≤ m
    · rw [List.getD_append _ _ _ _ (insertBlocks_pos W cross d P m hm)]
      exact ih hm
    · have hm0 : m = 0 := by omega
      subst hm0
      show ([] ++ insertBlock W cross d P 0).getD 0 d = _
      rw [List.nil_append]

/-- In the blocks the insertion loop leaves, every crossing point has a neighbour
strictly inside, when every vertex of the path is on the wrong side or strictly
inside. -/
theorem blocks_boundaryOk (W R : α → Bool) (cross : α → α → α) (d : α) (P : List α)
    (hO : ∀ j, j < P.length → W (P.getD j d) = false → R (P.getD j d) = true)
    (a b : α)
    (ha : W (P.getD (P.length - 1) d) = false → R a = true)
    (hb : W (P.getD (P.length - 1) d) = true →
      W (P.getD (cyclicPrev P.length (P.length - 1)) d) = false →
      W (P.getD 0 d) = false → R b = true) :
    ∀ j, j ≤ P.length →
      BoundaryOk W R a (insertBlocks W cross d P j)
        (if j < P.length then (insertBlock W cross d P j).headD d else b) := by
  intro j
  induction j with
  | zero =>
    intro _
    show BoundaryOk W R a [] _
    trivial
  | succ j ih =>
    intro hj
    have hjN : j < P.length := by omega
    have ih' := ih (by omega)
    rw [if_pos hjN] at ih'
    rw [insertBlocks_succ]
    refine boundaryOk_append W R _ _ a _ ?_ ?_
    · rw [headD_of_ne_nil _ _ d (insertBlock_ne_nil W cross d P j)]
      exact ih'
    · have FP : W (P.getD (cyclicPrev P.length j) d) = false →
          R ((insertBlocks W cross d P j).getLastD a) = true := by
        intro hw
        cases j with
        | zero =>
          have e : cyclicPrev P.length 0 = P.length - 1 := by simp [cyclicPrev]
          rw [e] at hw
          exact ha hw
        | succ m =>
          have e : cyclicPrev P.length (m + 1) = m := by simp [cyclicPrev]
          rw [e] at hw
          rw [insertBlocks_succ, insertBlock_of_not W cross d P m hw, getLastD_append_singleton]
          exact hO m (by omega) hw
      have FS : W (P.getD (cyclicNext P.length j) d) = false →
          (j + 1 = P.length → W (P.getD j d) = true ∧
            W (P.getD (cyclicPrev P.length j) d) = false) →
          R (if j + 1 < P.length then (insertBlock W cross d P (j + 1)).headD d else b)
            = true := by
        intro hw hlast
        by_cases hjl : j + 1 < P.length
        · have e : cyclicNext P.length j = j + 1 := by
            simp only [cyclicNext]
            rw [if_neg (by omega)]
          rw [e] at hw
          rw [if_pos hjl, insertBlock_of_not W cross d P (j + 1) hw]
          exact hO (j + 1) hjl hw
        · have hjl' : j + 1 = P.length := by omega
          have e : cyclicNext P.length j = 0 := by
            simp only [cyclicNext]
            rw [if_pos (by omega)]
          have e1 : P.length - 1 = j := by omega
          rw [e] at hw
          rw [if_neg hjl]
          refine hb ?_ ?_ hw
          · rw [e1]
            exact (hlast hjl').1
          · rw [e1]
            exact (hlast hjl').2
      by_cases hA : W (P.getD j d) = true ∧ W (P.getD (cyclicPrev P.length j) d) = false ∧
          W (P.getD (cyclicNext P.length j) d) = false
      · have hblk : insertBlock W cross d P j =
            [cross (P.getD (cyclicPrev P.length j) d) (P.getD j d),
              cross (P.getD (cyclicNext P.length j) d) (P.getD j d)] := by
          unfold insertBlock
          rw [if_pos hA]
        rw [hblk]
        exact ⟨fun _ _ => Or.inl (FP hA.2.1),
          fun _ _ => Or.inr (FS hA.2.2 (fun _ => ⟨hA.1, hA.2.1⟩))⟩
      · by_cases hB : W (P.getD j d) = true ∧ W (P.getD (cyclicPrev P.length j) d) = false
        · have hblk : insertBlock W cross d P j =
              [cross (P.getD (cyclicPrev P.length j) d) (P.getD j d), P.getD j d] := by
            unfold insertBlock
            rw [if_neg hA, if_pos hB]
          rw [hblk]
          refine ⟨fun _ _ => Or.inl (FP hB.2), fun hw _ => ?_⟩
          rw [hB.1] at hw
          exact Bool.noConfusion hw
        · by_cases hC : W (P.getD j d) = true ∧ W (P.getD (cyclicNext P.length j) d) = false
          · by_cases hjl : j = P.length - 1
            · have hblk : insertBlock W cross d P j = [P.getD j d] := by
                unfold insertBlock
                rw [if_neg hA, if_neg hB, if_pos hC, if_pos hjl]
              rw [hblk]
              intro hw _
              rw [hC.1] at hw
              exact Bool.noConfusion hw
            · have hblk : insertBlock W cross d P j =
                  [P.getD j d, cross (P.getD (cyclicNext P.length j) d) (P.getD j d)] := by
                unfold insertBlock
                rw [if_neg hA, if_neg hB, if_pos hC, if_neg hjl]
              rw [hblk]
              refine ⟨fun hw _ => ?_, fun _ _ => Or.inr (FS hC.2 (fun h => ?_))⟩
              · rw [hC.1] at hw
                exact Bool.noConfusion hw
              · omega
          · have hblk : insertBlock W cross d P j = [P.getD j d] := by
              unfold insertBlock
              rw [if_neg hA, if_neg hB, if_neg hC]
            rw [hblk]
            intro hw hr
            rw [hO j hjN hw] at hr
            exact Bool.noConfusion hr

end BlocksBoundary
section LoopsClip

variable {α : Type}

theorem headD_eq_getD_zero (l : List α) (x d : α) (h : l ≠ []) : l.headD x = l.getD 0 d := by
  cases l with
  | nil => exact absurd rfl h
  | cons a l => rfl

theorem insertBlocks_ne_nil (W : α → Bool) (cross : α → α → α) (d : α) (P : List α) (j : Nat)
    (hj : 1 ≤ j) : insertBlocks W cross d P j ≠ [] :=
  List.length_pos.mp (insertBlocks_pos W cross d P j hj)

/-- After the insertion loop every crossing point has a neighbour strictly
inside the target hemisphere. -/
theorem insert_keepAt (W R : α → Bool) (cross : α → α → α) (d : α) (P : List α)
    (hN : 2 ≤ P.length)
    (hO : ∀ j, j < P.length → W (P.getD j d) = false → R (P.getD j d) = true) :
    ∀ idx, idx < (insertFront W cross d P ++ insertBlocks W cross d P P.length).length →
      KeepAt W R d (insertFront W cross d P ++ insertBlocks W cross d P P.length) idx := by
  have hEne := insertBlocks_ne_nil W cross d P P.length (by omega)
  have hhead : W (P.getD 0 d) = false →
      (insertBlocks W cross d P P.length).getD 0 d = P.getD 0 d := by
    intro hw
    rw [insertBlocks_getD_zero W cross d P P.length (by omega),
      insertBlock_of_not W cross d P 0 hw]
    rfl
  refine boundaryOk_keepAt W R d _ ?_
  by_cases hF : W (P.getD (P.length - 1) d) = true ∧
      W (P.getD (cyclicPrev P.length (P.length - 1)) d) = true ∧ W (P.getD 0 d) = false
  · have hf : insertFront W cross d P = [cross (P.getD 0 d) (P.getD (P.length - 1) d)] := by
      unfold insertFront
      rw [if_pos hF]
    rw [hf]
    refine boundaryOk_append W R _ _ _ _ ?_ ?_
    · intro _ _
      right
      rw [headD_eq_getD_zero _ _ d hEne, hhead hF.2.2]
      exact hO 0 (by omega) hF.2.2
    · have := blocks_boundaryOk W R cross d P hO
        (cross (P.getD 0 d) (P.getD (P.length - 1) d))
        (([cross (P.getD 0 d) (P.getD (P.length - 1) d)] ++
          insertBlocks W cross d P P.length).getD 0 d)
        (fun hw => by
          rw [hF.1] at hw
          exact Bool.noConfusion hw)
        (fun _ hw _ => by
          rw [hF.2.1] at hw
          exact Bool.noConfusion hw)
        P.length (le_refl _)
      rw [if_neg (lt_irrefl _)] at this
      exact this
  · rw [insertFront_nil_of W cross d P hF, List.nil_append]
    have := blocks_boundaryOk W R cross d P hO
      ((insertBlocks W cross d P P.length).getD
        ((insertBlocks W cross d P P.length).length - 1) d)
      ((insertBlocks W cross d P P.length).getD 0 d)
      (fun hw => by
        obtain ⟨m, hm⟩ : ∃ m, P.length = m + 1 := ⟨P.length - 1, by omega⟩
        have e1 : P.length - 1 = m := by omega
        rw [e1] at hw
        have hb := insertBlock_of_not W cross d P m hw
        have : insertBlocks W cross d P P.length =
            insertBlocks W cross d P m ++ [P.getD m d] := by
          rw [hm, insertBlocks_succ, hb]
        rw [this]
        have e2 : (insertBlocks W cross d P m ++ [P.getD m d]).length - 1 =
            (insertBlocks W cross d P m).length + 0 := by simp
        rw [e2, getD_append_length]
        exact hO m (by omega) hw)
      (fun _ _ hw => by
        rw [hhead hw]
        exact hO 0 (by omega) hw)
      P.length (le_refl _)
    rw [if_neg (lt_irrefl _)] at this
    exact this

/-- The vertices that are not on the wrong side, among those the insertion loop
leaves in the place of the vertex `j`: what the specification puts in the place
of this vertex (the last vertex apart, when its crossing goes to the index `0`). -/
theorem insertBlock_filter (W R : α → Bool) (cross : α → α → α) (d : α) (P : List α)
    (hWR : ∀ q, W q = true → R q = false)
    (hO : ∀ j, j < P.length → W (P.getD j d) = false → R (P.getD j d) = true)
    (hcW : ∀ a b, W (cross a b) = false) (j : Nat) (hj : j < P.length) :
    (insertBlock W cross d P j).filter (fun q => !W q) ++
      (if j = P.length - 1 then insertFront W cross d P else []) =
    (if R (P.getD j d) = true then [P.getD j d]
      else
        (if R (P.getD (cyclicPrev P.length j) d) = true
          then [cross (P.getD (cyclicPrev P.length j) d) (P.getD j d)] else []) ++
        (if R (P.getD (cyclicNext P.length j) d) = true
          then [cross (P.getD (cyclicNext P.length j) d) (P.getD j d)] else [])) := by
  have hp : cyclicPrev P.length j < P.length := by
    simp only [cyclicPrev]
    split_ifs <;> omega
  have hn : cyclicNext P.length j < P.length := by
    simp only [cyclicNext]
    split_ifs <;> omega
  have hfront : j = P.length - 1 →
      ¬ (W (P.getD j d) = true ∧ W (P.getD (cyclicPrev P.length j) d) = true ∧
        W (P.getD (cyclicNext P.length j) d) = false) → insertFront W cross d P = [] := by
    intro e hc
    have e2 : cyclicNext P.length j = 0 := by
      simp only [cyclicNext]
      rw [if_pos e]
    refine insertFront_nil_of W cross d P ?_
    rw [← e, ← e2]
    exact hc
  have hfrontnil : ∀ (_ : ¬ (W (P.getD j d) = true ∧
      W (P.getD (cyclicPrev P.length j) d) = true ∧
      W (P.getD (cyclicNext P.length j) d) = false)),
      (if j = P.length - 1 then insertFront W cross d P else []) = [] := by
    intro hc
    by_cases e : j = P.length - 1
    · rw [if_pos e]
      exact hfront e hc
    · rw [if_neg e]
  have fcW : ∀ (x : α) (l : List α), W x = true →
      (x :: l).filter (fun q => !W q) = l.filter (fun q => !W q) := by
    intro x l h
    exact List.filter_cons_of_neg (by
      show ¬ ((!W x) = true)
      rw [h]
      decide)
  have fcN : ∀ (x : α) (l : List α), W x = false →
      (x :: l).filter (fun q => !W q) = x :: l.filter (fun q => !W q) := by
    intro x l h
    exact List.filter_cons_of_pos (by
      show (!W x) = true
      rw [h]
      rfl)
  have fW : ∀ q, W q = true → [q].filter (fun q => !W q) = [] := by
    intro q h
    rw [fcW q [] h]
    rfl
  have fN : ∀ q, W q = false → [q].filter (fun q => !W q) = [q] := by
    intro q h
    rw [fcN q [] h]
    rfl
  cases hv : W (P.getD j d) with
  | false =>
    have hb := insertBlock_of_not W cross d P j hv
    rw [hb, fN _ hv, if_pos (hO j hj hv), hfrontnil (fun hc => by
      rw [hv] at hc
      exact Bool.noConfusion hc.1)]
    rfl
  | true =>
    have hRv : ¬ R (P.getD j d) = true := by
      rw [hWR _ hv]
      exact Bool.noConfusion
    rw [if_neg hRv]
    cases hpw : W (P.getD (cyclicPrev P.length j) d) with
    | false =>
      rw [if_pos (hO _ hp hpw)]
      have hnil := hfrontnil (fun hc => by
        rw [hpw] at hc
        exact Bool.noConfusion hc.2.1)
      cases hnw : W (P.getD (cyclicNext P.length j) d) with
      | false =>
        have hb : insertBlock W cross d P j =
            [cross (P.getD (cyclicPrev P.length j) d) (P.getD j d),
              cross (P.getD (cyclicNext P.length j) d) (P.getD j d)] := by
          unfold insertBlock
          rw [if_pos ⟨hv, hpw, hnw⟩]
        rw [hb, if_pos (hO _ hn hnw), hnil, fcN _ _ (hcW _ _), fN _ (hcW _ _)]
        rfl
      | true =>
        have hnA : ¬ (W (P.getD j d) = true ∧
            W (P.getD (cyclicPrev P.length j) d) = false ∧
            W (P.getD (cyclicNext P.length j) d) = false) := by
          intro hc
          rw [hnw] at hc
          exact Bool.noConfusion hc.2.2
        have hb : insertBlock W cross d P j =
            [cross (P.getD (cyclicPrev P.length j) d) (P.getD j d), P.getD j d] := by
          unfold insertBlock
          rw [if_neg hnA, if_pos ⟨hv, hpw⟩]
        have hRn : ¬ R (P.getD (cyclicNext P.length j) d) = true := by
          rw [hWR _ hnw]
          exact Bool.noConfusion
        rw [hb, if_neg hRn, hnil, fcN _ _ (hcW _ _), fW _ hv]
    | true =>
      have hRp : ¬ R (P.getD (cyclicPrev P.length j) d) = true := by
        rw [hWR _ hpw]
        exact Bool.noConfusion
      rw [if_neg hRp]
      have hnA : ¬ (W (P.getD j d) = true ∧ W (P.getD (cyclicPrev P.length j) d) = false ∧
          W (P.getD (cyclicNext P.length j) d) = false) := by
        intro hc
        rw [hpw] at hc
        exact Bool.noConfusion hc.2.1
      have hnB : ¬ (W (P.getD j d) = true ∧ W (P.getD (cyclicPrev P.length j) d) = false) := by
        intro hc
        rw [hpw] at hc
        exact Bool.noConfusion hc.2
      cases hnw : W (P.getD (cyclicNext P.length j) d) with
      | false =>
        rw [if_pos (hO _ hn hnw)]
        by_cases e : j = P.length - 1
        · have hb : insertBlock W cross d P j = [P.getD j d] := by
            unfold insertBlock
            rw [if_neg hnA, if_neg hnB, if_pos ⟨hv, hnw⟩, if_pos e]
          have e2 : cyclicNext P.length j = 0 := by
            simp only [cyclicNext]
            rw [if_pos e]
          have hf : insertFront W cross d P =
              [cross (P.getD (cyclicNext P.length j) d) (P.getD j d)] := by
            unfold insertFront
            rw [← e, ← e2, if_pos ⟨hv, hpw, hnw⟩]
          rw [hb, fW _ hv, if_pos e, hf]
        · have hb : insertBlock W cross d P j =
              [P.getD j d, cross (P.getD (cyclicNext P.length j) d) (P.getD j d)] := by
            unfold insertBlock
            rw [if_neg hnA, if_neg hnB, if_pos ⟨hv, hnw⟩, if_neg e]
          have e' : (if j = P.length - 1 then insertFront W cross d P else []) = [] :=
            if_neg e
          rw [hb, e', fcW _ _ hv, fN _ (hcW _ _)]
          rfl
      | true =>
        have hnC : ¬ (W (P.getD j d) = true ∧
            W (P.getD (cyclicNext P.length j) d) = false) := by
          intro hc
          rw [hnw] at hc
          exact Bool.noConfusion hc.2
        have hb : insertBlock W cross d P j = [P.getD j d] := by
          unfold insertBlock
          rw [if_neg hnA, if_neg hnB, if_neg hnC]
        have hRn : ¬ R (P.getD (cyclicNext P.length j) d) = true := by
          rw [hWR _ hnw]
          exact Bool.noConfusion
        rw [hb, fW _ hv, if_neg hRn, hfrontnil (fun hc => hnC ⟨hc.1, hc.2.2⟩)]

end LoopsClip
section LoopsClipMain

variable {α : Type}

theorem insertFront_filter (W : α → Bool) (cross : α → α → α) (d : α) (P : List α)
    (hcW : ∀ a b, W (cross a b) = false) :
    (insertFront W cross d P).filter (fun q => !W q) = insertFront W cross d P := by
  unfold insertFront
  split_ifs
  · exact List.filter_cons_of_pos (by
      show (!W (cross (P.getD 0 d) (P.getD (P.length - 1) d))) = true
      rw [hcW]
      rfl)
  · rfl

/-- The vertices that are not on the wrong side, among those the insertion loop
leaves in the place of the vertices before `m`, the last vertex excluded: what
the specification puts in the place of these vertices. -/
theorem insertBlocks_filter (W R : α → Bool) (cross : α → α → α) (d : α) (P : List α)
    (hWR : ∀ q, W q = true → R q = false)
    (hO : ∀ j, j < P.length → W (P.getD j d) = false → R (P.getD j d) = true)
    (hcW : ∀ a b, W (cross a b) = false) :
    ∀ m, m + 1 ≤ P.length →
      (insertBlocks W cross d P m).filter (fun q => !W q) =
        (List.range m).flatMap (fun j =>
          if R (P.getD j d) = true then [P.getD j d]
          else
            (if R (P.getD (cyclicPrev P.length j) d) = true
              then [cross (P.getD (cyclicPrev P.length j) d) (P.getD j d)] else []) ++
            (if R (P.getD (cyclicNext P.length j) d) = true
              then [cross (P.getD (cyclicNext P.length j) d) (P.getD j d)] else [])) := by
  intro m
  induction m with
  | zero =>
    intro _
    rfl
  | succ m ih =>
    intro hm
    have hb := insertBlock_filter W R cross d P hWR hO hcW m (by omega)
    rw [if_neg (by omega), List.append_nil] at hb
    rw [insertBlocks_succ, List.filter_append, ih (by omega), hb, List.range_succ,
      List.flatMap_append]
    simp

/-- The two loops of `filterPath`, on a path of at least two vertices each of
which is on the wrong side or strictly inside: the result is, up to a rotation,
the clipped path of the specification. -/
theorem loops_clip (W R : α → Bool) (cross : α → α → α) (d : α) (P : List α)
    (hN : 2 ≤ P.length) (hWR : ∀ q, W q = true → R q = false)
    (hO : ∀ j, j < P.length → W (P.getD j d) = false → R (P.getD j d) = true)
    (hcW : ∀ a b, W (cross a b) = false) (hcR : ∀ a b, R (cross a b) = false) :
    (pruneGen R d (insertGen W cross d P P.length 0)
      (insertGen W cross d P P.length 0).length 0).IsRotated (clipSpec R cross d P) := by
  have hgood := insertGen_good W R cross d hWR hcW hcR _ P P.length 0 rfl rfl
    (fun j _ hj => absurd hj (Nat.not_lt_zero j))
  have hshape := insert_shape W cross d P hN
  have hkeep : ∀ idx, idx < (insertGen W cross d P P.length 0).length →
      KeepAt W R d (insertGen W cross d P P.length 0) idx := by
    rw [hshape]
    exact insert_keepAt W R cross d P hN hO
  rw [pruneGen_eq_filter W R d hWR _ _ _ 0 rfl rfl hgood hkeep]
  rw [List.take_zero, List.drop_zero, List.nil_append, hshape, List.filter_append,
    insertFront_filter W cross d P hcW]
  obtain ⟨m, hm⟩ : ∃ m, P.length = m + 1 := ⟨P.length - 1, by omega⟩
  have hb := insertBlock_filter W R cross d P hWR hO hcW m (by omega)
  rw [if_pos (by omega)] at hb
  have hX := insertBlocks_filter W R cross d P hWR hO hcW m (by omega)
  have e1 : (insertBlocks W cross d P P.length).filter (fun q => !W q) =
      (insertBlocks W cross d P m).filter (fun q => !W q) ++
        (insertBlock W cross d P m).filter (fun q => !W q) := by
    rw [hm, insertBlocks_succ, List.filter_append]
  have e2 : clipSpec R cross d P =
      ((insertBlocks W cross d P m).filter (fun q => !W q) ++
        (insertBlock W cross d P m).filter (fun q => !W q)) ++ insertFront W cross d P := by
    have hr : ∀ f : Nat → List α,
        (List.range P.length).flatMap f = (List.range m).flatMap f ++ f m := by
      intro f
      rw [hm, List.range_succ, List.flatMap_append]
      simp
    unfold clipSpec
    rw [hr, hX, List.append_assoc, hb]
  rw [e1, e2]
  exact List.isRotated_append

end LoopsClipMain
section ClipClaim

variable {K : Type} [LinearOrderedField K]

/-- C24: for every input path of at least 3 vertices none of which has `z = 0`
exactly, with at least one vertex of `z > 0`, `filterPath(path, top = true)` is, up
to a cyclic rotation of the sequence, the input in which every vertex of `z > 0`
is kept in its order and every maximal cyclic run of consecutive vertices of
`z < 0` is replaced by two points, the `z = 0` crossing of the edge entering the
run followed by the `z = 0` crossing of the edge leaving it (`clipSpec`); and
symmetrically for `top = false`, with at least one vertex of `z < 0`. -/
theorem filterPath_clips (sqrt : K → K) (path : Path K) (h3 : 3 ≤ path.length)
    (hz : ∀ q, q ∈ path → q.z ≠ 0) :
    ((∃ q, q ∈ path ∧ q.z > 0) →
      (filterPath sqrt path true).IsRotated
        (clipSpec (fun q => decide (q.z > 0)) (crossTop sqrt) ⟨0, 0, 0⟩ path)) ∧
    ((∃ q, q ∈ path ∧ q.z < 0) →
      (filterPath sqrt path false).IsRotated
        (clipSpec (fun q => decide (q.z < 0)) (crossBottom sqrt) ⟨0, 0, 0⟩ path)) := by
  have hmem : ∀ j, j < path.length → path.getD j ⟨0, 0, 0⟩ ∈ path := by
    intro j hj
    rw [List.getD_eq_getElem _ _ hj]
    exact List.getElem_mem hj
  constructor
  · intro hex
    rw [filterPath_top_valid sqrt path h3 hex]
    refine loops_clip (fun q : Point K => decide (q.z < 0)) (fun q : Point K => decide (q.z > 0))
      (crossTop sqrt) ⟨0, 0, 0⟩ path (by omega) ?_ ?_ ?_ ?_
    · intro q h
      simp only [decide_eq_true_eq, decide_eq_false_iff_not, not_lt] at h ⊢
      exact le_of_lt h
    · intro j hj h
      simp only [decide_eq_true_eq, decide_eq_false_iff_not, not_lt] at h ⊢
      exact lt_of_le_of_ne h (Ne.symm (hz _ (hmem j hj)))
    · intro a b
      simp [crossTop_z]
    · intro a b
      simp [crossTop_z]
  · intro hex
    rw [filterPath_bottom_valid sqrt path h3 hex]
    refine loops_clip (fun q : Point K => decide (q.z > 0)) (fun q : Point K => decide (q.z < 0))
      (crossBottom sqrt) ⟨0, 0, 0⟩ path (by omega) ?_ ?_ ?_ ?_
    · intro q h
      simp only [decide_eq_true_eq, decide_eq_false_iff_not, not_lt] at h ⊢
      exact le_of_lt h
    · intro j hj h
      simp only [decide_eq_true_eq, decide_eq_false_iff_not, not_lt] at h ⊢
      exact lt_of_le_of_ne h (hz _ (hmem j hj))
    · intro a b
      simp [crossBottom_z]
    · intro a b
      simp [crossBottom_z]

/-- Witness of C24 on a real path of four vertices, one of them below the plane. -/
theorem filterPath_clips_witness :
    3 ≤ ([⟨3 / 5, 0, 4 / 5⟩, ⟨0, 3 / 5, -4 / 5⟩, ⟨-3 / 5, 0, 4 / 5⟩, ⟨0, -3 / 5, 4 / 5⟩] :
      Path ℝ).length ∧
    (∀ q, q ∈ ([⟨3 / 5, 0, 4 / 5⟩, ⟨0, 3 / 5, -4 / 5⟩, ⟨-3 / 5, 0, 4 / 5⟩,
      ⟨0, -3 / 5, 4 / 5⟩] : Path ℝ) → q.z ≠ 0) ∧
    (((∃ q, q ∈ ([⟨3 / 5, 0, 4 / 5⟩, ⟨0, 3 / 5, -4 / 5⟩, ⟨-3 / 5, 0, 4 / 5⟩,
        ⟨0, -3 / 5, 4 / 5⟩] : Path ℝ) ∧ q.z > 0) →
      (filterPath Real.sqrt ([⟨3 / 5, 0, 4 / 5⟩, ⟨0, 3 / 5, -4 / 5⟩, ⟨-3 / 5, 0, 4 / 5⟩,
        ⟨0, -3 / 5, 4 / 5⟩] : Path ℝ) true).IsRotated
        (clipSpec (fun q => decide (q.z > 0)) (crossTop Real.sqrt) ⟨0, 0, 0⟩
          ([⟨3 / 5, 0, 4 / 5⟩, ⟨0, 3 / 5, -4 / 5⟩, ⟨-3 / 5, 0, 4 / 5⟩,
            ⟨0, -3 / 5, 4 / 5⟩] : Path ℝ))) ∧
    ((∃ q, q ∈ ([⟨3 / 5, 0, 4 / 5⟩, ⟨0, 3 / 5, -4 / 5⟩, ⟨-3 / 5, 0, 4 / 5⟩,
        ⟨0, -3 / 5, 4 / 5⟩] : Path ℝ) ∧ q.z < 0) →
      (filterPath Real.sqrt ([⟨3 / 5, 0, 4 / 5⟩, ⟨0, 3 / 5, -4 / 5⟩, ⟨-3 / 5, 0, 4 / 5⟩,
        ⟨0, -3 / 5, 4 / 5⟩] : Path ℝ) false).IsRotated
        (clipSpec (fun q => decide (q.z < 0)) (crossBottom Real.sqrt) ⟨0, 0, 0⟩
          ([⟨3 / 5, 0, 4 / 5⟩, ⟨0, 3 / 5, -4 / 5⟩, ⟨-3 / 5, 0, 4 / 5⟩,
            ⟨0, -3 / 5, 4 / 5⟩] : Path ℝ)))) :=
  have hz : ∀ q, q ∈ ([⟨3 / 5, 0, 4 / 5⟩, ⟨0, 3 / 5, -4 / 5⟩, ⟨-3 / 5, 0, 4 / 5⟩,
      ⟨0, -3 / 5, 4 / 5⟩] : Path ℝ) → q.z ≠ 0 := by
    intro q hq
    simp only [List.mem_cons, List.mem_singleton, List.not_mem_nil, or_false] at hq
    rcases hq with rfl | rfl | rfl | rfl <;> norm_num
  ⟨by simp, hz, filterPath_clips Real.sqrt _ (by simp) hz⟩

end ClipClaim

section TrackerAgreement

variable {K : Type} [LinearOrderedField K]

/-- A call keeps the trackers of a 2D and of a 3D meter equal. -/
theorem call_same_tracker [FloorRing K] (c : Defs K) (e : Extern3d K) (m2 : Meter2d K)
    (m3 : Meter3d K) (op : Call K)
    (h : m2.getNumberOfPlanewaves = m3.numberOfPlanewaves ∧ m2.m_ramp = m3.m_ramp ∧
      m2.m_vector_size = m3.m_vector_size ∧ m2.m_channels_peaks = m3.m_channels_peaks ∧
      m2.m_over_leds = m3.m_over_leds) :
    (m2.call c op).getNumberOfPlanewaves = (m3.call c e op).numberOfPlanewaves ∧
    (m2.call c op).m_ramp = (m3.call c e op).m_ramp ∧
    (m2.call c op).m_vector_size = (m3.call c e op).m_vector_size ∧
    (m2.call c op).m_channels_peaks = (m3.call c e op).m_channels_peaks ∧
    (m2.call c op).m_over_leds = (m3.call c e op).m_over_leds := by
  obtain ⟨hn, hr, hv, hp, hl⟩ := h
  cases op with
  | setVectorSize n => exact ⟨hn, rfl, rfl, hp, hl⟩
  | tick time =>
    refine ⟨hn, hr, hv, hp, ?_⟩
    show (m2.tick time).m_over_leds = (m3.tick time).m_over_leds
    rw [tick_eq]
    show tickLeds m2.getNumberOfPlanewaves m2.m_channels_peaks m2.m_over_leds time =
      tickLeds m3.numberOfPlanewaves m3.m_channels_peaks m3.m_over_leds time
    rw [hn, hp, hl]
  | computeRendering =>
    obtain ⟨a1, a2, a3, a4, a5, _⟩ := computeRendering_frame c m2
    show (m2.computeRendering c).planewaves_azimuth.length = m3.numberOfPlanewaves ∧
      (m2.computeRendering c).m_ramp = m3.m_ramp ∧
      (m2.computeRendering c).m_vector_size = m3.m_vector_size ∧
      (m2.computeRendering c).m_channels_peaks = m3.m_channels_peaks ∧
      (m2.computeRendering c).m_over_leds = m3.m_over_leds
    rw [a1, a2, a3, a4, a5]
    exact ⟨hn, hr, hv, hp, hl⟩
  | process inputs =>
    show (m2.process inputs).planewaves_azimuth.length = (m3.process inputs).numberOfPlanewaves ∧
      (m2.process inputs).m_ramp = (m3.process inputs).m_ramp ∧
      (m2.process inputs).m_vector_size = (m3.process inputs).m_vector_size ∧
      (m2.process inputs).m_channels_peaks = (m3.process inputs).m_channels_peaks ∧
      (m2.process inputs).m_over_leds = (m3.process inputs).m_over_leds
    by_cases hc : m2.m_ramp = m2.m_vector_size
    · rw [process_reset m2 inputs hc, process3d_reset m3 inputs (by rw [← hr, ← hv]; exact hc)]
      refine ⟨hn, rfl, hv, ?_, hl⟩
      show resetPeaks m2.getNumberOfPlanewaves m2.m_channels_peaks inputs =
        resetPeaks m3.numberOfPlanewaves m3.m_channels_peaks inputs
      rw [hn, hp]
    · rw [process_hold m2 inputs hc, process3d_hold m3 inputs (by rw [← hr, ← hv]; exact hc)]
      refine ⟨hn, ?_, hv, ?_, hl⟩
      · show (m2.m_ramp + 1) % ULONG_RANGE = (m3.m_ramp + 1) % ULONG_RANGE
        rw [hr]
      · show holdPeaks m2.getNumberOfPlanewaves m2.m_channels_peaks inputs =
          holdPeaks m3.numberOfPlanewaves m3.m_channels_peaks inputs
        rw [hn, hp]

theorem calls_same_tracker [FloorRing K] (c : Defs K) (e : Extern3d K) (m2 : Meter2d K)
    (m3 : Meter3d K) (ops : List (Call K))
    (h : m2.getNumberOfPlanewaves = m3.numberOfPlanewaves ∧ m2.m_ramp = m3.m_ramp ∧
      m2.m_vector_size = m3.m_vector_size ∧ m2.m_channels_peaks = m3.m_channels_peaks ∧
      m2.m_over_leds = m3.m_over_leds) :
    (m2.calls c ops).getNumberOfPlanewaves = (m3.calls c e ops).numberOfPlanewaves ∧
    (m2.calls c ops).m_ramp = (m3.calls c e ops).m_ramp ∧
    (m2.calls c ops).m_vector_size = (m3.calls c e ops).m_vector_size ∧
    (m2.calls c ops).m_channels_peaks = (m3.calls c e ops).m_channels_peaks ∧
    (m2.calls c ops).m_over_leds = (m3.calls c e ops).m_over_leds := by
  induction ops generalizing m2 m3 with
  | nil => exact h
  | cons op ops ih => exact ih (m2.call c op) (m3.call c e op) (call_same_tracker c e m2 m3 op h)

/-- C32: the 2D and the 3D meter implement the same energy tracker. For every
channel count and every sequence of `setVectorSize`, `process` and `tick` calls
with the same arguments (calls of `computeRendering` may be interleaved), made on
a freshly constructed 2D meter and on a freshly constructed 3D meter, both report
the same `getVectorSize`, and for every index the same `getPlanewaveEnergy(index)`
and the same `getPlanewaveOverLed(index)`. -/
theorem trackers_agree [FloorRing K] (log10 : K → K) (c : Defs K) (e : Extern3d K) (n : Nat)
    (azimuthOf : Nat → K) (rotation : K) (uninitMapped uninitWidth : Nat → K)
    (ops : List (Call K)) :
    ((Meter2d.construct n azimuthOf rotation uninitMapped uninitWidth).calls c
        ops).getVectorSize = ((Meter3d.construct n : Meter3d K).calls c e ops).getVectorSize ∧
    ∀ index,
      ((Meter2d.construct n azimuthOf rotation uninitMapped uninitWidth).calls c
          ops).getPlanewaveEnergy log10 index =
        ((Meter3d.construct n : Meter3d K).calls c e ops).getPlanewaveEnergy log10 index ∧
      ((Meter2d.construct n azimuthOf rotation uninitMapped uninitWidth).calls c
          ops).getPlanewaveOverLed index =
        ((Meter3d.construct n : Meter3d K).calls c e ops).getPlanewaveOverLed index := by
  obtain ⟨_, _, hv, hp, hl⟩ := calls_same_tracker c e
    (Meter2d.construct n azimuthOf rotation uninitMapped uninitWidth)
    (Meter3d.construct n : Meter3d K) ops
    ⟨by simp [Meter2d.construct, Meter3d.construct, Meter2d.getNumberOfPlanewaves],
      rfl, rfl, rfl, rfl⟩
  refine ⟨hv, fun index => ⟨?_, ?_⟩⟩
  · unfold Meter2d.getPlanewaveEnergy Meter3d.getPlanewaveEnergy
    rw [hp]
  · unfold Meter2d.getPlanewaveOverLed Meter3d.getPlanewaveOverLed
    rw [hl]

end TrackerAgreement

section MapLemmas

variable {α β : Type}

theorem map_insertIdx_eq (f : α → β) (l : List α) (k : Nat) (t : α) :
    (l.insertIdx k t).map f = (l.map f).insertIdx k (f t) := by
  induction k generalizing l with
  | zero => simp
  | succ k ih =>
    cases l with
    | nil => simp
    | cons a l => simp [List.insertIdx_succ_cons, ih]

theorem map_eraseIdx_eq (f : α → β) (l : List α) (k : Nat) :
    (l.eraseIdx k).map f = (l.map f).eraseIdx k := by
  induction l generalizing k with
  | nil => simp
  | cons a l ih =>
    cases k with
    | zero => simp
    | succ k => simp [ih]

theorem map_set_eq (f : α → β) (l : List α) (k : Nat) (t : α) :
    (l.set k t).map f = (l.map f).set k (f t) := by
  induction l generalizing k with
  | nil => simp
  | cons a l ih =>
    cases k with
    | zero => simp
    | succ k => simp [ih]

theorem getD_map_eq (f : α → β) (l : List α) (k : Nat) (d : α) :
    (l.map f).getD k (f d) = f (l.getD k d) := by
  induction l generalizing k with
  | nil => simp
  | cons a l ih =>
    cases k with
    | zero => simp
    | succ k =>
      simp only [List.map_cons, List.getD_cons_succ]
      exact ih k

/-- The insertion loop commutes with a map of the vertices that carries the
crossings to the crossings. -/
theorem insertGen_map (f : α → β) (W : β → Bool) (cross : β → β → β) (cross' : α → α → α)
    (d : α)
    (hc : ∀ a b, W (f b) = true → W (f a) = false → f (cross' a b) = cross (f a) (f b)) :
    ∀ (k : Nat) (P : List α) (size i : Nat), size - i = k →
      insertGen W cross (f d) (P.map f) size i =
        (insertGen (fun q => W (f q)) cross' d P size i).map f := by
  intro k
  induction k using Nat.strong_induction_on with
  | _ k ih =>
    intro P size i hk
    by_cases hi : i < size
    · rw [insertGen_step W cross (f d) _ size i hi,
        insertGen_step (fun q => W (f q)) cross' d P size i hi]
      simp only [getD_map_eq]
      by_cases h1 : W (f (P.getD i d)) = true ∧ W (f (P.getD (cyclicPrev size i) d)) = false ∧
          W (f (P.getD (cyclicNext size i) d)) = false
      · rw [if_pos h1, if_pos h1, ← hc _ _ h1.1 h1.2.1, ← hc _ _ h1.1 h1.2.2, ← map_set_eq,
          ← map_insertIdx_eq]
        exact ih _ (by omega) _ _ _ rfl
      · rw [if_neg h1, if_neg h1]
        by_cases h2 : W (f (P.getD i d)) = true ∧ W (f (P.getD (cyclicPrev size i) d)) = false
        · rw [if_pos h2, if_pos h2, ← hc _ _ h2.1 h2.2, ← map_insertIdx_eq]
          exact ih _ (by omega) _ _ _ rfl
        · rw [if_neg h2, if_neg h2]
          by_cases h3 : W (f (P.getD i d)) = true ∧
              W (f (P.getD (cyclicNext size i) d)) = false
          · rw [if_pos h3, if_pos h3, ← hc _ _ h3.1 h3.2, ← map_insertIdx_eq]
            exact ih _ (by omega) _ _ _ rfl
          · rw [if_neg h3, if_neg h3]
            exact ih _ (by omega) _ _ _ rfl
    · rw [insertGen_done _ _ _ _ _ _ hi, insertGen_done _ _ _ _ _ _ hi]

/-- The pruning loop commutes with a map of the vertices. -/
theorem pruneGen_map (f : α → β) (R : β → Bool) (d : α) :
    ∀ (k : Nat) (P : List α) (size i : Nat), size - i = k →
      pruneGen R (f d) (P.map f) size i = (pruneGen (fun q => R (f q)) d P size i).map f := by
  intro k
  induction k using Nat.strong_induction_on with
  | _ k ih =>
    intro P size i hk
    by_cases hi : i < size
    · rw [pruneGen_step R (f d) _ size i hi, pruneGen_step (fun q => R (f q)) d P size i hi]
      simp only [getD_map_eq]
      by_cases h1 : R (f (P.getD i d)) = false ∧ R (f (P.getD (cyclicPrev size i) d)) = false ∧
          R (f (P.getD (cyclicNext size i) d)) = false
      · rw [if_pos h1, if_pos h1, ← map_eraseIdx_eq]
        exact ih _ (by omega) _ _ _ rfl
      · rw [if_neg h1, if_neg h1]
        exact ih _ (by omega) _ _ _ rfl
    · rw [pruneGen_done _ _ _ _ _ hi, pruneGen_done _ _ _ _ _ hi]

end MapLemmas
section MirrorClaim

variable {K : Type} [LinearOrderedField K]

theorem mirror_mirror (p : Point K) : p.mirror.mirror = p := by
  cases p
  simp [Point.mirror]

theorem mirror_of_z (p : Point K) (h : p.z = 0) : p.mirror = p := by
  cases p with
  | mk x y z =>
    simp only at h
    subst h
    simp [Point.mirror]

theorem mirror_zero : Point.mirror (⟨0, 0, 0⟩ : Point K) = ⟨0, 0, 0⟩ :=
  mirror_of_z _ rfl

theorem map_mirror_mirror (l : Path K) : (l.map Point.mirror).map Point.mirror = l := by
  rw [List.map_map]
  have : (Point.mirror ∘ Point.mirror : Point K → Point K) = id := by
    funext p
    exact mirror_mirror p
  rw [this, List.map_id]

/-- The crossing of the top branch between the mirror images is the crossing of
the bottom branch, when the vertex is above the plane and the neighbour is not. -/
theorem crossTop_mirror (sqrt : K → K) (a b : Point K) (hb : b.z > 0) (ha : a.z ≤ 0) :
    Point.mirror (crossBottom sqrt a b) = crossTop sqrt a.mirror b.mirror := by
  rw [mirror_of_z _ (crossBottom_z sqrt a b)]
  have hd : b.z - a.z ≠ 0 := by linarith
  unfold crossBottom crossTop
  show (((a - b) * (b.z / (b.z - a.z)) + b).setZ0).normalize sqrt =
    (((b.mirror - a.mirror) * (a.mirror.z / (a.mirror.z - b.mirror.z)) + a.mirror).setZ0).normalize
      sqrt
  have e : ((a - b) * (b.z / (b.z - a.z)) + b).setZ0 =
      ((b.mirror - a.mirror) * (a.mirror.z / (a.mirror.z - b.mirror.z)) + a.mirror).setZ0 := by
    rw [Point.sub_def, Point.mul_def, Point.add_def, Point.sub_def, Point.mul_def,
      Point.add_def]
    simp only [Point.mirror, Point.setZ0]
    have e3 : -a.z - -b.z = b.z - a.z := by ring
    rw [e3]
    refine congr (congr (congrArg Point.mk ?_) ?_) rfl
    · field_simp
      ring
    · field_simp
      ring
  rw [e]

/-- C31: hemisphere symmetry of the clipper. For every path `P`,
`filterPath(P, top = false)` is the mirror image of
`filterPath(mirror(P), top = true)`, where `mirror` negates the `z`-coordinate of
every vertex (in exact arithmetic; the normalization, which divides by the length,
commutes with the mirror image). -/
theorem filterPath_mirror (sqrt : K → K) (path : Path K) :
    filterPath sqrt path false =
      (filterPath sqrt (path.map Point.mirror) true).map Point.mirror := by
  have hW : (fun q : Point K => decide (q.mirror.z < 0)) = (fun q => decide (q.z > 0)) := by
    funext q
    simp [Point.mirror]
  have hR : (fun q : Point K => decide (q.mirror.z > 0)) = (fun q => decide (q.z < 0)) := by
    funext q
    simp [Point.mirror]
  have hvalid : validTop (path.map Point.mirror) = validBottom path := by
    unfold validTop validBottom
    rw [List.any_map]
    exact congrArg (fun g => path.any g) hR
  unfold filterPath
  rw [if_neg (by simp), if_pos rfl, hvalid, List.length_map]
  by_cases hc : (!validBottom path || decide (path.length < 3)) = true
  · rw [if_pos hc, if_pos hc]
    rfl
  · rw [if_neg hc, if_neg hc]
    show pruneBottom (insertBottom sqrt path path.length 0)
        (insertBottom sqrt path path.length 0).length 0 =
      (pruneTop (insertTop sqrt (path.map Point.mirror) path.length 0)
        (insertTop sqrt (path.map Point.mirror) path.length 0).length 0).map Point.mirror
    have hins : insertTop sqrt (path.map Point.mirror) path.length 0 =
        (insertBottom sqrt path path.length 0).map Point.mirror := by
      rw [insertTop_eq_insertGen, insertBottom_eq_insertGen]
      have := insertGen_map Point.mirror (fun q : Point K => decide (q.z < 0)) (crossTop sqrt)
        (crossBottom sqrt) ⟨0, 0, 0⟩
        (fun a b h1 h2 => by
          simp only [Point.mirror, decide_eq_true_eq, decide_eq_false_iff_not, not_lt,
            neg_neg_iff_pos, neg_lt_zero, Left.nonneg_neg_iff] at h1 h2
          exact crossTop_mirror sqrt a b h1 (by linarith))
        _ path path.length 0 rfl
      rw [mirror_zero, hW] at this
      exact this
    rw [hins, List.length_map, pruneTop_eq_pruneGen, pruneBottom_eq_pruneGen]
    have := pruneGen_map Point.mirror (fun q : Point K => decide (q.z > 0)) ⟨0, 0, 0⟩ _
      (insertBottom sqrt path path.length 0) (insertBottom sqrt path path.length 0).length 0 rfl
    rw [mirror_zero, hR] at this
    rw [this, map_mirror_mirror]

end MirrorClaim

section RotationLemmas

variable {K : Type} [LinearOrderedField K] [FloorRing K]

/-- The sector `computeRendering` stores for a channel, from the least wrapped
differences to the other channels (pairwise distinct normalized azimuths). -/
theorem sector_from_gaps (c : Defs K) (m : Meter2d K) (hwf : m.WellFormed)
    (h2 : 2 ≤ m.getNumberOfPlanewaves)
    (hd : ∀ i j, i < m.getNumberOfPlanewaves → j < m.getNumberOfPlanewaves → i ≠ j →
      m.normalizedAzimuth c i ≠ m.normalizedAzimuth c j)
    (i : Nat) (hi : i < m.getNumberOfPlanewaves) :
    ∃ d_prev d_next : K,
      (∃ j, j < m.getNumberOfPlanewaves ∧ j ≠ i ∧
        wrap_twopi c (m.normalizedAzimuth c i - m.normalizedAzimuth c j) = d_prev) ∧
      (∀ j, j < m.getNumberOfPlanewaves → j ≠ i →
        d_prev ≤ wrap_twopi c (m.normalizedAzimuth c i - m.normalizedAzimuth c j)) ∧
      (∃ j, j < m.getNumberOfPlanewaves ∧ j ≠ i ∧
        wrap_twopi c (m.normalizedAzimuth c j - m.normalizedAzimuth c i) = d_next) ∧
      (∀ j, j < m.getNumberOfPlanewaves → j ≠ i →
        d_next ≤ wrap_twopi c (m.normalizedAzimuth c j - m.normalizedAzimuth c i)) ∧
      (m.computeRendering c).getPlanewaveWidth i = (d_prev + d_next) / 2 ∧
      (m.computeRendering c).getPlanewaveAzimuthMapped i =
        wrap_twopi c (m.normalizedAzimuth c i + (d_next - d_prev) / 4) := by
  obtain ⟨p, hp, rfl⟩ := position_of_index c m i hi
  obtain ⟨eW, eM⟩ := computeRendering_at c m hwf h2 p hp
  have hA : ∀ k, k < m.getNumberOfPlanewaves →
      m.normalizedAzimuth c (channelIndex (sortChannels (m.buildChannels c)) k) =
        channelAzimuth (sortChannels (m.buildChannels c)) k :=
    fun k hk => (sorted_channel_facts c m k hk).2.symm
  obtain ⟨a1, a2, a3, a4⟩ := portions_least c m h2 (sorted_azimuth_strict c m hd) p hp
  refine ⟨previousPortion c (sortChannels (m.buildChannels c)) m.getNumberOfPlanewaves p,
    nextPortion c (sortChannels (m.buildChannels c)) m.getNumberOfPlanewaves p,
    ?_, ?_, ?_, ?_, ?_, ?_⟩
  · obtain ⟨k, hk, hkp, e⟩ := a1
    refine ⟨channelIndex (sortChannels (m.buildChannels c)) k,
      (sorted_channel_facts c m k hk).1, ?_, ?_⟩
    · intro h
      exact hkp (sorted_index_inj c m k p hk hp h)
    · rw [hA p hp, hA k hk]
      exact e
  · intro j hj hji
    obtain ⟨k, hk, rfl⟩ := position_of_index c m j hj
    have hkp : k ≠ p := fun h => hji (by rw [h])
    rw [hA p hp, hA k hk]
    exact a2 k hk hkp
  · obtain ⟨k, hk, hkp, e⟩ := a3
    refine ⟨channelIndex (sortChannels (m.buildChannels c)) k,
      (sorted_channel_facts c m k hk).1, ?_, ?_⟩
    · intro h
      exact hkp (sorted_index_inj c m k p hk hp h)
    · rw [hA p hp, hA k hk]
      exact e
  · intro j hj hji
    obtain ⟨k, hk, rfl⟩ := position_of_index c m j hj
    have hkp : k ≠ p := fun h => hji (by rw [h])
    rw [hA p hp, hA k hk]
    exact a4 k hk hkp
  · rw [eW, half_eq]
    ring
  · rw [eM, hA p hp, half_eq]
    congr 1
    ring

theorem wrap_sub_wrap (c : Defs K) (u v : K) :
    wrap_twopi c (wrap_twopi c u - wrap_twopi c v) = wrap_twopi c (u - v) := by
  obtain ⟨k1, h1⟩ := wrap_twopi_eq_add c u
  obtain ⟨k2, h2⟩ := wrap_twopi_eq_add c v
  obtain ⟨k3, h3⟩ := wrap_twopi_eq_add c (u - v)
  refine wrap_twopi_unique c _ _ (k3 - k1 + k2) (wrap_twopi_nonneg c _) (wrap_twopi_lt c _) ?_
  rw [h3, h1, h2]
  push_cast
  ring

theorem wrap_eq_of_shift (c : Defs K) (u v : K) (k : ℤ) (h : u = v + c.HOA_2PI * k) :
    wrap_twopi c u = wrap_twopi c v := by
  obtain ⟨k2, h2⟩ := wrap_twopi_eq_add c v
  refine wrap_twopi_unique c _ _ (k2 - k) (wrap_twopi_nonneg c _) (wrap_twopi_lt c _) ?_
  rw [h2, h]
  push_cast
  ring

/-- Changing the rotation offset changes no wrapped difference of two normalized
azimuths. -/
theorem normalized_diff_rotation (c : Defs K) (m : Meter2d K) (r1 r2 : K) (i j : Nat) :
    wrap_twopi c ((m.withRotation r1).normalizedAzimuth c i
        - (m.withRotation r1).normalizedAzimuth c j) =
      wrap_twopi c ((m.withRotation r2).normalizedAzimuth c i
        - (m.withRotation r2).normalizedAzimuth c j) := by
  show wrap_twopi c (wrap_twopi c (m.getPlanewaveAzimuth i + r1)
      - wrap_twopi c (m.getPlanewaveAzimuth j + r1)) =
    wrap_twopi c (wrap_twopi c (m.getPlanewaveAzimuth i + r2)
      - wrap_twopi c (m.getPlanewaveAzimuth j + r2))
  rw [wrap_sub_wrap, wrap_sub_wrap]
  congr 1
  ring

/-- Normalized azimuths that are pairwise distinct under one rotation offset are
so under any other. -/
theorem distinct_rotation (c : Defs K) (m : Meter2d K) (r1 r2 : K) (i j : Nat)
    (h : (m.withRotation r1).normalizedAzimuth c i ≠ (m.withRotation r1).normalizedAzimuth c j) :
    (m.withRotation r2).normalizedAzimuth c i ≠ (m.withRotation r2).normalizedAzimuth c j := by
  intro e
  apply h
  have e' : wrap_twopi c (m.getPlanewaveAzimuth i + r2) =
      wrap_twopi c (m.getPlanewaveAzimuth j + r2) := e
  obtain ⟨k1, h1⟩ := wrap_twopi_eq_add c (m.getPlanewaveAzimuth i + r2)
  obtain ⟨k2, h2⟩ := wrap_twopi_eq_add c (m.getPlanewaveAzimuth j + r2)
  show wrap_twopi c (m.getPlanewaveAzimuth i + r1) = wrap_twopi c (m.getPlanewaveAzimuth j + r1)
  refine wrap_eq_of_shift c _ _ (k2 - k1) ?_
  rw [h1, h2] at e'
  push_cast
  linarith

theorem single_channel_stores (c : Defs K) (m : Meter2d K) (hwf : m.WellFormed)
    (h1 : m.getNumberOfPlanewaves = 1) :
    (m.computeRendering c).getPlanewaveWidth 0 = c.HOA_2PI ∧
    (m.computeRendering c).getPlanewaveAzimuthMapped 0 = 0 := by
  have hW : 0 < m.m_channels_azimuth_width.length := by rw [hwf.2.2.1]; omega
  have hM : 0 < m.m_channels_azimuth_mapped.length := by rw [hwf.2.1]; omega
  constructor
  · simp only [Meter2d.computeRendering, h1, if_true, Meter2d.getPlanewaveWidth]
    exact getD_set_self _ _ _ _ hW
  · simp only [Meter2d.computeRendering, h1, if_true, Meter2d.getPlanewaveAzimuthMapped]
    exact getD_set_self _ _ _ _ hM

end RotationLemmas

section RotationClaim

variable {K : Type} [LinearOrderedField K] [FloorRing K]

/-- C33: rotation equivariance of the 2D partition. For every layout of at least
two channels whose normalized azimuths are pairwise distinct (under one offset,
hence under every offset) and any two rotation offsets `r1` and `r2`,
`computeRendering` gives every channel the same width under both offsets, and
mapped centers that differ by `r2 - r1` modulo `HOA_2PI`; for a layout of one
channel the mapped center is `0` (and the width `HOA_2PI`) whatever the offset. -/
theorem rotation_equivariance (c : Defs K) (m : Meter2d K) (hwf : m.WellFormed) (r1 r2 : K) :
    (2 ≤ m.getNumberOfPlanewaves →
      (∀ i j, i < m.getNumberOfPlanewaves → j < m.getNumberOfPlanewaves → i ≠ j →
        (m.withRotation r1).normalizedAzimuth c i ≠ (m.withRotation r1).normalizedAzimuth c j) →
      ∀ i, i < m.getNumberOfPlanewaves →
        ((m.withRotation r1).computeRendering c).getPlanewaveWidth i =
          ((m.withRotation r2).computeRendering c).getPlanewaveWidth i ∧
        ∃ k : ℤ, ((m.withRotation r2).computeRendering c).getPlanewaveAzimuthMapped i -
            ((m.withRotation r1).computeRendering c).getPlanewaveAzimuthMapped i =
          (r2 - r1) + c.HOA_2PI * k) ∧
    (m.getNumberOfPlanewaves = 1 →
      ((m.withRotation r1).computeRendering c).getPlanewaveAzimuthMapped 0 = 0 ∧
      ((m.withRotation r2).computeRendering c).getPlanewaveAzimuthMapped 0 = 0 ∧
      ((m.withRotation r1).computeRendering c).getPlanewaveWidth 0 =
        ((m.withRotation r2).computeRendering c).getPlanewaveWidth 0) := by
  have hwf1 : (m.withRotation r1).WellFormed := hwf
  have hwf2 : (m.withRotation r2).WellFormed := hwf
  constructor
  · intro h2 hd i hi
    have hd2 : ∀ i j, i < m.getNumberOfPlanewaves → j < m.getNumberOfPlanewaves → i ≠ j →
        (m.withRotation r2).normalizedAzimuth c i ≠ (m.withRotation r2).normalizedAzimuth c j :=
      fun i j hi hj hij => distinct_rotation c m r1 r2 i j (hd i j hi hj hij)
    obtain ⟨p1, n1, ⟨jp1, hjp1, hnp1, ep1⟩, lp1, ⟨jn1, hjn1, hnn1, en1⟩, ln1, hw1, hm1⟩ :=
      sector_from_gaps c (m.withRotation r1) hwf1 h2 hd i hi
    obtain ⟨p2, n2, ⟨jp2, hjp2, hnp2, ep2⟩, lp2, ⟨jn2, hjn2, hnn2, en2⟩, ln2, hw2, hm2⟩ :=
      sector_from_gaps c (m.withRotation r2) hwf2 h2 hd2 i hi
    have hp : p1 = p2 := by
      apply le_antisymm
      · rw [← ep2, ← normalized_diff_rotation c m r1 r2 i jp2]
        exact lp1 jp2 hjp2 hnp2
      · rw [← ep1, normalized_diff_rotation c m r1 r2 i jp1]
        exact lp2 jp1 hjp1 hnp1
    have hn : n1 = n2 := by
      apply le_antisymm
      · rw [← en2, ← normalized_diff_rotation c m r1 r2 jn2 i]
        exact ln1 jn2 hjn2 hnn2
      · rw [← en1, normalized_diff_rotation c m r1 r2 jn1 i]
        exact ln2 jn1 hjn1 hnn1
    refine ⟨by rw [hw1, hw2, hp, hn], ?_⟩
    rw [hm1, hm2, hp, hn]
    obtain ⟨ka, ha⟩ := wrap_twopi_eq_add c
      ((m.withRotation r2).normalizedAzimuth c i + (n2 - p2) / 4)
    obtain ⟨kb, hb⟩ := wrap_twopi_eq_add c
      ((m.withRotation r1).normalizedAzimuth c i + (n2 - p2) / 4)
    obtain ⟨kc, hc⟩ := wrap_twopi_eq_add c (m.getPlanewaveAzimuth i + r2)
    obtain ⟨kd, hd'⟩ := wrap_twopi_eq_add c (m.getPlanewaveAzimuth i + r1)
    have e2 : (m.withRotation r2).normalizedAzimuth c i =
        m.getPlanewaveAzimuth i + r2 + c.HOA_2PI * kc := hc
    have e1 : (m.withRotation r1).normalizedAzimuth c i =
        m.getPlanewaveAzimuth i + r1 + c.HOA_2PI * kd := hd'
    refine ⟨ka - kb + kc - kd, ?_⟩
    rw [ha, hb, e2, e1]
    push_cast
    ring
  · intro h1
    obtain ⟨a1, a2⟩ := single_channel_stores c (m.withRotation r1) hwf1 h1
    obtain ⟨b1, b2⟩ := single_channel_stores c (m.withRotation r2) hwf2 h1
    exact ⟨a2, b2, by rw [a1, b1]⟩

/-- Witness of C33 on the three-channel example, with the offsets `2` and `5`. -/
theorem rotation_equivariance_witness :
    exampleMeter.WellFormed ∧
    ((2 ≤ exampleMeter.getNumberOfPlanewaves →
      (∀ i j, i < exampleMeter.getNumberOfPlanewaves → j < exampleMeter.getNumberOfPlanewaves →
        i ≠ j → (exampleMeter.withRotation 2).normalizedAzimuth exampleDefs i ≠
          (exampleMeter.withRotation 2).normalizedAzimuth exampleDefs j) →
      ∀ i, i < exampleMeter.getNumberOfPlanewaves →
        ((exampleMeter.withRotation 2).computeRendering exampleDefs).getPlanewaveWidth i =
          ((exampleMeter.withRotation 5).computeRendering exampleDefs).getPlanewaveWidth i ∧
        ∃ k : ℤ,
          ((exampleMeter.withRotation 5).computeRendering exampleDefs).getPlanewaveAzimuthMapped i -
            ((exampleMeter.withRotation 2).computeRendering exampleDefs).getPlanewaveAzimuthMapped i
            = (5 - 2) + exampleDefs.HOA_2PI * k) ∧
    (exampleMeter.getNumberOfPlanewaves = 1 →
      ((exampleMeter.withRotation 2).computeRendering exampleDefs).getPlanewaveAzimuthMapped 0
        = 0 ∧
      ((exampleMeter.withRotation 5).computeRendering exampleDefs).getPlanewaveAzimuthMapped 0
        = 0 ∧
      ((exampleMeter.withRotation 2).computeRendering exampleDefs).getPlanewaveWidth 0 =
        ((exampleMeter.withRotation 5).computeRendering exampleDefs).getPlanewaveWidth 0)) :=
  ⟨exampleMeter_wellFormed, rotation_equivariance exampleDefs exampleMeter
    exampleMeter_wellFormed 2 5⟩

end RotationClaim

section MachineArithmeticLemmas

theorem log_two_eq (r : ℚ) (e : ℤ) (h1 : (2 : ℚ) ^ e ≤ r) (h2 : r < (2 : ℚ) ^ (e + 1)) :
    Int.log 2 r = e := by
  have hr : 0 < r := lt_of_lt_of_le (by positivity) h1
  have a : e ≤ Int.log 2 r :=
    (Int.zpow_le_iff_le_log (by norm_num) hr).mp (by exact_mod_cast h1)
  have b : Int.log 2 r < e + 1 :=
    (Int.lt_zpow_iff_log_lt (by norm_num) hr).mp (by exact_mod_cast h2)
  omega

/-- The `double` value of `HOA_2PI` is within half a unit in the last place
(`2 ^ (-51)`) of `2π`. -/
theorem doubleDefs_near_two_pi :
    |((doubleDefs.HOA_2PI : ℚ) : ℝ) - 2 * Real.pi| < 1 / 2 ^ 51 := by
  have h1 := Real.pi_gt_d20
  have h2 := Real.pi_lt_d20
  rw [abs_lt]
  constructor
  · norm_num [doubleDefs] at h1 h2 ⊢
    linarith
  · norm_num [doubleDefs] at h1 h2 ⊢
    linarith

/-- Around `10 ^ 17` the `double`s are the multiples of `16`: subtracting less
than `8` and rounding gives `10 ^ 17` back. -/
theorem roundDouble_absorbs (p : ℚ) (h0 : 0 < p) (h8 : p < 8) :
    roundDouble (10 ^ 17 - p) = 10 ^ 17 := by
  have hpos : (0 : ℚ) < 10 ^ 17 - p := by
    norm_num
    linarith
  have hl : Int.log 2 |10 ^ 17 - p| = 56 := by
    rw [abs_of_pos hpos]
    refine log_two_eq _ 56 ?_ ?_
    · norm_num
      linarith
    · norm_num
      linarith
  have hq : (10 ^ 17 - p) / (2 : ℚ) ^ ((56 : ℤ) - 52) = 6250000000000000 - p / 16 := by
    norm_num
    ring
  have hf : ⌊(6250000000000000 : ℚ) - p / 16⌋ = 6249999999999999 := by
    rw [Int.floor_eq_iff]
    constructor
    · push_cast
      linarith
    · push_cast
      linarith
  unfold roundDouble
  rw [if_neg (ne_of_gt hpos), hl, hq]
  unfold roundNearestEven
  rw [hf]
  have a : ¬ ((6250000000000000 : ℚ) - p / 16 - ((6249999999999999 : ℤ) : ℚ) < 1 / 2) := by
    push_cast
    intro h
    linarith
  have b : (1 : ℚ) / 2 < 6250000000000000 - p / 16 - ((6249999999999999 : ℤ) : ℚ) := by
    push_cast
    linarith
  rw [if_neg a, if_pos b]
  norm_num

theorem wrapDownT_stuck {K : Type} [LinearOrderedField K] (rnd : K → K) (c : Defs K) (x : K)
    (h : c.HOA_2PI ≤ x) (hfix : rnd (x - c.HOA_2PI) = x) :
    ∀ fuel, wrapDownT rnd c fuel x = none := by
  intro fuel
  induction fuel with
  | zero => exact if_pos h
  | succ n ih =>
    show (if c.HOA_2PI ≤ x then wrapDownT rnd c n (rnd (x - c.HOA_2PI)) else some x) = none
    rw [if_pos h, hfix]
    exact ih

theorem wrapUpT_of_nonneg {K : Type} [LinearOrderedField K] (rnd : K → K) (c : Defs K) (x : K)
    (h : 0 ≤ x) : ∀ fuel, wrapUpT rnd c fuel x = some x := by
  intro fuel
  cases fuel with
  | zero => exact if_neg (not_lt.mpr h)
  | succ n => exact if_neg (not_lt.mpr h)

end MachineArithmeticLemmas

section MachineArithmeticExact

variable {K : Type} [LinearOrderedField K] [FloorRing K]

theorem wrapUpT_exact (c : Defs K) :
    ∀ (fuel : Nat) (x : K), (⌈-x / c.HOA_2PI⌉).toNat ≤ fuel →
      wrapUpT id c fuel x = some (wrapUp c x) := by
  have hp := c.HOA_2PI_pos
  intro fuel
  induction fuel with
  | zero =>
    intro x hx
    have h0 : 0 ≤ x := by
      by_contra hn
      have : 0 < ⌈-x / c.HOA_2PI⌉ := Int.ceil_pos.mpr (div_pos (by linarith) hp)
      omega
    rw [wrapUp_of_nonneg c x h0]
    exact if_neg (not_lt.mpr h0)
  | succ n ih =>
    intro x hx
    by_cases h : x < 0
    · have e : -(x + c.HOA_2PI) / c.HOA_2PI = -x / c.HOA_2PI - 1 := by
        field_simp
        ring
      have hc : 0 < ⌈-x / c.HOA_2PI⌉ := Int.ceil_pos.mpr (div_pos (by linarith) hp)
      have hm : (⌈-(x + c.HOA_2PI) / c.HOA_2PI⌉).toNat ≤ n := by
        rw [e, Int.ceil_sub_one]
        omega
      rw [wrapUp_of_neg c x h]
      show (if x < 0 then wrapUpT id c n (id (x + c.HOA_2PI)) else some x) = _
      rw [if_pos h]
      exact ih (x + c.HOA_2PI) hm
    · rw [wrapUp_of_nonneg c x (not_lt.mp h)]
      exact if_neg h

theorem wrapDownT_exact (c : Defs K) :
    ∀ (fuel : Nat) (x : K), (⌊x / c.HOA_2PI⌋).toNat ≤ fuel →
      wrapDownT id c fuel x = some (wrapDown c x) := by
  have hp := c.HOA_2PI_pos
  intro fuel
  induction fuel with
  | zero =>
    intro x hx
    have h0 : x < c.HOA_2PI := by
      by_contra hn
      have : 0 < ⌊x / c.HOA_2PI⌋ := Int.floor_pos.mpr ((one_le_div hp).mpr (not_lt.mp hn))
      omega
    rw [wrapDown_of_lt c x h0]
    exact if_neg (not_le.mpr h0)
  | succ n ih =>
    intro x hx
    by_cases h : c.HOA_2PI ≤ x
    · have e : (x - c.HOA_2PI) / c.HOA_2PI = x / c.HOA_2PI - 1 := by
        field_simp
      have hc : 0 < ⌊x / c.HOA_2PI⌋ := Int.floor_pos.mpr ((one_le_div hp).mpr h)
      have hm : (⌊(x - c.HOA_2PI) / c.HOA_2PI⌋).toNat ≤ n := by
        rw [e, Int.floor_sub_one]
        omega
      rw [wrapDown_of_ge c x h]
      show (if c.HOA_2PI ≤ x then wrapDownT id c n (id (x - c.HOA_2PI)) else some x) = _
      rw [if_pos h]
      exact ih (x - c.HOA_2PI) hm
    · rw [wrapDown_of_lt c x (not_le.mp h)]
      exact if_neg h

/-- With the identity as rounding (exact arithmetic) the loops of `wrap_twopiT` end
for every value, and the result is that of `wrap_twopi`: enough fuel is the larger
of the two iteration counts. -/
theorem wrap_twopiT_exact (c : Defs K) (x : K) (fuel : Nat)
    (h1 : (⌈-x / c.HOA_2PI⌉).toNat ≤ fuel) (h2 : (⌊wrapUp c x / c.HOA_2PI⌋).toNat ≤ fuel) :
    wrap_twopiT id c fuel x = some (wrap_twopi c x) := by
  unfold wrap_twopiT wrap_twopi
  rw [wrapUpT_exact c fuel x h1]
  exact wrapDownT_exact c fuel (wrapUp c x) h2

end MachineArithmeticExact

section DoubleWrap

/-- With the rounding to `double` the model still wraps ordinary angles: `7` is
brought to `7 - HOA_2PI`, an exact difference of two `double`s. -/
theorem wrap_twopi_double_seven :
    wrap_twopiT roundDouble doubleDefs 1 7 = some (100882699483741 / 2 ^ 47) := by
  have hl : Int.log 2 |(7 : ℚ) - 7074237752028440 / 2 ^ 50| = -1 := by
    rw [abs_of_pos (by norm_num)]
    exact log_two_eq _ (-1) (by norm_num) (by norm_num)
  have hr : roundDouble ((7 : ℚ) - 7074237752028440 / 2 ^ 50) = 100882699483741 / 2 ^ 47 := by
    unfold roundDouble
    rw [if_neg (by norm_num), hl]
    have hq : ((7 : ℚ) - 7074237752028440 / 2 ^ 50) / (2 : ℚ) ^ ((-1 : ℤ) - 52)
        = ((6456492766959424 : ℤ) : ℚ) := by
      norm_num
    rw [hq]
    have hn : roundNearestEven ((6456492766959424 : ℤ) : ℚ) = 6456492766959424 := by
      unfold roundNearestEven
      rw [Int.floor_intCast]
      norm_num
    rw [hn]
    norm_num
  unfold wrap_twopiT
  rw [wrapUpT_of_nonneg roundDouble doubleDefs 7 (by norm_num) 1]
  show wrapDownT roundDouble doubleDefs 1 7 = _
  show (if doubleDefs.HOA_2PI ≤ (7 : ℚ)
      then wrapDownT roundDouble doubleDefs 0 (roundDouble (7 - doubleDefs.HOA_2PI))
      else some 7) = _
  have e : doubleDefs.HOA_2PI = 7074237752028440 / 2 ^ 50 := rfl
  rw [e, if_pos (by norm_num), hr]
  show (if (7074237752028440 / 2 ^ 50 : ℚ) ≤ 100882699483741 / 2 ^ 47 then none
      else some (100882699483741 / 2 ^ 47 : ℚ)) = _
  rw [if_neg (by norm_num)]

/-- C18 does not hold of the code: in the arithmetic of `double`,
`wrap_twopi(1e17)` does not return. `1e17` is a `double` (`roundDouble` leaves it
unchanged) and is not negative, so the first loop is passed; in the second loop
`1e17 >= HOA_2PI` holds and `1e17 - HOA_2PI` rounds to `1e17` (the `double`s
around `1e17` are `16` apart), so the loop variable never changes: whatever the
number of iterations allowed, the loop has not come to its end. -/
theorem wrap_twopi_double_never_returns :
    roundDouble (10 ^ 17) = 10 ^ 17 ∧
    roundDouble (10 ^ 17 - doubleDefs.HOA_2PI) = 10 ^ 17 ∧
    ∀ fuel, wrap_twopiT roundDouble doubleDefs fuel (10 ^ 17) = none := by
  have hfix : roundDouble (10 ^ 17 - doubleDefs.HOA_2PI) = 10 ^ 17 :=
    roundDouble_absorbs doubleDefs.HOA_2PI doubleDefs.HOA_2PI_pos (by norm_num [doubleDefs])
  refine ⟨?_, hfix, ?_⟩
  · have hl : Int.log 2 |(10 : ℚ) ^ 17| = 56 := by
      rw [abs_of_pos (by norm_num)]
      exact log_two_eq _ 56 (by norm_num) (by norm_num)
    unfold roundDouble
    rw [if_neg (by norm_num), hl]
    have hq : ((10 : ℚ) ^ 17) / (2 : ℚ) ^ ((56 : ℤ) - 52) = ((6250000000000000 : ℤ) : ℚ) := by
      norm_num
    rw [hq]
    have hn : roundNearestEven ((6250000000000000 : ℤ) : ℚ) = 6250000000000000 := by
      unfold roundNearestEven
      rw [Int.floor_intCast]
      norm_num
    rw [hn]
    norm_num
  · intro fuel
    unfold wrap_twopiT
    rw [wrapUpT_of_nonneg roundDouble doubleDefs (10 ^ 17) (by norm_num) fuel]
    exact wrapDownT_stuck roundDouble doubleDefs (10 ^ 17) (by norm_num [doubleDefs]) hfix fuel

end DoubleWrap

end Hoa
